import Mathlib

/-!
# Virtual Keyboard: key selection and key-press controller

A shallow embedding of `KeyboardKeys.cpp`, `OneKeyboardKey.cpp` and the parts
of `Transform.hpp` they use.

Modelling conventions.

* Coordinates (`float`/`double` in the source) are exact rationals; the white
  key spacing `X_DIFF_BETWEEN_WHITE_KEYS = 2.4` is `12/5`.  Rounding of binary
  floating point is not modelled.
* C `int` values are `Int`; where the source compares an `int` with an
  `unsigned int` the conversion modulo `2^32` is written out.
* Array reads through `whiteKeys[i]`, `blackKeys[i]` and `m_soundEffect[i]`
  are bounds-checked: an access outside the array makes the operation return
  `none`.
* Calls into SDL are recorded: `SDL_AddTimer` appends to the list of timers,
  `Mix_PlayChannel` and `Mix_FadeOutChannel` append to an audio log.  The
  channel number returned by `Mix_PlayChannel` is an input of the operation.
-/

namespace VirtualKeyboard

/-! ## Constants of `KeyboardKeys.hpp` and `OneKeyboardKey.hpp` -/

/-- Number of white keys on the keyboard (`NUM_WHITE_KEYS`, an `unsigned int`). -/
def NUM_WHITE_KEYS : Nat := 52

/-- Number of black keys on the keyboard (`NUM_BLACK_KEYS`, an `unsigned int`). -/
def NUM_BLACK_KEYS : Nat := 36

/-- Number of complete octaves on the keyboard. -/
def NUM_OCTAVES : Nat := 7

/-- Number of white keys in one octave. -/
def NUM_KEYS_IN_OCTAVE : Nat := 7

/-- Distance between adjacent white keys, `2.4` in the source. -/
def X_DIFF_BETWEEN_WHITE_KEYS : ℚ := 12 / 5

/-- Milliseconds between two movements of a key (`DELAY`). -/
def DELAY : Nat := 10

/-- Number of levels a key can go down (`NUM_INTERVALS`). -/
def NUM_INTERVALS : Int := 5

/-- How far a key goes down in total (`KEYPRESS_DEPTH`). -/
def KEYPRESS_DEPTH : Int := 1

/-- Vertical travel of one tick, `(float)KEYPRESS_DEPTH / (float)NUM_INTERVALS`. -/
def INCREMENTAL_DEPTH : ℚ := (KEYPRESS_DEPTH : ℚ) / (NUM_INTERVALS : ℚ)

/-- Fade-out time of a note after its key is released (`DELAY_BEFORE_STOP_SOUND`). -/
def DELAY_BEFORE_STOP_SOUND : Nat := 1000

/-- Index of the organ sound in `m_soundEffect`. -/
def ORGAN_SOUND : Nat := 0

/-- Index of the piano sound in `m_soundEffect`. -/
def PIANO_SOUND : Nat := 1

/-- Number of sounds of a key, the last member of the enum. -/
def NUM_SOUNDS : Nat := 2

/-! ## Vectors and numeric conversions -/

/-- A `glm::vec3`. -/
structure Vec3 where
  x : ℚ
  y : ℚ
  z : ℚ
deriving DecidableEq

/-- Conversion of a floating value to `int`: the fractional part is discarded. -/
def truncToInt (q : ℚ) : Int :=
  if 0 ≤ q then Int.floor q else Int.ceil q

/-- The C library `fmod`: `a - b * n` with `n` the quotient `a / b` truncated toward zero. -/
def fmod (a b : ℚ) : ℚ :=
  a - b * (truncToInt (a / b) : ℚ)

/-- Conversion of an `int` to `unsigned int`. -/
def toUnsigned (k : Int) : Int :=
  k % 2 ^ 32

/-- Range of a 32-bit `int`. -/
def IsInt32 (k : Int) : Prop :=
  -(2 ^ 31) ≤ k ∧ k < 2 ^ 31

instance (k : Int) : Decidable (IsInt32 k) := by
  unfold IsInt32; infer_instance

/-! ## `KeyboardKeys::getSelectedKey` -/

/-- The key selected by a position, `KeyboardKeys::getSelectedKey`: `0..51` for
white keys, `-1` for no selection, `-2..-37` for black keys. -/
def getSelectedKey (position : Vec3) : Int :=
  let x := position.x
  if x < 0 then -1
  else if x < X_DIFF_BETWEEN_WHITE_KEYS * (3 / 4) then 0
  else if x > (NUM_WHITE_KEYS : ℚ) * X_DIFF_BETWEEN_WHITE_KEYS then -1
  else if x > ((NUM_WHITE_KEYS : ℚ) - 1 / 2) * X_DIFF_BETWEEN_WHITE_KEYS then
    (NUM_WHITE_KEYS : Int) - 1
  else
    let keyIndex : ℚ := x / X_DIFF_BETWEEN_WHITE_KEYS
    let octave : Int := truncToInt (keyIndex / (NUM_KEYS_IN_OCTAVE : ℚ))
    let keyIndex : ℚ := fmod keyIndex (NUM_KEYS_IN_OCTAVE : ℚ)
    if keyIndex < 1 / 4 then -octave * 5 - 1
    else if keyIndex < 3 / 4 then octave * 7
    else if keyIndex < 5 / 4 then -octave * 5 - 2
    else if keyIndex < 2 then octave * 7 + 1
    else if keyIndex < 11 / 4 then octave * 7 + 2
    else if keyIndex < 13 / 4 then -octave * 5 - 3
    else if keyIndex < 15 / 4 then octave * 7 + 3
    else if keyIndex < 17 / 4 then -octave * 5 - 4
    else if keyIndex < 5 then octave * 7 + 4
    else if keyIndex < 23 / 4 then octave * 7 + 5
    else if keyIndex < 25 / 4 then -octave * 5 - 5
    else if keyIndex < 27 / 4 then octave * 7 + 6
    else -octave * 5 - 6

/-- The thirteen-way case distinction that ends `getSelectedKey`, as a function of the
octave and the octave-local key index.  It is used to state lemmas; `getSelectedKey`
does not call it. -/
def octaveTable (octave : Int) (keyIndex : ℚ) : Int :=
  if keyIndex < 1 / 4 then -octave * 5 - 1
  else if keyIndex < 3 / 4 then octave * 7
  else if keyIndex < 5 / 4 then -octave * 5 - 2
  else if keyIndex < 2 then octave * 7 + 1
  else if keyIndex < 11 / 4 then octave * 7 + 2
  else if keyIndex < 13 / 4 then -octave * 5 - 3
  else if keyIndex < 15 / 4 then octave * 7 + 3
  else if keyIndex < 17 / 4 then -octave * 5 - 4
  else if keyIndex < 5 then octave * 7 + 4
  else if keyIndex < 23 / 4 then octave * 7 + 5
  else if keyIndex < 25 / 4 then -octave * 5 - 5
  else if keyIndex < 27 / 4 then octave * 7 + 6
  else -octave * 5 - 6

/-! ## `Transform` -/

/-- A `Transform`: position, rotation and scale of a mesh. -/
structure Transform where
  m_pos : Vec3
  m_rot : Vec3
  m_scale : Vec3
deriving DecidableEq

/-- The default constructor `Transform::Transform()`. -/
def Transform.new : Transform :=
  { m_pos := ⟨0, 0, 0⟩, m_rot := ⟨0, 0, 0⟩, m_scale := ⟨1, 1, 1⟩ }

/-- `Transform::moveRight`. -/
def Transform.moveRight (t : Transform) (offset : ℚ) : Transform :=
  { t with m_pos := { t.m_pos with x := t.m_pos.x + offset } }

/-- `Transform::moveUp`. -/
def Transform.moveUp (t : Transform) (offset : ℚ) : Transform :=
  { t with m_pos := { t.m_pos with y := t.m_pos.y + offset } }

/-- `Transform::moveDown`. -/
def Transform.moveDown (t : Transform) (offset : ℚ) : Transform :=
  { t with m_pos := { t.m_pos with y := t.m_pos.y - offset } }

/-! ## SDL side: audio calls and timers -/

/-- A call into SDL_mixer made by a key. -/
inductive AudioCall where
  /-- `Mix_PlayChannel(-1, chunk, 0)`; `chunk` is named by the file it was loaded from,
  `result` is the channel the mixer returned. -/
  | playChannel (chunk : String) (result : Int)
  /-- `Mix_FadeOutChannel(channel, ms)`; the channel is `none` when the key never
  played a sound, its `m_soundChannel` then being uninitialised. -/
  | fadeOutChannel (channel : Option Int) (ms : Nat)
deriving DecidableEq

/-- A pointer to a key object: `whiteKeys[i]` or `blackKeys[i]`. -/
inductive KeyRef where
  | white (i : Nat)
  | black (i : Nat)
deriving DecidableEq

/-- The two timer callbacks of `KeyboardKeys.cpp`. -/
inductive TimerCallback where
  | pressDownKey
  | liftUpKey
deriving DecidableEq

/-- A timer registered with `SDL_AddTimer(interval, callback, param)`. -/
structure Timer where
  interval : Nat
  callback : TimerCallback
  param : KeyRef
deriving DecidableEq

/-! ## `OneKeyboardKey` -/

/-- The index array a key mesh is built from, one per `make...Key` helper. -/
inductive KeyShape where
  | black
  | white
  | whiteR
  | whiteL
  | whiteLR
deriving DecidableEq

/-- One keyboard key.  `m_soundEffect` holds the loaded chunks, each named by its
path; `m_soundChannel` is `none` until `playSound` first assigns it. -/
structure OneKeyboardKey where
  shape : KeyShape
  m_transform : Transform
  m_keyLevel : Int
  m_soundEffect : List String
  m_soundChannel : Option Int
deriving DecidableEq

/-- The constructor `OneKeyboardKey::OneKeyboardKey`. -/
def OneKeyboardKey.new (shape : KeyShape) (transform : Transform)
    (organSoundPath pianoSoundPath : String) : OneKeyboardKey :=
  { shape := shape
    m_transform := transform
    m_keyLevel := 0
    m_soundEffect := [organSoundPath, pianoSoundPath]
    m_soundChannel := none }

/-- `OneKeyboardKey::keyDown`: one level down. -/
def OneKeyboardKey.keyDown (k : OneKeyboardKey) : OneKeyboardKey :=
  { k with m_keyLevel := k.m_keyLevel - 1
           m_transform := k.m_transform.moveDown INCREMENTAL_DEPTH }

/-- `OneKeyboardKey::keyUp`: one level up. -/
def OneKeyboardKey.keyUp (k : OneKeyboardKey) : OneKeyboardKey :=
  { k with m_keyLevel := k.m_keyLevel + 1
           m_transform := k.m_transform.moveUp INCREMENTAL_DEPTH }

/-- `OneKeyboardKey::isAtBottom`. -/
def OneKeyboardKey.isAtBottom (k : OneKeyboardKey) : Bool :=
  decide (k.m_keyLevel = -NUM_INTERVALS)

/-- `OneKeyboardKey::isAtTop`. -/
def OneKeyboardKey.isAtTop (k : OneKeyboardKey) : Bool :=
  decide (k.m_keyLevel ≥ 0)

/-- `OneKeyboardKey::keyIsMoving`. -/
def OneKeyboardKey.keyIsMoving (k : OneKeyboardKey) : Bool :=
  if k.m_keyLevel ≥ 0 ∨ k.m_keyLevel < -NUM_INTERVALS then false else true

/-- `OneKeyboardKey::playSound`: plays `m_soundEffect[soundToPlay]` and stores the
channel `result` returned by the mixer.  Gives the key and the call made. -/
def OneKeyboardKey.playSound (k : OneKeyboardKey) (soundToPlay : Nat) (result : Int) :
    Option (OneKeyboardKey × AudioCall) :=
  match k.m_soundEffect[soundToPlay]? with
  | none => none
  | some chunk => some ({ k with m_soundChannel := some result }, .playChannel chunk result)

/-- `OneKeyboardKey::stopSound`: the fade-out call it makes; the key is unchanged. -/
def OneKeyboardKey.stopSound (k : OneKeyboardKey) : AudioCall :=
  .fadeOutChannel k.m_soundChannel DELAY_BEFORE_STOP_SOUND

/-- The timer callback `pressDownKey`: the interval to wait next (`0` cancels the
timer) and the key after the call. -/
def pressDownKey (interval : Nat) (theKey : OneKeyboardKey) : Nat × OneKeyboardKey :=
  if !theKey.isAtBottom then (interval, theKey.keyDown) else (0, theKey)

/-- The timer callback `liftUpKey`. -/
def liftUpKey (interval : Nat) (theKey : OneKeyboardKey) : Nat × OneKeyboardKey :=
  if !theKey.isAtTop then (interval, theKey.keyUp) else (0, theKey)

/-! ## `KeyboardKeys` -/

/-- The controller object together with the timers and the audio calls it has issued
to SDL. -/
structure KeyboardKeys where
  resFolder : String
  whiteKeys : List OneKeyboardKey
  blackKeys : List OneKeyboardKey
  m_curKeyDown : Int
  m_soundToUse : Nat
  timers : List Timer
  audio : List AudioCall
deriving DecidableEq

/-- The test `key >= 0 && key < NUM_WHITE_KEYS`; the second comparison is unsigned. -/
def isWhiteIndex (key : Int) : Prop :=
  key ≥ 0 ∧ toUnsigned key < (NUM_WHITE_KEYS : Int)

instance (key : Int) : Decidable (isWhiteIndex key) := by
  unfold isWhiteIndex; infer_instance

/-- The test `key < -1 && key > -(NUM_BLACK_KEYS + 2)`; the right-hand side of the
second comparison is the unsigned value `2^32 - 38`, and `key` is converted to
unsigned for it. -/
def isBlackIndex (key : Int) : Prop :=
  key < -1 ∧ toUnsigned key > toUnsigned (-((NUM_BLACK_KEYS : Int) + 2))

instance (key : Int) : Decidable (isBlackIndex key) := by
  unfold isBlackIndex; infer_instance

/-- `KeyboardKeys::nextSoundSetting`, in unsigned arithmetic. -/
def KeyboardKeys.nextSoundSetting (s : KeyboardKeys) : KeyboardKeys :=
  { s with m_soundToUse := ((s.m_soundToUse + 1) % 2 ^ 32) % NUM_SOUNDS }

/-- `KeyboardKeys::keyIsDown`. -/
def KeyboardKeys.keyIsDown (s : KeyboardKeys) (key : Int) : Bool :=
  decide (s.m_curKeyDown = key)

/-- `KeyboardKeys::keyIsMoving`. -/
def KeyboardKeys.keyIsMoving (s : KeyboardKeys) : Option Bool :=
  if isWhiteIndex s.m_curKeyDown then
    (s.whiteKeys[s.m_curKeyDown.toNat]?).map OneKeyboardKey.keyIsMoving
  else if isBlackIndex s.m_curKeyDown then
    (s.blackKeys[(-(s.m_curKeyDown + 2)).toNat]?).map OneKeyboardKey.keyIsMoving
  else
    some false

/-- `KeyboardKeys::keyUp`: fades the sound of the key out and starts its lift timer. -/
def KeyboardKeys.keyUp (s : KeyboardKeys) (key : Int) : Option KeyboardKeys := do
  let s ←
    if isWhiteIndex key then do
      let theKey ← s.whiteKeys[key.toNat]?
      pure { s with audio := s.audio ++ [theKey.stopSound]
                    timers := s.timers ++ [⟨DELAY, .liftUpKey, .white key.toNat⟩] }
    else pure s
  if isBlackIndex key then do
    let positiveKey := -(key + 2)
    let theKey ← s.blackKeys[positiveKey.toNat]?
    pure { s with audio := s.audio ++ [theKey.stopSound]
                  timers := s.timers ++ [⟨DELAY, .liftUpKey, .black positiveKey.toNat⟩] }
  else pure s

/-- `KeyboardKeys::keyDown`; `mixResult` is the channel `Mix_PlayChannel` returns
when the sound of the key is started. -/
def KeyboardKeys.keyDown (s : KeyboardKeys) (key : Int) (mixResult : Int) :
    Option KeyboardKeys :=
  if s.m_curKeyDown ≠ key then do
    let s ←
      if isWhiteIndex key then do
        let s ← s.keyUp s.m_curKeyDown
        let s := { s with m_curKeyDown := key }
        let theKey ← s.whiteKeys[key.toNat]?
        let (theKey, call) ← theKey.playSound s.m_soundToUse mixResult
        pure { s with whiteKeys := s.whiteKeys.set key.toNat theKey
                      audio := s.audio ++ [call]
                      timers := s.timers ++ [⟨DELAY, .pressDownKey, .white key.toNat⟩] }
      else pure s
    if isBlackIndex key then do
      let s ← s.keyUp s.m_curKeyDown
      let s := { s with m_curKeyDown := key }
      let positiveKey := -(key + 2)
      let theKey ← s.blackKeys[positiveKey.toNat]?
      let (theKey, call) ← theKey.playSound s.m_soundToUse mixResult
      pure { s with blackKeys := s.blackKeys.set positiveKey.toNat theKey
                    audio := s.audio ++ [call]
                    timers := s.timers ++ [⟨DELAY, .pressDownKey, .black positiveKey.toNat⟩] }
    else pure s
  else pure s

/-- Runs the callback of the `n`-th registered timer once, as SDL does when the timer
expires: the callback acts on the key it was given, and the timer is removed when the
callback returns `0` and rescheduled with the returned interval otherwise. -/
def KeyboardKeys.fireTimer (s : KeyboardKeys) (n : Nat) : Option KeyboardKeys := do
  let t ← s.timers[n]?
  match t.param with
  | .white i =>
    let theKey ← s.whiteKeys[i]?
    let r := match t.callback with
      | .pressDownKey => pressDownKey t.interval theKey
      | .liftUpKey => liftUpKey t.interval theKey
    pure { s with whiteKeys := s.whiteKeys.set i r.2
                  timers := if r.1 = 0 then s.timers.eraseIdx n
                            else s.timers.set n { t with interval := r.1 } }
  | .black i =>
    let theKey ← s.blackKeys[i]?
    let r := match t.callback with
      | .pressDownKey => pressDownKey t.interval theKey
      | .liftUpKey => liftUpKey t.interval theKey
    pure { s with blackKeys := s.blackKeys.set i r.2
                  timers := if r.1 = 0 then s.timers.eraseIdx n
                            else s.timers.set n { t with interval := r.1 } }

/-! ## The constructor `KeyboardKeys::KeyboardKeys` -/

/-- Extension of the sound files. -/
def SOUND_EXTENSION : String := ".aiff"

/-- Folder of the organ sounds below the resource folder. -/
def ORGAN_FOLDER : String := "/organ_sounds/"

/-- Folder of the piano sounds below the resource folder. -/
def PIANO_FOLDER : String := "/piano_sounds/"

/-- The object while its constructor runs: the two allocated arrays, whose slots are
`none` until a key is stored in them, and the locals `transform`, `whiteKeysFilled`
and `blackKeysFilled`.  The field `stores` records, in order, the slots the constructor
has assigned so far. -/
structure Construction where
  resFolder : String
  whiteKeys : List (Option OneKeyboardKey)
  blackKeys : List (Option OneKeyboardKey)
  transform : Transform
  whiteKeysFilled : Nat
  blackKeysFilled : Nat
  stores : List KeyRef
deriving DecidableEq

/-- The four helpers `makeWhiteKey`, `makeWhiteKeyR`, `makeWhiteKeyL` and
`makeWhiteKeyLR`, which differ in the index array only: stores a new key in
`whiteKeys[keysFilled]`.  A store outside the array gives `none`. -/
def Construction.makeWhiteKey (c : Construction) (shape : KeyShape) (keysFilled : Nat)
    (transform : Transform) (keyName : String) : Option Construction :=
  let organSoundPath := c.resFolder ++ ORGAN_FOLDER ++ keyName ++ SOUND_EXTENSION
  let pianoSoundPath := c.resFolder ++ PIANO_FOLDER ++ keyName ++ SOUND_EXTENSION
  if keysFilled < c.whiteKeys.length then
    some { c with whiteKeys := c.whiteKeys.set keysFilled
                    (some (OneKeyboardKey.new shape transform organSoundPath pianoSoundPath))
                  stores := c.stores ++ [.white keysFilled] }
  else none

/-- The helper `makeBlackKey`: stores a new key in `blackKeys[keysFilled]`. -/
def Construction.makeBlackKey (c : Construction) (keysFilled : Nat)
    (transform : Transform) (keyName : String) : Option Construction :=
  let organSoundPath := c.resFolder ++ ORGAN_FOLDER ++ keyName ++ SOUND_EXTENSION
  let pianoSoundPath := c.resFolder ++ PIANO_FOLDER ++ keyName ++ SOUND_EXTENSION
  if keysFilled < c.blackKeys.length then
    some { c with blackKeys := c.blackKeys.set keysFilled
                    (some (OneKeyboardKey.new .black transform organSoundPath pianoSoundPath))
                  stores := c.stores ++ [.black keysFilled] }
  else none

/-- A statement `makeWhiteKey..(whiteKeysFilled++, shader, transform, keyName)`. -/
def Construction.nextWhite (c : Construction) (shape : KeyShape) (keyName : String) :
    Option Construction :=
  (c.makeWhiteKey shape c.whiteKeysFilled c.transform keyName).map
    fun d => { d with whiteKeysFilled := c.whiteKeysFilled + 1 }

/-- A statement `makeBlackKey(blackKeysFilled++, shader, transform, keyName)`. -/
def Construction.nextBlack (c : Construction) (keyName : String) : Option Construction :=
  (c.makeBlackKey c.blackKeysFilled c.transform keyName).map
    fun d => { d with blackKeysFilled := c.blackKeysFilled + 1 }

/-- A statement `transform.moveRight(X_DIFF_BETWEEN_WHITE_KEYS)`. -/
def Construction.moveRight (c : Construction) : Construction :=
  { c with transform := c.transform.moveRight X_DIFF_BETWEEN_WHITE_KEYS }

/-- The body of the loop over the octaves: the keys from C to B of one octave. -/
def Construction.octaveBody (c : Construction) (octave : Nat) : Option Construction := do
  let octaveStr := toString octave
  let c ← c.nextWhite .whiteR (octaveStr ++ "c")
  let c ← c.nextBlack (octaveStr ++ "db")
  let c := c.moveRight
  let c ← c.nextWhite .whiteLR (octaveStr ++ "d")
  let c ← c.nextBlack (octaveStr ++ "eb")
  let c := c.moveRight
  let c ← c.nextWhite .whiteL (octaveStr ++ "e")
  let c := c.moveRight
  let c ← c.nextWhite .whiteR (octaveStr ++ "f")
  let c ← c.nextBlack (octaveStr ++ "gb")
  let c := c.moveRight
  let c ← c.nextWhite .whiteLR (octaveStr ++ "g")
  let c ← c.nextBlack (octaveStr ++ "ab")
  let c := c.moveRight
  let c ← c.nextWhite .whiteLR (octaveStr ++ "a")
  let c ← c.nextBlack (octaveStr ++ "bb")
  let c := c.moveRight
  let c ← c.nextWhite .whiteL (octaveStr ++ "b")
  pure c.moveRight

/-- The loop `for (octave = first; ...; octave++)` run for `n` iterations. -/
def Construction.octaveLoop (c : Construction) (first : Nat) : Nat → Option Construction
  | 0 => some c
  | n + 1 => (c.octaveBody first).bind fun d => d.octaveLoop (first + 1) n

/-- All slots of an array of pointers, provided each one has been assigned. -/
def allFilled {α : Type} : List (Option α) → Option (List α)
  | [] => some []
  | none :: _ => none
  | some a :: rest => (allFilled rest).map fun l => a :: l

/-- The object when the constructor starts to create keys: both arrays allocated, no
slot assigned, the transform at the origin. -/
def Construction.start (resourceFolder : String) : Construction :=
  { resFolder := resourceFolder
    whiteKeys := List.replicate NUM_WHITE_KEYS none
    blackKeys := List.replicate NUM_BLACK_KEYS none
    transform := Transform.new
    whiteKeysFilled := 0
    blackKeysFilled := 0
    stores := [] }

/-- The statements of the constructor that create the keys, from the first A to the
last C. -/
def KeyboardKeys.build (resourceFolder : String) : Option Construction := do
  let c := Construction.start resourceFolder
  let c ← c.nextWhite .whiteR "0a"
  let c ← c.nextBlack "0bb"
  let c := c.moveRight
  let c ← c.nextWhite .whiteL "0b"
  let c := c.moveRight
  let c ← c.octaveLoop 1 NUM_OCTAVES
  let c ← c.nextWhite .white (toString (NUM_OCTAVES + 1) ++ "c")
  pure c.moveRight

/-- The constructor `KeyboardKeys::KeyboardKeys`.  It gives `none` when a key would be
stored outside one of the arrays or a slot of them is left unassigned. -/
def KeyboardKeys.new (resourceFolder : String) : Option KeyboardKeys := do
  let c ← KeyboardKeys.build resourceFolder
  let whiteKeys ← allFilled c.whiteKeys
  let blackKeys ← allFilled c.blackKeys
  pure { resFolder := c.resFolder
         whiteKeys := whiteKeys
         blackKeys := blackKeys
         m_curKeyDown := -1
         m_soundToUse := 0
         timers := []
         audio := [] }


/-! ## Vocabulary for statements about the controller -/

/-- The ids of existing keys: `0..51` for white keys and `-37..-2` for black keys. -/
def IsKeyId (key : Int) : Prop :=
  (0 ≤ key ∧ key ≤ 51) ∨ (-37 ≤ key ∧ key ≤ -2)

instance (key : Int) : Decidable (IsKeyId key) := by
  unfold IsKeyId; infer_instance

/-- The key object an id denotes: `whiteKeys[key]` for `key ≥ 0` and
`blackKeys[-(key + 2)]` below. -/
def KeyRef.ofId (key : Int) : KeyRef :=
  if key ≥ 0 then .white key.toNat else .black (-(key + 2)).toNat

/-- The key object behind a pointer. -/
def KeyboardKeys.getKey (s : KeyboardKeys) : KeyRef → Option OneKeyboardKey
  | .white i => s.whiteKeys[i]?
  | .black i => s.blackKeys[i]?

/-- The controller with the key object behind a pointer replaced. -/
def KeyboardKeys.setKey (s : KeyboardKeys) (r : KeyRef) (k : OneKeyboardKey) : KeyboardKeys :=
  match r with
  | .white i => { s with whiteKeys := s.whiteKeys.set i k }
  | .black i => { s with blackKeys := s.blackKeys.set i k }

/-- A constructed controller: both arrays are completely filled, every key has its two
sounds, the sound setting is one of them, and `m_curKeyDown` is an `int`. -/
def KeyboardKeys.WellFormed (s : KeyboardKeys) : Prop :=
  s.whiteKeys.length = NUM_WHITE_KEYS ∧ s.blackKeys.length = NUM_BLACK_KEYS ∧
  (∀ k ∈ s.whiteKeys, k.m_soundEffect.length = NUM_SOUNDS) ∧
  (∀ k ∈ s.blackKeys, k.m_soundEffect.length = NUM_SOUNDS) ∧
  s.m_soundToUse < NUM_SOUNDS ∧ IsInt32 s.m_curKeyDown

instance (s : KeyboardKeys) : Decidable s.WellFormed := by
  unfold KeyboardKeys.WellFormed; infer_instance

/-- A sequence of calls `keyDown(key)`, each with the channel the mixer returns for it. -/
def KeyboardKeys.keyDowns (s : KeyboardKeys) : List (Int × Int) → Option KeyboardKeys
  | [] => some s
  | (key, mixResult) :: rest => (s.keyDown key mixResult).bind fun t => t.keyDowns rest

/-- A key as its constructor leaves it: at level `0`, with its two sounds loaded and no
channel assigned. -/
def OneKeyboardKey.IsNew (k : OneKeyboardKey) : Prop :=
  k.m_keyLevel = 0 ∧ k.m_soundEffect.length = NUM_SOUNDS ∧ k.m_soundChannel = none

/-- The index of a pointer into `whiteKeys`. -/
def KeyRef.whiteIndex? : KeyRef → Option Nat
  | .white i => some i
  | .black _ => none

/-- The index of a pointer into `blackKeys`. -/
def KeyRef.blackIndex? : KeyRef → Option Nat
  | .white _ => none
  | .black i => some i

/-- The object under construction after `w` white keys, `b` black keys and `m` statements
`transform.moveRight(X_DIFF_BETWEEN_WHITE_KEYS)`: the counters are `w` and `b`, the
arrays keep their allocated sizes, the transform is `m` white keys to the right, the
slots below the counters hold new keys, white key `i` with a transform at `i·Δx`, and the
slots were assigned in the order `0, 1, 2, …`, each once. -/
def Construction.Filled (c : Construction) (w b m : Nat) : Prop :=
  c.whiteKeysFilled = w ∧ c.blackKeysFilled = b ∧
  c.whiteKeys.length = NUM_WHITE_KEYS ∧ c.blackKeys.length = NUM_BLACK_KEYS ∧
  c.transform.m_pos.x = (m : ℚ) * X_DIFF_BETWEEN_WHITE_KEYS ∧
  (∀ i, i < w → ∃ k, c.whiteKeys[i]? = some (some k) ∧ k.IsNew ∧
    k.m_transform.m_pos.x = (i : ℚ) * X_DIFF_BETWEEN_WHITE_KEYS) ∧
  (∀ i, i < b → ∃ k, c.blackKeys[i]? = some (some k) ∧ k.IsNew) ∧
  c.stores.filterMap KeyRef.whiteIndex? = List.range w ∧
  c.stores.filterMap KeyRef.blackIndex? = List.range b

/-- The level of a key lies between fully pressed and released. -/
def OneKeyboardKey.LevelInRange (k : OneKeyboardKey) : Prop :=
  -NUM_INTERVALS ≤ k.m_keyLevel ∧ k.m_keyLevel ≤ 0

/-- Every key of the controller has its level between fully pressed and released. -/
def KeyboardKeys.LevelsInRange (s : KeyboardKeys) : Prop :=
  (∀ k ∈ s.whiteKeys, k.LevelInRange) ∧ (∀ k ∈ s.blackKeys, k.LevelInRange)

/-- The key after its press-down timer has expired `n` times, nothing else touching it. -/
def pressTicks (interval n : Nat) (k : OneKeyboardKey) : OneKeyboardKey :=
  (fun key => (pressDownKey interval key).2)^[n] k

/-- The key after its lift timer has expired `n` times, nothing else touching it. -/
def liftTicks (interval n : Nat) (k : OneKeyboardKey) : OneKeyboardKey :=
  (fun key => (liftUpKey interval key).2)^[n] k

/-- The names of the white notes of an octave, in the order of the keys: C, D, E, F, G,
A, B. -/
def whiteNote : Nat → String
  | 0 => "c"
  | 1 => "d"
  | 2 => "e"
  | 3 => "f"
  | 4 => "g"
  | 5 => "a"
  | _ => "b"

/-- The names of the black notes of an octave, in the order of the keys: Db, Eb, Gb, Ab,
Bb. -/
def blackNote : Nat → String
  | 0 => "db"
  | 1 => "eb"
  | 2 => "gb"
  | 3 => "ab"
  | _ => "bb"

/-- The name of white key `i` in the layout: `0a` and `0b` for the first two keys, then
the number of the octave followed by the note. -/
def whiteKeyName (i : Nat) : String :=
  if i = 0 then "0a"
  else if i = 1 then "0b"
  else toString ((i - 2) / 7 + 1) ++ whiteNote ((i - 2) % 7)

/-- The name of black key `b` in the layout: `0bb` for the first key, then the number of
the octave followed by the note. -/
def blackKeyName (b : Nat) : String :=
  if b = 0 then "0bb"
  else toString ((b - 1) / 5 + 1) ++ blackNote ((b - 1) % 5)

/-- Within an octave, the white key (counted from its C) to the right of which a black key
sits: C for Db, D for Eb, F for Gb, G for Ab, A for Bb. -/
def blackOffset : Nat → Nat
  | 0 => 0
  | 1 => 1
  | 2 => 3
  | 3 => 4
  | _ => 5

/-- The white key `w(b)` at whose position black key `b` is built. -/
def blackKeyWhite (b : Nat) : Nat :=
  if b = 0 then 0
  else 7 * ((b - 1) / 5) + 2 + blackOffset ((b - 1) % 5)

/-- The transform `m` white keys to the right of the origin, not rotated, not scaled: the
rest position of a key built there. -/
def restTransform (m : Nat) : Transform :=
  { m_pos := ⟨(m : ℚ) * X_DIFF_BETWEEN_WHITE_KEYS, 0, 0⟩
    m_rot := ⟨0, 0, 0⟩
    m_scale := ⟨1, 1, 1⟩ }

/-- The white key `i` of the layout as the constructor builds it for a resource folder. -/
def layoutWhiteKey (resFolder : String) (shape : KeyShape) (i : Nat) : OneKeyboardKey :=
  OneKeyboardKey.new shape (restTransform i)
    (resFolder ++ ORGAN_FOLDER ++ whiteKeyName i ++ SOUND_EXTENSION)
    (resFolder ++ PIANO_FOLDER ++ whiteKeyName i ++ SOUND_EXTENSION)

/-- The black key `b` of the layout as the constructor builds it for a resource folder. -/
def layoutBlackKey (resFolder : String) (b : Nat) : OneKeyboardKey :=
  OneKeyboardKey.new .black (restTransform (blackKeyWhite b))
    (resFolder ++ ORGAN_FOLDER ++ blackKeyName b ++ SOUND_EXTENSION)
    (resFolder ++ PIANO_FOLDER ++ blackKeyName b ++ SOUND_EXTENSION)

/-- The content of the object under construction after `w` white keys, `b` black keys and
`m` moves to the right: the transform is at rest position `m` and the slots below the
counters hold the keys of the layout. -/
def Construction.Layout (c : Construction) (w b m : Nat) : Prop :=
  c.transform = restTransform m ∧
  (∀ i, i < w → ∃ shape, c.whiteKeys[i]? = some (some (layoutWhiteKey c.resFolder shape i))) ∧
  (∀ j, j < b → c.blackKeys[j]? = some (some (layoutBlackKey c.resFolder j)))

/-- One step of a run of the program: a call of `keyDown` or of `keyUp` with an `int`
argument, or the expiry of a registered timer, whose callback `pressDownKey` or
`liftUpKey` runs as a whole. -/
inductive Step : KeyboardKeys → KeyboardKeys → Prop where
  | keyDown (s t : KeyboardKeys) (key mixResult : Int) :
      IsInt32 key → s.keyDown key mixResult = some t → Step s t
  | keyUp (s t : KeyboardKeys) (key : Int) :
      IsInt32 key → s.keyUp key = some t → Step s t
  | timer (s t : KeyboardKeys) (n : Nat) :
      s.fireTimer n = some t → Step s t

/-- The states the controller can be in: the constructed one and those a step leads to. -/
inductive Reachable : KeyboardKeys → Prop where
  | init (resourceFolder : String) (s : KeyboardKeys) :
      KeyboardKeys.new resourceFolder = some s → Reachable s
  | step (s t : KeyboardKeys) : Reachable s → Step s t → Reachable t

/-- The controller constructed for the resource folder `res`. -/
def constructed : KeyboardKeys :=
  (KeyboardKeys.new "res").get (by decide)

/-- The constructed controller after `keyDown(0)`, the mixer having returned channel `0`:
the first white key is the current key. -/
def pressed : KeyboardKeys :=
  (constructed.keyDown 0 0).get (by decide)

/-- The controller `pressed` after the press-down timer of the first white key has expired
once: that key is one level down. -/
def ticked : KeyboardKeys :=
  (pressed.fireTimer 0).get (by decide)

/-- The callback of a timer run on a key: the interval to wait next and the key after the
call. -/
def runCallback (cb : TimerCallback) (interval : Nat) (theKey : OneKeyboardKey) :
    Nat × OneKeyboardKey :=
  match cb with
  | .pressDownKey => pressDownKey interval theKey
  | .liftUpKey => liftUpKey interval theKey

/-- The transform the constructor gives the key behind a pointer: white key `i` is built
`i` white keys to the right of the origin, black key `b` at the position of white key
`w(b)`. -/
def KeyRef.rest : KeyRef → Transform
  | .white i => restTransform i
  | .black b => restTransform (blackKeyWhite b)

/-- A timer with the given callback is registered on the key behind the pointer. -/
def KeyboardKeys.hasTimer (s : KeyboardKeys) (cb : TimerCallback) (r : KeyRef) : Prop :=
  ∃ tm ∈ s.timers, tm.callback = cb ∧ tm.param = r

instance (s : KeyboardKeys) (cb : TimerCallback) (r : KeyRef) : Decidable (s.hasTimer cb r) := by
  unfold KeyboardKeys.hasTimer; infer_instance

/-- The expiries of the timers at the given places of the list of timers, one after the
other. -/
def KeyboardKeys.fireTimers (s : KeyboardKeys) : List Nat → Option KeyboardKeys
  | [] => some s
  | n :: rest => (s.fireTimer n).bind fun t => t.fireTimers rest

/-- The states the controller can be in when `keyDown` is called with an id `key` in a
state `s` only where `D s key` holds, and `keyUp` only where `U s key` holds; timers
expire at any time. -/
inductive ReachableBy (D U : KeyboardKeys → Int → Prop) : KeyboardKeys → Prop where
  | init (resourceFolder : String) (s : KeyboardKeys) :
      KeyboardKeys.new resourceFolder = some s → ReachableBy D U s
  | keyDown (s t : KeyboardKeys) (key mixResult : Int) :
      ReachableBy D U s → IsInt32 key → D s key → s.keyDown key mixResult = some t →
      ReachableBy D U t
  | keyUp (s t : KeyboardKeys) (key : Int) :
      ReachableBy D U s → IsInt32 key → U s key → s.keyUp key = some t → ReachableBy D U t
  | timer (s t : KeyboardKeys) (n : Nat) :
      ReachableBy D U s → s.fireTimer n = some t → ReachableBy D U t

/-- The argument of `keyDown` is a result of `getSelectedKey`, as in `Display::update`. -/
def FromSelector (_ : KeyboardKeys) (key : Int) : Prop :=
  ∃ p : Vec3, key = getSelectedKey p

/-- The guard that is never satisfied: no call is made. -/
def NoCall (_ : KeyboardKeys) (_ : Int) : Prop := False

/-- The guard that is always satisfied: every call is allowed. -/
def AnyCall (_ : KeyboardKeys) (_ : Int) : Prop := True

/-- A call `keyDown(key)` that hands the current key over is made only after the press-down
timer of the current key has removed itself and when no lift timer is left on `key`. -/
def AfterEasing (s : KeyboardKeys) (key : Int) : Prop :=
  key = s.m_curKeyDown ∨ ¬ IsKeyId key ∨
  ((IsKeyId s.m_curKeyDown → ¬ s.hasTimer .pressDownKey (KeyRef.ofId s.m_curKeyDown)) ∧
    ¬ s.hasTimer .liftUpKey (KeyRef.ofId key))

/-- A call `keyDown(key)` that hands the current key over is made only when no press-down
timer is registered. -/
def AfterPress (s : KeyboardKeys) (key : Int) : Prop :=
  key = s.m_curKeyDown ∨ ¬ IsKeyId key ∨ ∀ tm ∈ s.timers, tm.callback ≠ .pressDownKey

/-- The controller `pressed` after `keyDown(-2)`: the first white key is released and the
first black key is the current one, no timer having expired in between. -/
def released : KeyboardKeys :=
  (pressed.keyDown (-2) 1).get (by decide)

/-- The controller `pressed` after the press-down timer of the first white key has expired
six times: the key is at the bottom and the timer has removed itself. -/
def settled : KeyboardKeys :=
  (pressed.fireTimers [0, 0, 0, 0, 0, 0]).get (by decide)

/-- The controller `settled` after `keyDown(-2)`. -/
def handed : KeyboardKeys :=
  (settled.keyDown (-2) 1).get (by decide)

/-- The transform of a key is its rest transform moved up by `level · INCREMENTAL_DEPTH`. -/
def OneKeyboardKey.AtDepth (r : KeyRef) (k : OneKeyboardKey) : Prop :=
  k.m_transform = r.rest.moveUp ((k.m_keyLevel : ℚ) * INCREMENTAL_DEPTH)

/-- The guard of a run driven by the selector in which keys are handed over only after
easing: the argument of `keyDown` is a result of `getSelectedKey`, and `AfterEasing`
holds. -/
def SelectedAfterEasing (s : KeyboardKeys) (key : Int) : Prop :=
  FromSelector s key ∧ AfterEasing s key

/-- The controller `handed` after the press-down timer of the first black key has expired
six times. -/
def resettled : KeyboardKeys :=
  (handed.fireTimers [1, 1, 1, 1, 1, 1]).get (by decide)

/-- The controller `resettled` after `keyDown(1)`: the first white key and the first black
key are released, the second white key is the current one. -/
def relayed : KeyboardKeys :=
  (resettled.keyDown 1 2).get (by decide)

/-- The exponent of a positive rational: the integer `e` with `2^e ≤ x < 2^(e+1)`. -/
def binaryExponent (x : ℚ) : Int :=
  if 1 ≤ x then (Nat.log2 (Rat.floor x).toNat : Int)
  else
    let c := (Rat.ceil (1 / x)).toNat
    if 2 ^ Nat.log2 c = c then -(Nat.log2 c : Int) else -((Nat.log2 c : Int) + 1)

/-- The power `2^e` of an integer exponent. -/
def twoPow (e : Int) : ℚ :=
  if 0 ≤ e then ((2 ^ e.toNat : Nat) : ℚ) else 1 / ((2 ^ (-e).toNat : Nat) : ℚ)

/-- Rounding of a non-negative rational to the nearest integer, a tie going to the even
one. -/
def roundHalfEven (n : ℚ) : Int :=
  let f := Rat.floor n
  if n - f < 1 / 2 then f
  else if 1 / 2 < n - f then f + 1
  else if f % 2 = 0 then f else f + 1

/-- Rounding to the nearest binary floating-point number with a significand of `p` bits,
ties to even, the exponent not being limited. -/
def roundBinary (p : Nat) (x : ℚ) : ℚ :=
  if x = 0 then 0
  else
    let a := if x < 0 then -x else x
    let q := twoPow (binaryExponent a - ((p : Int) - 1))
    let r := (roundHalfEven (a / q) : ℚ) * q
    if x < 0 then -r else r

/-- Conversion to `float`. -/
def toFloat (x : ℚ) : ℚ := roundBinary 24 x

/-- Conversion to `double`. -/
def toDouble (x : ℚ) : ℚ := roundBinary 53 x

/-- The constant `X_DIFF_BETWEEN_WHITE_KEYS` as the `double` it is stored in, the one
nearest to `2.4`. -/
def X_DIFF_DOUBLE : ℚ := toDouble X_DIFF_BETWEEN_WHITE_KEYS

/-- `Transform::moveRight` in the arithmetic of the source, `m_pos.x = m_pos.x + offset`
with `m_pos.x` a `float` and `offset` a `double`: the sum is taken in `double` and
stored as `float`. -/
def Transform.moveRightFloat (t : Transform) (offset : ℚ) : Transform :=
  { t with m_pos := { t.m_pos with x := toFloat (toDouble (t.m_pos.x + offset)) } }

/-- A statement `transform.moveRight(X_DIFF_BETWEEN_WHITE_KEYS)` in the arithmetic of the
source. -/
def Construction.moveRightFloat (c : Construction) : Construction :=
  { c with transform := c.transform.moveRightFloat X_DIFF_DOUBLE }

/-- The body of the loop over the octaves, the moves made in the arithmetic of the
source. -/
def Construction.octaveBodyFloat (c : Construction) (octave : Nat) : Option Construction := do
  let octaveStr := toString octave
  let c ← c.nextWhite .whiteR (octaveStr ++ "c")
  let c ← c.nextBlack (octaveStr ++ "db")
  let c := c.moveRightFloat
  let c ← c.nextWhite .whiteLR (octaveStr ++ "d")
  let c ← c.nextBlack (octaveStr ++ "eb")
  let c := c.moveRightFloat
  let c ← c.nextWhite .whiteL (octaveStr ++ "e")
  let c := c.moveRightFloat
  let c ← c.nextWhite .whiteR (octaveStr ++ "f")
  let c ← c.nextBlack (octaveStr ++ "gb")
  let c := c.moveRightFloat
  let c ← c.nextWhite .whiteLR (octaveStr ++ "g")
  let c ← c.nextBlack (octaveStr ++ "ab")
  let c := c.moveRightFloat
  let c ← c.nextWhite .whiteLR (octaveStr ++ "a")
  let c ← c.nextBlack (octaveStr ++ "bb")
  let c := c.moveRightFloat
  let c ← c.nextWhite .whiteL (octaveStr ++ "b")
  pure c.moveRightFloat

/-- The loop over the octaves run for `n` iterations, the moves made in the arithmetic of
the source. -/
def Construction.octaveLoopFloat (c : Construction) (first : Nat) : Nat → Option Construction
  | 0 => some c
  | n + 1 => (c.octaveBodyFloat first).bind fun d => d.octaveLoopFloat (first + 1) n

/-- The statements of the constructor that create the keys, the moves made in the
arithmetic of the source. -/
def KeyboardKeys.buildFloat (resourceFolder : String) : Option Construction := do
  let c := Construction.start resourceFolder
  let c ← c.nextWhite .whiteR "0a"
  let c ← c.nextBlack "0bb"
  let c := c.moveRightFloat
  let c ← c.nextWhite .whiteL "0b"
  let c := c.moveRightFloat
  let c ← c.octaveLoopFloat 1 NUM_OCTAVES
  let c ← c.nextWhite .white (toString (NUM_OCTAVES + 1) ++ "c")
  pure c.moveRightFloat

/-- The constructor `KeyboardKeys::KeyboardKeys` with the positions of the keys computed
in the arithmetic of the source. -/
def KeyboardKeys.newFloat (resourceFolder : String) : Option KeyboardKeys := do
  let c ← KeyboardKeys.buildFloat resourceFolder
  let whiteKeys ← allFilled c.whiteKeys
  let blackKeys ← allFilled c.blackKeys
  pure { resFolder := c.resFolder
         whiteKeys := whiteKeys
         blackKeys := blackKeys
         m_curKeyDown := -1
         m_soundToUse := 0
         timers := []
         audio := [] }

/-- The `x` of the white key `i` of a controller. -/
def KeyboardKeys.whiteX (s : KeyboardKeys) (i : Nat) : Option ℚ :=
  (s.whiteKeys[i]?).map fun k => k.m_transform.m_pos.x

/-! ## Lemmas on the numeric conversions and on the interior of the keyboard -/

theorem truncToInt_of_nonneg {q : ℚ} (h : 0 ≤ q) : truncToInt q = Int.floor q := by
  simp [truncToInt, h]

theorem fmod_seven_of_nonneg {k : ℚ} (h : 0 ≤ k) :
    fmod k 7 = k - 7 * (Int.floor (k / 7) : ℚ) := by
  have h7 : (0 : ℚ) ≤ k / 7 := by positivity
  simp [fmod, truncToInt_of_nonneg h7]

/-- Away from the snapped edges the selector is the thirteen-way classification of
`x / Δx` reduced modulo seven. -/
theorem getSelectedKey_interior (p : Vec3)
    (h1 : 3 / 4 * X_DIFF_BETWEEN_WHITE_KEYS ≤ p.x)
    (h2 : p.x ≤ (52 - 1 / 2) * X_DIFF_BETWEEN_WHITE_KEYS) :
    getSelectedKey p =
      octaveTable (Int.floor (p.x / X_DIFF_BETWEEN_WHITE_KEYS / 7))
        (p.x / X_DIFF_BETWEEN_WHITE_KEYS
          - 7 * (Int.floor (p.x / X_DIFF_BETWEEN_WHITE_KEYS / 7) : ℚ)) := by
  have hx0 : ¬ p.x < 0 := by
    unfold X_DIFF_BETWEEN_WHITE_KEYS at h1; linarith
  have hx1 : ¬ p.x < X_DIFF_BETWEEN_WHITE_KEYS * (3 / 4) := by
    unfold X_DIFF_BETWEEN_WHITE_KEYS at *; linarith
  have hx2 : ¬ p.x > (NUM_WHITE_KEYS : ℚ) * X_DIFF_BETWEEN_WHITE_KEYS := by
    unfold X_DIFF_BETWEEN_WHITE_KEYS NUM_WHITE_KEYS at *; push_cast; linarith
  have hx3 : ¬ p.x > ((NUM_WHITE_KEYS : ℚ) - 1 / 2) * X_DIFF_BETWEEN_WHITE_KEYS := by
    unfold X_DIFF_BETWEEN_WHITE_KEYS NUM_WHITE_KEYS at *; push_cast; linarith
  have hk : (0 : ℚ) ≤ p.x / X_DIFF_BETWEEN_WHITE_KEYS := by
    unfold X_DIFF_BETWEEN_WHITE_KEYS at *
    apply div_nonneg <;> linarith
  have hk7 : (0 : ℚ) ≤ p.x / X_DIFF_BETWEEN_WHITE_KEYS / 7 := by positivity
  simp only [getSelectedKey, hx0, hx1, hx2, hx3, if_false, NUM_KEYS_IN_OCTAVE, Nat.cast_ofNat,
    fmod_seven_of_nonneg hk, truncToInt_of_nonneg hk7, octaveTable]

/-- The octave of a position `k = 7·o + l` with `0 ≤ l < 7`. -/
theorem floor_div_seven {k l : ℚ} {o : Int} (hk : k = 7 * (o : ℚ) + l)
    (hl0 : 0 ≤ l) (hl7 : l < 7) : Int.floor (k / 7) = o := by
  rw [Int.floor_eq_iff]
  constructor
  · rw [le_div_iff₀ (by norm_num)]; linarith
  · rw [div_lt_iff₀ (by norm_num)]; linarith

/-- Bounds of the white-key position, of the octave and of the local index in the
interior of the keyboard. -/
theorem interior_bounds (x : ℚ)
    (h1 : 3 / 4 * X_DIFF_BETWEEN_WHITE_KEYS ≤ x)
    (h2 : x ≤ (52 - 1 / 2) * X_DIFF_BETWEEN_WHITE_KEYS) :
    3 / 4 ≤ x / X_DIFF_BETWEEN_WHITE_KEYS ∧ x / X_DIFF_BETWEEN_WHITE_KEYS ≤ 103 / 2 ∧
    0 ≤ Int.floor (x / X_DIFF_BETWEEN_WHITE_KEYS / 7) ∧
    Int.floor (x / X_DIFF_BETWEEN_WHITE_KEYS / 7) ≤ 7 ∧
    0 ≤ x / X_DIFF_BETWEEN_WHITE_KEYS
          - 7 * (Int.floor (x / X_DIFF_BETWEEN_WHITE_KEYS / 7) : ℚ) ∧
    x / X_DIFF_BETWEEN_WHITE_KEYS
          - 7 * (Int.floor (x / X_DIFF_BETWEEN_WHITE_KEYS / 7) : ℚ) < 7 := by
  have hd : (0 : ℚ) < X_DIFF_BETWEEN_WHITE_KEYS := by norm_num [X_DIFF_BETWEEN_WHITE_KEYS]
  have hka : 3 / 4 ≤ x / X_DIFF_BETWEEN_WHITE_KEYS := by
    rw [le_div_iff₀ hd]; exact h1
  have hkb : x / X_DIFF_BETWEEN_WHITE_KEYS ≤ 103 / 2 := by
    rw [div_le_iff₀ hd]; linarith
  have hf1 := Int.floor_le (x / X_DIFF_BETWEEN_WHITE_KEYS / 7)
  have hf2 := Int.lt_floor_add_one (x / X_DIFF_BETWEEN_WHITE_KEYS / 7)
  refine ⟨hka, hkb, ?_, ?_, ?_, ?_⟩
  · apply Int.floor_nonneg.mpr; positivity
  · have : Int.floor (x / X_DIFF_BETWEEN_WHITE_KEYS / 7) < 8 := by
      rw [Int.floor_lt]; push_cast; linarith
    omega
  · linarith
  · linarith

/-! ## The four edge cases of `getSelectedKey` -/

theorem getSelectedKey_of_neg (p : Vec3) (h : p.x < 0) : getSelectedKey p = -1 := by
  simp [getSelectedKey, h]

theorem getSelectedKey_of_right (p : Vec3)
    (h : p.x > (NUM_WHITE_KEYS : ℚ) * X_DIFF_BETWEEN_WHITE_KEYS) :
    getSelectedKey p = -1 := by
  have h' : p.x > 52 * (12 / 5 : ℚ) := by
    simpa [NUM_WHITE_KEYS, X_DIFF_BETWEEN_WHITE_KEYS] using h
  have hx0 : ¬ p.x < 0 := by linarith
  have hx1 : ¬ p.x < X_DIFF_BETWEEN_WHITE_KEYS * (3 / 4) := by
    unfold X_DIFF_BETWEEN_WHITE_KEYS; linarith
  simp only [getSelectedKey, hx0, hx1, if_false]
  rw [if_pos h]

theorem getSelectedKey_left_snap (p : Vec3) (h0 : 0 ≤ p.x)
    (h1 : p.x < 3 / 4 * X_DIFF_BETWEEN_WHITE_KEYS) : getSelectedKey p = 0 := by
  have hx0 : ¬ p.x < 0 := not_lt.mpr h0
  have hx1 : p.x < X_DIFF_BETWEEN_WHITE_KEYS * (3 / 4) := by linarith
  simp only [getSelectedKey, hx0, if_false]
  rw [if_pos hx1]

theorem getSelectedKey_right_snap (p : Vec3)
    (h1 : ((NUM_WHITE_KEYS : ℚ) - 1 / 2) * X_DIFF_BETWEEN_WHITE_KEYS < p.x)
    (h2 : p.x ≤ (NUM_WHITE_KEYS : ℚ) * X_DIFF_BETWEEN_WHITE_KEYS) :
    getSelectedKey p = 51 := by
  have h1' : (52 - 1 / 2) * (12 / 5 : ℚ) < p.x := by
    simpa [NUM_WHITE_KEYS, X_DIFF_BETWEEN_WHITE_KEYS] using h1
  have hx0 : ¬ p.x < 0 := by linarith
  have hx1 : ¬ p.x < X_DIFF_BETWEEN_WHITE_KEYS * (3 / 4) := by
    unfold X_DIFF_BETWEEN_WHITE_KEYS; linarith
  have hx2 : ¬ p.x > (NUM_WHITE_KEYS : ℚ) * X_DIFF_BETWEEN_WHITE_KEYS := not_lt.mpr h2
  have hx3 : p.x > ((NUM_WHITE_KEYS : ℚ) - 1 / 2) * X_DIFF_BETWEEN_WHITE_KEYS := h1
  simp only [getSelectedKey, hx0, hx1, hx2, if_false]
  rw [if_pos hx3]
  simp [NUM_WHITE_KEYS]

/-! ## Claims on `getSelectedKey` -/

/-- C1: a position left of the keyboard (`x < 0`) or right of it
(`x > NUM_WHITE_KEYS · Δx`, that is `x > 52 · 2.4`) selects no key: the result is `-1`. -/
theorem getSelectedKey_outside (p : Vec3)
    (h : p.x < 0 ∨ p.x > (NUM_WHITE_KEYS : ℚ) * X_DIFF_BETWEEN_WHITE_KEYS) :
    getSelectedKey p = -1 := by
  rcases h with h | h
  · exact getSelectedKey_of_neg p h
  · exact getSelectedKey_of_right p h

/-- Witness of C1 at `x = -1` and at `x = 125`. -/
theorem getSelectedKey_outside_witness :
    getSelectedKey ⟨-1, 0, 0⟩ = -1 ∧ getSelectedKey ⟨125, 0, 0⟩ = -1 :=
  ⟨getSelectedKey_outside ⟨-1, 0, 0⟩ (Or.inl (by norm_num)),
   getSelectedKey_outside ⟨125, 0, 0⟩
     (Or.inr (by norm_num [NUM_WHITE_KEYS, X_DIFF_BETWEEN_WHITE_KEYS]))⟩

/-- C2: edge snapping.  Every `x` with `0 ≤ x < 0.75·Δx` selects white key `0`, and
every `x` with `(52 − 0.5)·Δx < x ≤ 52·Δx` selects the last white key `51`. -/
theorem getSelectedKey_edge_snap (p : Vec3) :
    (0 ≤ p.x → p.x < 3 / 4 * X_DIFF_BETWEEN_WHITE_KEYS → getSelectedKey p = 0) ∧
    (((NUM_WHITE_KEYS : ℚ) - 1 / 2) * X_DIFF_BETWEEN_WHITE_KEYS < p.x →
      p.x ≤ (NUM_WHITE_KEYS : ℚ) * X_DIFF_BETWEEN_WHITE_KEYS →
      getSelectedKey p = (NUM_WHITE_KEYS : Int) - 1 ∧ getSelectedKey p = 51) := by
  refine ⟨getSelectedKey_left_snap p, fun h1 h2 => ?_⟩
  rw [getSelectedKey_right_snap p h1 h2]
  simp [NUM_WHITE_KEYS]

/-- Witness of C2 at `x = 0.1·Δx = 6/25` and at `x = (52 − 0.1)·Δx = 3114/25`. -/
theorem getSelectedKey_edge_snap_witness :
    getSelectedKey ⟨6 / 25, 0, 0⟩ = 0 ∧ getSelectedKey ⟨3114 / 25, 0, 0⟩ = 51 :=
  ⟨(getSelectedKey_edge_snap ⟨6 / 25, 0, 0⟩).1 (by norm_num)
      (by norm_num [X_DIFF_BETWEEN_WHITE_KEYS]),
   ((getSelectedKey_edge_snap ⟨3114 / 25, 0, 0⟩).2
      (by norm_num [NUM_WHITE_KEYS, X_DIFF_BETWEEN_WHITE_KEYS])
      (by norm_num [NUM_WHITE_KEYS, X_DIFF_BETWEEN_WHITE_KEYS])).2⟩

/-- C3: white-note classification.  For `0.75·Δx ≤ x ≤ (52 − 0.5)·Δx`, with
`k = x/Δx`, `octave = ⌊k/7⌋` and `loc = k mod 7 = k − 7·octave`: when `loc` lies in
`[0.25,0.75)`, `[1.25,2)`, `[2,2.75)`, `[3.25,3.75)`, `[4.25,5)`, `[5,5.75)` or
`[6.25,6.75)` the result is `octave·7 + 0, 1, 2, 3, 4, 5, 6` respectively
(A, B, C, D, E, F, G), and it is non-negative. -/
theorem getSelectedKey_white (p : Vec3) (k loc : ℚ) (octave : Int)
    (h1 : 3 / 4 * X_DIFF_BETWEEN_WHITE_KEYS ≤ p.x)
    (h2 : p.x ≤ (52 - 1 / 2) * X_DIFF_BETWEEN_WHITE_KEYS)
    (hk : k = p.x / X_DIFF_BETWEEN_WHITE_KEYS)
    (ho : octave = Int.floor (k / 7))
    (hl : loc = k - 7 * (octave : ℚ)) :
    (1 / 4 ≤ loc ∧ loc < 3 / 4 → getSelectedKey p = octave * 7 + 0 ∧ 0 ≤ getSelectedKey p) ∧
    (5 / 4 ≤ loc ∧ loc < 2 → getSelectedKey p = octave * 7 + 1 ∧ 0 ≤ getSelectedKey p) ∧
    (2 ≤ loc ∧ loc < 11 / 4 → getSelectedKey p = octave * 7 + 2 ∧ 0 ≤ getSelectedKey p) ∧
    (13 / 4 ≤ loc ∧ loc < 15 / 4 → getSelectedKey p = octave * 7 + 3 ∧ 0 ≤ getSelectedKey p) ∧
    (17 / 4 ≤ loc ∧ loc < 5 → getSelectedKey p = octave * 7 + 4 ∧ 0 ≤ getSelectedKey p) ∧
    (5 ≤ loc ∧ loc < 23 / 4 → getSelectedKey p = octave * 7 + 5 ∧ 0 ≤ getSelectedKey p) ∧
    (25 / 4 ≤ loc ∧ loc < 27 / 4 → getSelectedKey p = octave * 7 + 6 ∧ 0 ≤ getSelectedKey p) := by
  obtain ⟨_, _, ho0, _, _, _⟩ := interior_bounds p.x h1 h2
  rw [getSelectedKey_interior p h1 h2]
  subst hk
  rw [← ho] at ho0 ⊢
  rw [← hl]
  unfold octaveTable
  refine ⟨?_, ?_, ?_, ?_, ?_, ?_, ?_⟩ <;>
    (rintro ⟨ha, hb⟩
     repeat (first | rw [if_pos hb] | rw [if_neg (by linarith)])
     constructor <;> omega)

/-- Witness of C3 at `x = 1.5·Δx = 18/5`: `k = 1.5`, octave `0`, `loc = 1.5`, the B key,
of index `1`. -/
theorem getSelectedKey_white_witness :
    getSelectedKey ⟨18 / 5, 0, 0⟩ = 0 * 7 + 1 ∧ (0 : Int) ≤ getSelectedKey ⟨18 / 5, 0, 0⟩ :=
  (getSelectedKey_white ⟨18 / 5, 0, 0⟩ (3 / 2) (3 / 2) 0
    (by norm_num [X_DIFF_BETWEEN_WHITE_KEYS]) (by norm_num [X_DIFF_BETWEEN_WHITE_KEYS])
    (by norm_num [X_DIFF_BETWEEN_WHITE_KEYS])
    (by symm; rw [Int.floor_eq_iff]; norm_num)
    (by norm_num)).2.1 ⟨by norm_num, by norm_num⟩

/-- C4 as stated fails on the right edge of Ab: at `x = 7.1·Δx = 426/25` the position is
in the interior, `octave = 1` and `loc = 0.1` lies in `[0, 0.25)`, the formula
`−(octave·5 + 5) − 1` with the offset `5` of Ab gives `−11`, and the code returns
`−6`. -/
theorem getSelectedKey_black_counterexample :
    3 / 4 * X_DIFF_BETWEEN_WHITE_KEYS ≤ (⟨426 / 25, 0, 0⟩ : Vec3).x ∧
    (⟨426 / 25, 0, 0⟩ : Vec3).x ≤ (52 - 1 / 2) * X_DIFF_BETWEEN_WHITE_KEYS ∧
    Int.floor ((⟨426 / 25, 0, 0⟩ : Vec3).x / X_DIFF_BETWEEN_WHITE_KEYS / 7) = 1 ∧
    (⟨426 / 25, 0, 0⟩ : Vec3).x / X_DIFF_BETWEEN_WHITE_KEYS - 7 * ((1 : Int) : ℚ) = 1 / 10 ∧
    getSelectedKey ⟨426 / 25, 0, 0⟩ = -6 ∧
    getSelectedKey ⟨426 / 25, 0, 0⟩ ≠ -((1 : Int) * 5 + 5) - 1 := by
  have hf : Int.floor ((426 / 25 : ℚ) / X_DIFF_BETWEEN_WHITE_KEYS / 7) = 1 := by
    rw [Int.floor_eq_iff]; norm_num [X_DIFF_BETWEEN_WHITE_KEYS]
  have hv : getSelectedKey ⟨426 / 25, 0, 0⟩ = -6 := by
    rw [getSelectedKey_interior _ (by norm_num [X_DIFF_BETWEEN_WHITE_KEYS])
      (by norm_num [X_DIFF_BETWEEN_WHITE_KEYS])]
    simp only [hf]
    norm_num [octaveTable, X_DIFF_BETWEEN_WHITE_KEYS]
  refine ⟨by norm_num [X_DIFF_BETWEEN_WHITE_KEYS], by norm_num [X_DIFF_BETWEEN_WHITE_KEYS],
    hf, by norm_num [X_DIFF_BETWEEN_WHITE_KEYS], hv, ?_⟩
  rw [hv]; decide

/-- C4, amended: black-note classification.  For `0.75·Δx ≤ x ≤ (52 − 0.5)·Δx`, with
`k = x/Δx`, `octave = ⌊k/7⌋` and `loc = k − 7·octave`: when `loc` lies in `[0.75,1.25)`,
`[2.75,3.25)`, `[3.75,4.25)`, `[5.75,6.25)` or `[6.75,7)` the result is
`−(octave·5 + off) − 1` with `off = 1, 2, 3, 4, 5` (Bb, Db, Eb, Gb, left edge of Ab);
when `loc` lies in `[0,0.25)`, the right edge of Ab, the result is `−(octave·5 + 0) − 1`,
which is the Ab key of the preceding octave, `−((octave − 1)·5 + 5) − 1`.  In each of these
cases the result is at most `−2`. -/
theorem getSelectedKey_black (p : Vec3) (k loc : ℚ) (octave : Int)
    (h1 : 3 / 4 * X_DIFF_BETWEEN_WHITE_KEYS ≤ p.x)
    (h2 : p.x ≤ (52 - 1 / 2) * X_DIFF_BETWEEN_WHITE_KEYS)
    (hk : k = p.x / X_DIFF_BETWEEN_WHITE_KEYS)
    (ho : octave = Int.floor (k / 7))
    (hl : loc = k - 7 * (octave : ℚ)) :
    (0 ≤ loc ∧ loc < 1 / 4 →
      getSelectedKey p = -(octave * 5 + 0) - 1 ∧
      getSelectedKey p = -((octave - 1) * 5 + 5) - 1 ∧ getSelectedKey p ≤ -2) ∧
    (3 / 4 ≤ loc ∧ loc < 5 / 4 →
      getSelectedKey p = -(octave * 5 + 1) - 1 ∧ getSelectedKey p ≤ -2) ∧
    (11 / 4 ≤ loc ∧ loc < 13 / 4 →
      getSelectedKey p = -(octave * 5 + 2) - 1 ∧ getSelectedKey p ≤ -2) ∧
    (15 / 4 ≤ loc ∧ loc < 17 / 4 →
      getSelectedKey p = -(octave * 5 + 3) - 1 ∧ getSelectedKey p ≤ -2) ∧
    (23 / 4 ≤ loc ∧ loc < 25 / 4 →
      getSelectedKey p = -(octave * 5 + 4) - 1 ∧ getSelectedKey p ≤ -2) ∧
    (27 / 4 ≤ loc ∧ loc < 7 →
      getSelectedKey p = -(octave * 5 + 5) - 1 ∧ getSelectedKey p ≤ -2) := by
  obtain ⟨hk0, _, ho0, _, _, _⟩ := interior_bounds p.x h1 h2
  rw [getSelectedKey_interior p h1 h2]
  subst hk
  rw [← ho] at ho0 ⊢
  rw [← hl]
  unfold octaveTable
  refine ⟨?_, ?_, ?_, ?_, ?_, ?_⟩
  · rintro ⟨ha, hb⟩
    have ho1 : 1 ≤ octave := by
      by_contra hc
      have hz : octave = 0 := by omega
      rw [hz] at hl
      norm_num at hl
      linarith
    rw [if_pos hb]
    refine ⟨by omega, by omega, by omega⟩
  all_goals
    (rintro ⟨ha, hb⟩
     repeat (first | rw [if_pos hb] | rw [if_neg (by linarith)])
     constructor <;> omega)

/-- Witness of the amended C4 at `x = 7.1·Δx = 426/25`: octave `1`, `loc = 0.1`, the
right edge of Ab, result `−6`. -/
theorem getSelectedKey_black_witness :
    getSelectedKey ⟨426 / 25, 0, 0⟩ = -((1 : Int) * 5 + 0) - 1 ∧
    getSelectedKey ⟨426 / 25, 0, 0⟩ = -(((1 : Int) - 1) * 5 + 5) - 1 ∧
    getSelectedKey ⟨426 / 25, 0, 0⟩ ≤ -2 :=
  (getSelectedKey_black ⟨426 / 25, 0, 0⟩ (71 / 10) (1 / 10) 1
    (by norm_num [X_DIFF_BETWEEN_WHITE_KEYS]) (by norm_num [X_DIFF_BETWEEN_WHITE_KEYS])
    (by norm_num [X_DIFF_BETWEEN_WHITE_KEYS])
    (by symm; rw [Int.floor_eq_iff]; norm_num)
    (by norm_num)).1 ⟨by norm_num, by norm_num⟩


/-- In the interior of the keyboard the result of `getSelectedKey` is a white key id or a
black key id. -/
theorem getSelectedKey_interior_cases (p : Vec3)
    (h1 : 3 / 4 * X_DIFF_BETWEEN_WHITE_KEYS ≤ p.x)
    (h2 : p.x ≤ (52 - 1 / 2) * X_DIFF_BETWEEN_WHITE_KEYS) :
    (0 ≤ getSelectedKey p ∧ getSelectedKey p ≤ 51) ∨
    (-37 ≤ getSelectedKey p ∧ getSelectedKey p ≤ -2 ∧
      0 ≤ -(getSelectedKey p + 2) ∧ -(getSelectedKey p + 2) ≤ 35) := by
  obtain ⟨hka, hkb, ho0, ho7, hl0, hl7⟩ := interior_bounds p.x h1 h2
  rw [getSelectedKey_interior p h1 h2]
  generalize Int.floor (p.x / X_DIFF_BETWEEN_WHITE_KEYS / 7) = o at *
  generalize p.x / X_DIFF_BETWEEN_WHITE_KEYS = k at *
  -- in the last octave the local index is at most `2.5`, in the first at least `0.75`
  have hlast : o = 7 → k - 7 * (o : ℚ) ≤ 5 / 2 := by
    intro h; rw [h]; push_cast; linarith
  have hfirst : o = 0 → 3 / 4 ≤ k - 7 * (o : ℚ) := by
    intro h; rw [h]; push_cast; linarith
  generalize k - 7 * (o : ℚ) = l at *
  unfold octaveTable
  by_cases c1 : l < 1 / 4
  · rw [if_pos c1]
    have : o ≠ 0 := fun h => by have := hfirst h; linarith
    right; omega
  rw [if_neg c1]
  by_cases c2 : l < 3 / 4
  · rw [if_pos c2]
    have : o ≠ 0 := fun h => by have := hfirst h; linarith
    left; omega
  rw [if_neg c2]
  by_cases c3 : l < 5 / 4
  · rw [if_pos c3]; right; omega
  rw [if_neg c3]
  by_cases c4 : l < 2
  · rw [if_pos c4]; left; omega
  rw [if_neg c4]
  by_cases c5 : l < 11 / 4
  · rw [if_pos c5]; left; omega
  rw [if_neg c5]
  have ho6 : o ≤ 6 := by
    by_contra hc
    have h7 : o = 7 := by omega
    have := hlast h7
    linarith [not_lt.mp c5]
  by_cases c6 : l < 13 / 4
  · rw [if_pos c6]; right; omega
  rw [if_neg c6]
  by_cases c7 : l < 15 / 4
  · rw [if_pos c7]; left; omega
  rw [if_neg c7]
  by_cases c8 : l < 17 / 4
  · rw [if_pos c8]; right; omega
  rw [if_neg c8]
  by_cases c9 : l < 5
  · rw [if_pos c9]; left; omega
  rw [if_neg c9]
  by_cases c10 : l < 23 / 4
  · rw [if_pos c10]; left; omega
  rw [if_neg c10]
  by_cases c11 : l < 25 / 4
  · rw [if_pos c11]; right; omega
  rw [if_neg c11]
  by_cases c12 : l < 27 / 4
  · rw [if_pos c12]; left; omega
  rw [if_neg c12]
  right; omega

/-- The result of `getSelectedKey` is `−1`, a white key id or a black key id. -/
theorem getSelectedKey_cases (p : Vec3) :
    getSelectedKey p = -1 ∨
    (0 ≤ getSelectedKey p ∧ getSelectedKey p ≤ 51) ∨
    (-37 ≤ getSelectedKey p ∧ getSelectedKey p ≤ -2 ∧
      0 ≤ -(getSelectedKey p + 2) ∧ -(getSelectedKey p + 2) ≤ 35) := by
  by_cases hx0 : p.x < 0
  · exact Or.inl (getSelectedKey_of_neg p hx0)
  by_cases hx2 : p.x > (NUM_WHITE_KEYS : ℚ) * X_DIFF_BETWEEN_WHITE_KEYS
  · exact Or.inl (getSelectedKey_of_right p hx2)
  by_cases hx1 : p.x < 3 / 4 * X_DIFF_BETWEEN_WHITE_KEYS
  · right; left
    rw [getSelectedKey_left_snap p (not_lt.mp hx0) hx1]
    omega
  by_cases hx3 : ((NUM_WHITE_KEYS : ℚ) - 1 / 2) * X_DIFF_BETWEEN_WHITE_KEYS < p.x
  · right; left
    rw [getSelectedKey_right_snap p hx3 (not_lt.mp hx2)]
    omega
  have h1 : 3 / 4 * X_DIFF_BETWEEN_WHITE_KEYS ≤ p.x := not_lt.mp hx1
  have h2 : p.x ≤ (52 - 1 / 2) * X_DIFF_BETWEEN_WHITE_KEYS := by
    have := not_lt.mp hx3
    simpa [NUM_WHITE_KEYS] using this
  exact Or.inr (getSelectedKey_interior_cases p h1 h2)

/-- C5: output encoding range.  For every position the result `r` of `getSelectedKey`
is `−1`, or a white key `0 ≤ r ≤ 51`, or a black key `−37 ≤ r ≤ −2`, whose index
`−(r + 2)` lies in `0..35`. -/
theorem getSelectedKey_range (p : Vec3) :
    getSelectedKey p = -1 ∨
    (0 ≤ getSelectedKey p ∧ getSelectedKey p ≤ 51) ∨
    (-37 ≤ getSelectedKey p ∧ getSelectedKey p ≤ -2 ∧
      0 ≤ -(getSelectedKey p + 2) ∧ -(getSelectedKey p + 2) ≤ 35) :=
  getSelectedKey_cases p

/-- In the interior, a position `x / Δx = 7·o + l` with `0 ≤ l < 7` is classified by
the table at octave `o` and local index `l`. -/
theorem getSelectedKey_at (p : Vec3) (o : Int) (l : ℚ)
    (h1 : 3 / 4 * X_DIFF_BETWEEN_WHITE_KEYS ≤ p.x)
    (h2 : p.x ≤ (52 - 1 / 2) * X_DIFF_BETWEEN_WHITE_KEYS)
    (hk : p.x / X_DIFF_BETWEEN_WHITE_KEYS = 7 * (o : ℚ) + l)
    (hl0 : 0 ≤ l) (hl7 : l < 7) :
    getSelectedKey p = octaveTable o l := by
  rw [getSelectedKey_interior p h1 h2, floor_div_seven hk hl0 hl7, hk]
  congr 1
  ring

/-- C6: boundary exactness.  In the non-snapped range, a position with
`x/Δx = 7·octave + t` exactly, `t` one of the twelve thresholds, selects the key of the
half-open interval that starts at `t` (0.25→A, 0.75→Bb, 1.25→B, 2→C, 2.75→Db, 3.25→D,
3.75→Eb, 4.25→E, 5→F, 5.75→Gb, 6.25→G, 6.75→Ab) and not the key of the interval that
ends at `t`; and `x = 0.75·Δx` itself selects Bb, `−2`, not the snapped white key `0`. -/
theorem getSelectedKey_boundary (p : Vec3) (octave : Int) :
    (3 / 4 * X_DIFF_BETWEEN_WHITE_KEYS ≤ p.x →
     p.x ≤ (52 - 1 / 2) * X_DIFF_BETWEEN_WHITE_KEYS →
     (p.x / X_DIFF_BETWEEN_WHITE_KEYS = 7 * (octave : ℚ) + 1 / 4 →
        getSelectedKey p = octave * 7 ∧ getSelectedKey p ≠ -(octave * 5 + 0) - 1) ∧
     (p.x / X_DIFF_BETWEEN_WHITE_KEYS = 7 * (octave : ℚ) + 3 / 4 →
        getSelectedKey p = -(octave * 5 + 1) - 1 ∧ getSelectedKey p ≠ octave * 7) ∧
     (p.x / X_DIFF_BETWEEN_WHITE_KEYS = 7 * (octave : ℚ) + 5 / 4 →
        getSelectedKey p = octave * 7 + 1 ∧ getSelectedKey p ≠ -(octave * 5 + 1) - 1) ∧
     (p.x / X_DIFF_BETWEEN_WHITE_KEYS = 7 * (octave : ℚ) + 2 →
        getSelectedKey p = octave * 7 + 2 ∧ getSelectedKey p ≠ octave * 7 + 1) ∧
     (p.x / X_DIFF_BETWEEN_WHITE_KEYS = 7 * (octave : ℚ) + 11 / 4 →
        getSelectedKey p = -(octave * 5 + 2) - 1 ∧ getSelectedKey p ≠ octave * 7 + 2) ∧
     (p.x / X_DIFF_BETWEEN_WHITE_KEYS = 7 * (octave : ℚ) + 13 / 4 →
        getSelectedKey p = octave * 7 + 3 ∧ getSelectedKey p ≠ -(octave * 5 + 2) - 1) ∧
     (p.x / X_DIFF_BETWEEN_WHITE_KEYS = 7 * (octave : ℚ) + 15 / 4 →
        getSelectedKey p = -(octave * 5 + 3) - 1 ∧ getSelectedKey p ≠ octave * 7 + 3) ∧
     (p.x / X_DIFF_BETWEEN_WHITE_KEYS = 7 * (octave : ℚ) + 17 / 4 →
        getSelectedKey p = octave * 7 + 4 ∧ getSelectedKey p ≠ -(octave * 5 + 3) - 1) ∧
     (p.x / X_DIFF_BETWEEN_WHITE_KEYS = 7 * (octave : ℚ) + 5 →
        getSelectedKey p = octave * 7 + 5 ∧ getSelectedKey p ≠ octave * 7 + 4) ∧
     (p.x / X_DIFF_BETWEEN_WHITE_KEYS = 7 * (octave : ℚ) + 23 / 4 →
        getSelectedKey p = -(octave * 5 + 4) - 1 ∧ getSelectedKey p ≠ octave * 7 + 5) ∧
     (p.x / X_DIFF_BETWEEN_WHITE_KEYS = 7 * (octave : ℚ) + 25 / 4 →
        getSelectedKey p = octave * 7 + 6 ∧ getSelectedKey p ≠ -(octave * 5 + 4) - 1) ∧
     (p.x / X_DIFF_BETWEEN_WHITE_KEYS = 7 * (octave : ℚ) + 27 / 4 →
        getSelectedKey p = -(octave * 5 + 5) - 1 ∧ getSelectedKey p ≠ octave * 7 + 6)) ∧
    getSelectedKey ⟨3 / 4 * X_DIFF_BETWEEN_WHITE_KEYS, 0, 0⟩ = -2 := by
  constructor
  · intro h1 h2
    refine ⟨?_, ?_, ?_, ?_, ?_, ?_, ?_, ?_, ?_, ?_, ?_, ?_⟩ <;>
      (intro hk
       have ho0 : 0 ≤ octave := by
         have hlo := (interior_bounds p.x h1 h2).1
         rw [hk] at hlo
         have hq : (-1 : ℚ) < (octave : ℚ) := by linarith
         have hz : (-1 : Int) < octave := by exact_mod_cast hq
         omega
       rw [getSelectedKey_at p octave _ h1 h2 hk (by norm_num) (by norm_num)]
       unfold octaveTable
       norm_num
       try omega)
  · rw [getSelectedKey_at ⟨3 / 4 * X_DIFF_BETWEEN_WHITE_KEYS, 0, 0⟩ 0 (3 / 4)
      (le_refl _) (by norm_num [X_DIFF_BETWEEN_WHITE_KEYS])
      (by norm_num [X_DIFF_BETWEEN_WHITE_KEYS]) (by norm_num) (by norm_num)]
    norm_num [octaveTable]

/-- Witness of C6 at `x = 7.25·Δx = 87/5` (octave `1`, threshold `0.25`): the key is the A
of index `7`, not the Ab to its left. -/
theorem getSelectedKey_boundary_witness :
    getSelectedKey ⟨87 / 5, 0, 0⟩ = (1 : Int) * 7 ∧
    getSelectedKey ⟨87 / 5, 0, 0⟩ ≠ -((1 : Int) * 5 + 0) - 1 :=
  ((getSelectedKey_boundary ⟨87 / 5, 0, 0⟩ 1).1
    (by norm_num [X_DIFF_BETWEEN_WHITE_KEYS]) (by norm_num [X_DIFF_BETWEEN_WHITE_KEYS])).1
    (by norm_num [X_DIFF_BETWEEN_WHITE_KEYS])

/-- C7: the concrete scenario with `Δx = 2.4` and 52 white keys: the selector gives `0`
at `x = 0.0`, `0` at `x = 1.0` and `−2`, the first black key Bb, at `x = 2.5`. -/
theorem getSelectedKey_scenario :
    X_DIFF_BETWEEN_WHITE_KEYS = 24 / 10 ∧ NUM_WHITE_KEYS = 52 ∧
    getSelectedKey ⟨0, 0, 0⟩ = 0 ∧ getSelectedKey ⟨1, 0, 0⟩ = 0 ∧
    getSelectedKey ⟨5 / 2, 0, 0⟩ = -2 := by
  refine ⟨by norm_num [X_DIFF_BETWEEN_WHITE_KEYS], rfl, ?_, ?_, ?_⟩
  · exact getSelectedKey_left_snap _ (le_refl _) (by norm_num [X_DIFF_BETWEEN_WHITE_KEYS])
  · exact getSelectedKey_left_snap _ (by norm_num) (by norm_num [X_DIFF_BETWEEN_WHITE_KEYS])
  · rw [getSelectedKey_at ⟨5 / 2, 0, 0⟩ 0 (25 / 24)
      (by norm_num [X_DIFF_BETWEEN_WHITE_KEYS]) (by norm_num [X_DIFF_BETWEEN_WHITE_KEYS])
      (by norm_num [X_DIFF_BETWEEN_WHITE_KEYS]) (by norm_num) (by norm_num)]
    norm_num [octaveTable]


/-! ## Lemmas on the controller -/

theorem isWhiteIndex_iff (key : Int) (h : IsInt32 key) :
    isWhiteIndex key ↔ 0 ≤ key ∧ key ≤ 51 := by
  unfold isWhiteIndex toUnsigned NUM_WHITE_KEYS
  unfold IsInt32 at h
  norm_num at h ⊢
  omega

theorem isBlackIndex_iff (key : Int) (h : IsInt32 key) :
    isBlackIndex key ↔ -37 ≤ key ∧ key ≤ -2 := by
  unfold isBlackIndex toUnsigned NUM_BLACK_KEYS
  unfold IsInt32 at h
  norm_num at h ⊢
  omega

theorem not_isBlackIndex_of_isWhiteIndex {key : Int} (h : isWhiteIndex key) :
    ¬ isBlackIndex key := by
  unfold isWhiteIndex at h
  unfold isBlackIndex
  omega

theorem IsKeyId.isInt32 {key : Int} (h : IsKeyId key) : IsInt32 key := by
  unfold IsKeyId at h
  unfold IsInt32
  omega

/-- `keyUp` on a white key: one fade-out of its channel and one lift timer on it. -/
theorem keyUp_white (s : KeyboardKeys) (key : Int) (theKey : OneKeyboardKey)
    (hw : 0 ≤ key ∧ key ≤ 51) (hk : s.whiteKeys[key.toNat]? = some theKey) :
    s.keyUp key =
      some { s with audio := s.audio ++ [theKey.stopSound]
                    timers := s.timers ++ [⟨DELAY, .liftUpKey, .white key.toNat⟩] } := by
  have h32 : IsInt32 key := by unfold IsInt32; omega
  have h1 : isWhiteIndex key := (isWhiteIndex_iff key h32).mpr hw
  have h2 : ¬ isBlackIndex key := not_isBlackIndex_of_isWhiteIndex h1
  simp [KeyboardKeys.keyUp, h1, h2, hk]

/-- `keyUp` on a black key: one fade-out of its channel and one lift timer on it. -/
theorem keyUp_black (s : KeyboardKeys) (key : Int) (theKey : OneKeyboardKey)
    (hb : -37 ≤ key ∧ key ≤ -2) (hk : s.blackKeys[(-(key + 2)).toNat]? = some theKey) :
    s.keyUp key =
      some { s with audio := s.audio ++ [theKey.stopSound]
                    timers := s.timers ++ [⟨DELAY, .liftUpKey, .black (-(key + 2)).toNat⟩] } := by
  have h32 : IsInt32 key := by unfold IsInt32; omega
  have h2 : isBlackIndex key := (isBlackIndex_iff key h32).mpr hb
  have h1 : ¬ isWhiteIndex key := fun h => not_isBlackIndex_of_isWhiteIndex h h2
  simp only [neg_add_rev] at hk
  simp [KeyboardKeys.keyUp, h1, h2, hk]

/-- `keyUp` on an id that passes neither range test does nothing. -/
theorem keyUp_other (s : KeyboardKeys) (key : Int)
    (h1 : ¬ isWhiteIndex key) (h2 : ¬ isBlackIndex key) : s.keyUp key = some s := by
  simp [KeyboardKeys.keyUp, h1, h2]

/-- `keyDown` on an id that passes neither range test does nothing. -/
theorem keyDown_other (s : KeyboardKeys) (key mixResult : Int)
    (h1 : ¬ isWhiteIndex key) (h2 : ¬ isBlackIndex key) :
    s.keyDown key mixResult = some s := by
  unfold KeyboardKeys.keyDown
  split_ifs <;> simp

/-- `keyDown` on the current key does nothing. -/
theorem keyDown_current (s : KeyboardKeys) (key mixResult : Int)
    (h : s.m_curKeyDown = key) : s.keyDown key mixResult = some s := by
  simp [KeyboardKeys.keyDown, h]

/-- `keyDown` on a white key other than the current one, after the `keyUp` of the current
key has given `t`. -/
theorem keyDown_white (s t : KeyboardKeys) (key mixResult : Int)
    (theKey : OneKeyboardKey) (chunk : String)
    (hne : s.m_curKeyDown ≠ key) (hw : 0 ≤ key ∧ key ≤ 51)
    (hup : s.keyUp s.m_curKeyDown = some t)
    (hk : t.whiteKeys[key.toNat]? = some theKey)
    (hc : theKey.m_soundEffect[t.m_soundToUse]? = some chunk) :
    s.keyDown key mixResult =
      some { t with m_curKeyDown := key
                    whiteKeys := t.whiteKeys.set key.toNat
                      { theKey with m_soundChannel := some mixResult }
                    audio := t.audio ++ [.playChannel chunk mixResult]
                    timers := t.timers ++ [⟨DELAY, .pressDownKey, .white key.toNat⟩] } := by
  have h32 : IsInt32 key := by unfold IsInt32; omega
  have h1 : isWhiteIndex key := (isWhiteIndex_iff key h32).mpr hw
  have h2 : ¬ isBlackIndex key := not_isBlackIndex_of_isWhiteIndex h1
  simp [KeyboardKeys.keyDown, hne, h1, h2, hup, hk, OneKeyboardKey.playSound, hc]

/-- `keyDown` on a black key other than the current one, after the `keyUp` of the current
key has given `t`. -/
theorem keyDown_black (s t : KeyboardKeys) (key mixResult : Int)
    (theKey : OneKeyboardKey) (chunk : String)
    (hne : s.m_curKeyDown ≠ key) (hb : -37 ≤ key ∧ key ≤ -2)
    (hup : s.keyUp s.m_curKeyDown = some t)
    (hk : t.blackKeys[(-(key + 2)).toNat]? = some theKey)
    (hc : theKey.m_soundEffect[t.m_soundToUse]? = some chunk) :
    s.keyDown key mixResult =
      some { t with m_curKeyDown := key
                    blackKeys := t.blackKeys.set (-(key + 2)).toNat
                      { theKey with m_soundChannel := some mixResult }
                    audio := t.audio ++ [.playChannel chunk mixResult]
                    timers := t.timers ++ [⟨DELAY, .pressDownKey, .black (-(key + 2)).toNat⟩] } := by
  have h32 : IsInt32 key := by unfold IsInt32; omega
  have h2 : isBlackIndex key := (isBlackIndex_iff key h32).mpr hb
  have h1 : ¬ isWhiteIndex key := fun h => not_isBlackIndex_of_isWhiteIndex h h2
  simp only [neg_add_rev] at hk
  simp [KeyboardKeys.keyDown, hne, h1, h2, hup, hk, OneKeyboardKey.playSound, hc]


/-- In a constructed controller every key id denotes a key object, and that key has a
chunk for the current sound setting. -/
theorem getKey_of_isKeyId (s : KeyboardKeys) (key : Int) (hwf : s.WellFormed)
    (hk : IsKeyId key) :
    ∃ theKey chunk, s.getKey (KeyRef.ofId key) = some theKey ∧
      theKey.m_soundEffect[s.m_soundToUse]? = some chunk ∧
      theKey.m_soundEffect.length = NUM_SOUNDS := by
  obtain ⟨hw, hb, hws, hbs, hsnd, _⟩ := hwf
  unfold NUM_WHITE_KEYS at hw
  unfold NUM_BLACK_KEYS at hb
  rcases hk with hk | hk
  · have hi : key.toNat < s.whiteKeys.length := by omega
    have hmem : s.whiteKeys[key.toNat] ∈ s.whiteKeys := List.getElem_mem hi
    have hlen := hws _ hmem
    have hc : s.m_soundToUse < (s.whiteKeys[key.toNat]).m_soundEffect.length := by
      rw [hlen]; exact hsnd
    refine ⟨s.whiteKeys[key.toNat], (s.whiteKeys[key.toNat]).m_soundEffect[s.m_soundToUse], ?_, ?_, hlen⟩
    · simp [KeyRef.ofId, hk.1, KeyboardKeys.getKey, List.getElem?_eq_getElem hi]
    · exact List.getElem?_eq_getElem hc
  · have hi : (-(key + 2)).toNat < s.blackKeys.length := by omega
    have hmem : s.blackKeys[(-(key + 2)).toNat] ∈ s.blackKeys := List.getElem_mem hi
    have hlen := hbs _ hmem
    have hc : s.m_soundToUse < (s.blackKeys[(-(key + 2)).toNat]).m_soundEffect.length := by
      rw [hlen]; exact hsnd
    have hneg : ¬ key ≥ 0 := by omega
    refine ⟨s.blackKeys[(-(key + 2)).toNat],
      (s.blackKeys[(-(key + 2)).toNat]).m_soundEffect[s.m_soundToUse], ?_, ?_, hlen⟩
    · simp only [KeyRef.ofId, hneg, if_false, KeyboardKeys.getKey]
      exact List.getElem?_eq_getElem hi
    · exact List.getElem?_eq_getElem hc

/-- `keyUp` on the id of an existing key of a constructed controller: one fade-out of the
channel of that key and one lift timer on it. -/
theorem keyUp_of_isKeyId (s : KeyboardKeys) (key : Int) (hwf : s.WellFormed)
    (hk : IsKeyId key) :
    ∃ old, s.getKey (KeyRef.ofId key) = some old ∧
      s.keyUp key =
        some { s with audio := s.audio ++ [.fadeOutChannel old.m_soundChannel
                                            DELAY_BEFORE_STOP_SOUND]
                      timers := s.timers ++ [⟨DELAY, .liftUpKey, KeyRef.ofId key⟩] } := by
  obtain ⟨old, _, hget, _, _⟩ := getKey_of_isKeyId s key hwf hk
  refine ⟨old, hget, ?_⟩
  rcases hk with hk | hk
  · have hge : key ≥ 0 := hk.1
    simp only [KeyRef.ofId, hge, if_true, KeyboardKeys.getKey] at hget ⊢
    rw [keyUp_white s key old hk hget]
    rfl
  · have hneg : ¬ key ≥ 0 := by omega
    simp only [KeyRef.ofId, hneg, if_false, KeyboardKeys.getKey] at hget ⊢
    rw [keyUp_black s key old hk hget]
    rfl

/-- `keyUp` on a constructed controller returns, and changes nothing but the audio log and
the timers. -/
theorem keyUp_frame (s : KeyboardKeys) (key : Int) (hwf : s.WellFormed) (h32 : IsInt32 key) :
    ∃ t, s.keyUp key = some t ∧ t.whiteKeys = s.whiteKeys ∧ t.blackKeys = s.blackKeys ∧
      t.m_curKeyDown = s.m_curKeyDown ∧ t.m_soundToUse = s.m_soundToUse ∧
      t.resFolder = s.resFolder ∧ (¬ IsKeyId key → t = s) := by
  by_cases hk : IsKeyId key
  · obtain ⟨old, _, hup⟩ := keyUp_of_isKeyId s key hwf hk
    exact ⟨_, hup, rfl, rfl, rfl, rfl, rfl, fun h => absurd hk h⟩
  · have h1 : ¬ isWhiteIndex key := by
      rw [isWhiteIndex_iff key h32]; exact fun h => hk (Or.inl h)
    have h2 : ¬ isBlackIndex key := by
      rw [isBlackIndex_iff key h32]; exact fun h => hk (Or.inr h)
    exact ⟨s, keyUp_other s key h1 h2, rfl, rfl, rfl, rfl, rfl, fun _ => rfl⟩

/-- `keyDown` on the id of an existing key other than the current one: the `keyUp` of the
current key, then the new current key, its sound and its press timer. -/
theorem keyDown_of_isKeyId (s : KeyboardKeys) (key mixResult : Int) (hwf : s.WellFormed)
    (hk : IsKeyId key) (hne : key ≠ s.m_curKeyDown) :
    ∃ t theKey chunk,
      s.keyUp s.m_curKeyDown = some t ∧
      s.getKey (KeyRef.ofId key) = some theKey ∧
      theKey.m_soundEffect[s.m_soundToUse]? = some chunk ∧
      s.keyDown key mixResult =
        some { t.setKey (KeyRef.ofId key) { theKey with m_soundChannel := some mixResult } with
                 m_curKeyDown := key
                 audio := t.audio ++ [.playChannel chunk mixResult]
                 timers := t.timers ++ [⟨DELAY, .pressDownKey, KeyRef.ofId key⟩] } := by
  obtain ⟨t, hup, htw, htb, _, hts, _, _⟩ := keyUp_frame s s.m_curKeyDown hwf hwf.2.2.2.2.2
  obtain ⟨theKey, chunk, hget, hchunk, _⟩ := getKey_of_isKeyId s key hwf hk
  refine ⟨t, theKey, chunk, hup, hget, hchunk, ?_⟩
  rcases hk with hk | hk
  · have hge : key ≥ 0 := hk.1
    simp only [KeyRef.ofId, hge, if_true, KeyboardKeys.getKey] at hget ⊢
    rw [keyDown_white s t key mixResult theKey chunk (Ne.symm hne) hk hup
      (by rw [htw]; exact hget) (by rw [hts]; exact hchunk)]
    rfl
  · have hneg : ¬ key ≥ 0 := by omega
    simp only [KeyRef.ofId, hneg, if_false, KeyboardKeys.getKey] at hget ⊢
    rw [keyDown_black s t key mixResult theKey chunk (Ne.symm hne) hk hup
      (by rw [htb]; exact hget) (by rw [hts]; exact hchunk)]
    rfl


/-- Replacing a key by one with the same sounds keeps a controller well formed, whatever
the audio log, the timers and the current key (an `int`) become. -/
theorem wellFormed_setKey (t : KeyboardKeys) (r : KeyRef) (theKey new : OneKeyboardKey)
    (cur : Int) (a : List AudioCall) (tm : List Timer)
    (hwf : t.WellFormed) (hget : t.getKey r = some theKey)
    (hsnd : new.m_soundEffect = theKey.m_soundEffect) (hcur : IsInt32 cur) :
    ({ t.setKey r new with m_curKeyDown := cur, audio := a, timers := tm } :
      KeyboardKeys).WellFormed := by
  obtain ⟨hw, hb, hws, hbs, hs, _⟩ := hwf
  cases r with
  | white i =>
    simp only [KeyboardKeys.getKey] at hget
    have hmem : theKey ∈ t.whiteKeys := List.getElem?_mem hget
    refine ⟨by simpa [KeyboardKeys.setKey] using hw, hb, ?_, hbs, hs, hcur⟩
    intro k hkmem
    simp only [KeyboardKeys.setKey] at hkmem
    rcases List.mem_or_eq_of_mem_set hkmem with h | h
    · exact hws k h
    · rw [h, hsnd]; exact hws _ hmem
  | black i =>
    simp only [KeyboardKeys.getKey] at hget
    have hmem : theKey ∈ t.blackKeys := List.getElem?_mem hget
    refine ⟨hw, by simpa [KeyboardKeys.setKey] using hb, hws, ?_, hs, hcur⟩
    intro k hkmem
    simp only [KeyboardKeys.setKey] at hkmem
    rcases List.mem_or_eq_of_mem_set hkmem with h | h
    · exact hbs k h
    · rw [h, hsnd]; exact hbs _ hmem

/-- On a constructed controller `keyDown` returns for every `int`; the result is well
formed, its current key is the argument when that is the id of a key and the former
current key otherwise. -/
theorem keyDown_total (s : KeyboardKeys) (key mixResult : Int) (hwf : s.WellFormed)
    (h32 : IsInt32 key) :
    ∃ u, s.keyDown key mixResult = some u ∧ u.WellFormed ∧
      (IsKeyId key → u.m_curKeyDown = key) ∧ (¬ IsKeyId key → u = s) := by
  by_cases hcur : s.m_curKeyDown = key
  · exact ⟨s, keyDown_current s key mixResult hcur, hwf, fun _ => hcur, fun _ => rfl⟩
  by_cases hk : IsKeyId key
  · obtain ⟨t, theKey, chunk, hup, hget, _, hdown⟩ :=
      keyDown_of_isKeyId s key mixResult hwf hk (Ne.symm hcur)
    obtain ⟨t', hup', htw, htb, htc, hts, htr, _⟩ :=
      keyUp_frame s s.m_curKeyDown hwf hwf.2.2.2.2.2
    have htt : t' = t := by rw [hup] at hup'; exact (Option.some.inj hup').symm
    subst htt
    have hwft : t'.WellFormed := by
      obtain ⟨hw, hb, hws, hbs, hs, hc⟩ := hwf
      exact ⟨by rw [htw]; exact hw, by rw [htb]; exact hb, by rw [htw]; exact hws,
        by rw [htb]; exact hbs, by rw [hts]; exact hs, by rw [htc]; exact hc⟩
    have hget' : t'.getKey (KeyRef.ofId key) = some theKey := by
      cases hr : KeyRef.ofId key with
      | white i => rw [hr] at hget; simpa [KeyboardKeys.getKey, htw] using hget
      | black i => rw [hr] at hget; simpa [KeyboardKeys.getKey, htb] using hget
    refine ⟨_, hdown, ?_, fun _ => rfl, fun h => absurd hk h⟩
    exact wellFormed_setKey t' (KeyRef.ofId key) theKey _ key _ _ hwft hget' rfl h32
  · have h1 : ¬ isWhiteIndex key := by
      rw [isWhiteIndex_iff key h32]; exact fun h => hk (Or.inl h)
    have h2 : ¬ isBlackIndex key := by
      rw [isBlackIndex_iff key h32]; exact fun h => hk (Or.inr h)
    exact ⟨s, keyDown_other s key mixResult h1 h2, hwf, fun h => absurd h hk, fun _ => rfl⟩

/-- After a non-empty sequence of `keyDown` calls on ids of existing keys the current key
is the last id. -/
theorem keyDowns_current (calls : List (Int × Int)) :
    ∀ (s : KeyboardKeys) (first : Int × Int), s.WellFormed →
      (∀ c ∈ first :: calls, IsKeyId c.1) →
      ∃ u, s.keyDowns (first :: calls) = some u ∧ u.WellFormed ∧
        u.m_curKeyDown = ((first :: calls).getLast (List.cons_ne_nil _ _)).1 := by
  induction calls with
  | nil =>
    intro s first hwf hall
    have hk : IsKeyId first.1 := hall first (List.mem_singleton.mpr rfl)
    obtain ⟨u, hu, hwfu, hcur, _⟩ := keyDown_total s first.1 first.2 hwf hk.isInt32
    exact ⟨u, by simp [KeyboardKeys.keyDowns, hu], hwfu, by simpa using hcur hk⟩
  | cons next rest ih =>
    intro s first hwf hall
    have hk : IsKeyId first.1 := hall first (List.mem_cons_self _ _)
    obtain ⟨u, hu, hwfu, _, _⟩ := keyDown_total s first.1 first.2 hwf hk.isInt32
    obtain ⟨v, hv, hwfv, hcur⟩ := ih u next hwfu
      (fun c hc => hall c (List.mem_cons_of_mem _ hc))
    refine ⟨v, ?_, hwfv, ?_⟩
    · rw [KeyboardKeys.keyDowns, hu]; exact hv
    · rw [hcur]; simp [List.getLast_cons]


/-- After a `keyDown(key)` that returns, a further `keyDown(key)` changes nothing. -/
theorem keyDown_again (s u : KeyboardKeys) (key mixResult : Int)
    (h : s.keyDown key mixResult = some u) (m : Int) : u.keyDown key m = some u := by
  by_cases hcur : s.m_curKeyDown = key
  · rw [keyDown_current s key mixResult hcur] at h
    rw [← Option.some.inj h]
    exact keyDown_current s key m hcur
  by_cases hw : isWhiteIndex key
  · have hb := not_isBlackIndex_of_isWhiteIndex hw
    simp only [KeyboardKeys.keyDown, ne_eq, hcur, not_false_eq_true, if_true, hw, hb, if_false,
      Option.pure_def, Option.bind_eq_bind, Option.bind_some, Option.bind_eq_some] at h
    obtain ⟨_, _, _, _, _, _, hu⟩ := h
    apply keyDown_current
    rw [← Option.some.inj hu]
  by_cases hb : isBlackIndex key
  · simp only [KeyboardKeys.keyDown, ne_eq, hcur, not_false_eq_true, if_true, hw, hb, if_false,
      Option.pure_def, Option.bind_eq_bind, Option.bind_some, Option.bind_eq_some] at h
    obtain ⟨_, _, _, _, _, _, _, _, hu⟩ := h
    apply keyDown_current
    rw [← Option.some.inj hu]
  · rw [keyDown_other s key mixResult hw hb] at h
    rw [← Option.some.inj h]
    exact keyDown_other s key m hw hb

/-! ## Claims on `KeyboardKeys::keyDown` -/

/-- C8: `keyDown` is idempotent.  When `id` is the current key, `keyDown(id)` leaves the
whole state as it is: the current key, every key with its level and sound channel, the
timers and the audio log.  Hence a second `keyDown(id)` right after a first one leaves the
state as the first call left it. -/
theorem keyDown_idempotent (s : KeyboardKeys) (id m₁ m₂ : Int) :
    (id = s.m_curKeyDown → s.keyDown id m₁ = some s) ∧
    (s.keyDown id m₁).bind (fun u => u.keyDown id m₂) = s.keyDown id m₁ := by
  constructor
  · intro h
    exact keyDown_current s id m₁ h.symm
  · cases hu : s.keyDown id m₁ with
    | none => rfl
    | some u => exact keyDown_again s u id m₁ hu m₂

/-- Witness of C8 on the controller whose current key is the first white key: a further
`keyDown(0)` returns the same state, and so do two of them. -/
theorem keyDown_idempotent_witness :
    (0 : Int) = pressed.m_curKeyDown ∧ pressed.keyDown 0 1 = some pressed ∧
    (pressed.keyDown 0 1).bind (fun u => u.keyDown 0 2) = pressed.keyDown 0 1 :=
  ⟨by decide, (keyDown_idempotent pressed 0 1 2).1 (by decide),
   (keyDown_idempotent pressed 0 1 2).2⟩


/-- C9: single-key hand-over.  In a constructed controller with current key `c`, a call
`keyDown(k)` with `k` the id of a key (`0..51` or `−37..−2`) other than `c` performs the
one call `keyUp(c)`, which for a key `c` fades out the channel of `c` and starts one lift
timer on `c` and for `c = −1` does nothing; it then makes `k` the current key, plays the
chunk of `k` for the current sound setting, storing the channel, and starts one
press-down timer on `k`.  After this call and any further calls on ids of keys the
current key is the last id. -/
theorem keyDown_handover (s : KeyboardKeys) (k mixResult : Int) (hwf : s.WellFormed)
    (hk : IsKeyId k) (hne : k ≠ s.m_curKeyDown) :
    (∃ t theKey chunk,
      s.keyUp s.m_curKeyDown = some t ∧
      (IsKeyId s.m_curKeyDown → ∃ old,
        s.getKey (KeyRef.ofId s.m_curKeyDown) = some old ∧
        t = { s with audio := s.audio ++ [.fadeOutChannel old.m_soundChannel
                                            DELAY_BEFORE_STOP_SOUND]
                     timers := s.timers ++
                       [⟨DELAY, .liftUpKey, KeyRef.ofId s.m_curKeyDown⟩] }) ∧
      (s.m_curKeyDown = -1 → t = s) ∧
      s.getKey (KeyRef.ofId k) = some theKey ∧
      theKey.m_soundEffect[s.m_soundToUse]? = some chunk ∧
      s.keyDown k mixResult =
        some { t.setKey (KeyRef.ofId k) { theKey with m_soundChannel := some mixResult } with
                 m_curKeyDown := k
                 audio := t.audio ++ [.playChannel chunk mixResult]
                 timers := t.timers ++ [⟨DELAY, .pressDownKey, KeyRef.ofId k⟩] }) ∧
    (∀ calls : List (Int × Int), (∀ c ∈ calls, IsKeyId c.1) →
      ∃ u, s.keyDowns ((k, mixResult) :: calls) = some u ∧
        u.m_curKeyDown =
          (((k, mixResult) :: calls).getLast (List.cons_ne_nil _ _)).1) := by
  constructor
  · obtain ⟨t, theKey, chunk, hup, hget, hchunk, hdown⟩ :=
      keyDown_of_isKeyId s k mixResult hwf hk hne
    refine ⟨t, theKey, chunk, hup, ?_, ?_, hget, hchunk, hdown⟩
    · intro hc
      obtain ⟨old, hold, hup'⟩ := keyUp_of_isKeyId s s.m_curKeyDown hwf hc
      rw [hup] at hup'
      exact ⟨old, hold, Option.some.inj hup'⟩
    · intro hc
      obtain ⟨t', hup', _, _, _, _, _, hsame⟩ :=
        keyUp_frame s s.m_curKeyDown hwf hwf.2.2.2.2.2
      rw [hup] at hup'
      rw [Option.some.inj hup']
      apply hsame
      rw [hc]
      decide
  · intro calls hall
    obtain ⟨u, hu, _, hcur⟩ := keyDowns_current calls s (k, mixResult) hwf
      (by
        intro c hc
        rcases List.mem_cons.mp hc with h | h
        · rw [h]; exact hk
        · exact hall c h)
    exact ⟨u, hu, hcur⟩

/-- Witness of C9: on the controller whose current key is the first white key, `keyDown`
on the first black key ends with that key current, also when followed by `keyDown(5)`. -/
theorem keyDown_handover_witness :
    pressed.WellFormed ∧ IsKeyId (-2) ∧ (-2 : Int) ≠ pressed.m_curKeyDown ∧
    ∃ u, pressed.keyDowns [(-2, 1), (5, 2)] = some u ∧ u.m_curKeyDown = 5 :=
  ⟨by decide, by decide, by decide,
   (keyDown_handover pressed (-2) 1 (by decide) (by decide) (by decide)).2 [(5, 2)]
     (by decide)⟩

/-- C10 as stated fails when the position is off the keyboard: with the first white key
current, the position `x = −1` selects `−1`, and `keyDown(−1)` leaves key `0` current. -/
theorem keyDown_selected_counterexample :
    getSelectedKey ⟨-1, 0, 0⟩ = -1 ∧ pressed.m_curKeyDown = 0 ∧
    (pressed.keyDown (getSelectedKey ⟨-1, 0, 0⟩) 1).map KeyboardKeys.m_curKeyDown = some 0 ∧
    (pressed.keyDown (getSelectedKey ⟨-1, 0, 0⟩) 1).map KeyboardKeys.m_curKeyDown
      ≠ some (getSelectedKey ⟨-1, 0, 0⟩) := by
  have h : getSelectedKey ⟨-1, 0, 0⟩ = -1 := getSelectedKey_of_neg _ (by norm_num)
  rw [h]
  refine ⟨rfl, by decide, ?_, ?_⟩
  · rw [keyDown_other pressed (-1) 1 (by decide) (by decide)]
    decide
  · rw [keyDown_other pressed (-1) 1 (by decide) (by decide)]
    decide

/-- C10, amended: selection tracking.  On a constructed controller
`keyDown(getSelectedKey(x))` returns; when the selection is a key (not `−1`) the current
key afterwards is that selection, and when the selection is `−1` the call changes
nothing, so the key that was current stays current. -/
theorem keyDown_selected (s : KeyboardKeys) (p : Vec3) (mixResult : Int)
    (hwf : s.WellFormed) :
    ∃ u, s.keyDown (getSelectedKey p) mixResult = some u ∧
      (getSelectedKey p ≠ -1 → u.m_curKeyDown = getSelectedKey p) ∧
      (getSelectedKey p = -1 → u = s) := by
  have hid : getSelectedKey p = -1 ∨ IsKeyId (getSelectedKey p) := by
    rcases getSelectedKey_cases p with h | h | h
    · exact Or.inl h
    · exact Or.inr (Or.inl h)
    · exact Or.inr (Or.inr ⟨h.1, h.2.1⟩)
  have h32 : IsInt32 (getSelectedKey p) := by
    rcases hid with h | h
    · rw [h]; decide
    · exact h.isInt32
  obtain ⟨u, hu, _, hcur, hsame⟩ := keyDown_total s (getSelectedKey p) mixResult hwf h32
  refine ⟨u, hu, ?_, ?_⟩
  · intro hne
    rcases hid with h | h
    · exact absurd h hne
    · exact hcur h
  · intro h
    apply hsame
    rw [h]
    decide

/-- Witness of the amended C10 on the constructed controller at `x = 2.5`. -/
theorem keyDown_selected_witness :
    constructed.WellFormed ∧
    ∃ u, constructed.keyDown (getSelectedKey ⟨5 / 2, 0, 0⟩) 1 = some u ∧
      (getSelectedKey ⟨5 / 2, 0, 0⟩ ≠ -1 → u.m_curKeyDown = getSelectedKey ⟨5 / 2, 0, 0⟩) ∧
      (getSelectedKey ⟨5 / 2, 0, 0⟩ = -1 → u = constructed) :=
  ⟨by decide, keyDown_selected constructed ⟨5 / 2, 0, 0⟩ 1 (by decide)⟩


/-! ## Claims on ids without a key, on the key state and on the voice -/

/-- C11: non-existent keys are ignored.  For `id = −1` and for every `int` `id` outside
`0..51` and `−37..−2`, both `keyDown(id)` and `keyUp(id)` return the controller state
unchanged: current key, voice, every key with its level and sound channel, audio log (no
sound started or faded) and timers (none added). -/
theorem keyDown_keyUp_ignored (s : KeyboardKeys) (id mixResult : Int)
    (h32 : IsInt32 id) (hid : ¬ IsKeyId id) :
    s.keyDown id mixResult = some s ∧ s.keyUp id = some s ∧
    s.keyDown (-1) mixResult = some s ∧ s.keyUp (-1) = some s := by
  have h1 : ¬ isWhiteIndex id := by
    rw [isWhiteIndex_iff id h32]; exact fun h => hid (Or.inl h)
  have h2 : ¬ isBlackIndex id := by
    rw [isBlackIndex_iff id h32]; exact fun h => hid (Or.inr h)
  exact ⟨keyDown_other s id mixResult h1 h2, keyUp_other s id h1 h2,
    keyDown_other s (-1) mixResult (by decide) (by decide),
    keyUp_other s (-1) (by decide) (by decide)⟩

/-- Witness of C11 on the controller whose current key is the first white key, at the
ids `52` and `−38` next to the two ranges. -/
theorem keyDown_keyUp_ignored_witness :
    (pressed.keyDown 52 1 = some pressed ∧ pressed.keyUp 52 = some pressed) ∧
    (pressed.keyDown (-38) 1 = some pressed ∧ pressed.keyUp (-38) = some pressed) ∧
    (pressed.keyDown (-1) 1 = some pressed ∧ pressed.keyUp (-1) = some pressed) :=
  ⟨⟨(keyDown_keyUp_ignored pressed 52 1 (by decide) (by decide)).1,
    (keyDown_keyUp_ignored pressed 52 1 (by decide) (by decide)).2.1⟩,
   ⟨(keyDown_keyUp_ignored pressed (-38) 1 (by decide) (by decide)).1,
    (keyDown_keyUp_ignored pressed (-38) 1 (by decide) (by decide)).2.1⟩,
   ⟨(keyDown_keyUp_ignored pressed 52 1 (by decide) (by decide)).2.2.1,
    (keyDown_keyUp_ignored pressed 52 1 (by decide) (by decide)).2.2.2⟩⟩

theorem keyDown_iterate_level (n : Nat) (k : OneKeyboardKey) :
    (OneKeyboardKey.keyDown^[n] k).m_keyLevel = k.m_keyLevel - n := by
  induction n generalizing k with
  | zero => simp
  | succ n ih =>
    rw [Function.iterate_succ_apply, ih]
    simp only [OneKeyboardKey.keyDown]
    push_cast
    ring

theorem keyUp_iterate_level (n : Nat) (k : OneKeyboardKey) :
    (OneKeyboardKey.keyUp^[n] k).m_keyLevel = k.m_keyLevel + n := by
  induction n generalizing k with
  | zero => simp
  | succ n ih =>
    rw [Function.iterate_succ_apply, ih]
    simp only [OneKeyboardKey.keyUp]
    push_cast
    ring

theorem keyUp_keyDown (k : OneKeyboardKey) : k.keyDown.keyUp = k := by
  cases k with
  | mk shape tr level eff ch =>
    cases tr with
    | mk pos rot scale =>
      cases pos with
      | mk x y z =>
        simp [OneKeyboardKey.keyDown, OneKeyboardKey.keyUp, Transform.moveDown,
          Transform.moveUp]

theorem keyUp_keyDown_iterate (n : Nat) (k : OneKeyboardKey) :
    OneKeyboardKey.keyUp^[n] (OneKeyboardKey.keyDown^[n] k) = k := by
  induction n generalizing k with
  | zero => rfl
  | succ n ih =>
    rw [Function.iterate_succ_apply, Function.iterate_succ_apply', keyUp_keyDown, ih]

/-- C12: round trip of a key with `N = NUM_INTERVALS = 5`.  A key at level `0` that is
moved down by `OneKeyboardKey::keyDown` exactly `N` times is at level `−N`, where
`isAtBottom` holds; `N` calls of `OneKeyboardKey::keyUp` then bring it back to level `0`,
where `isAtTop` holds, and to the very key it was. -/
theorem key_round_trip (k : OneKeyboardKey) (h : k.m_keyLevel = 0) :
    NUM_INTERVALS = 5 ∧
    (OneKeyboardKey.keyDown^[5] k).m_keyLevel = -NUM_INTERVALS ∧
    (OneKeyboardKey.keyDown^[5] k).isAtBottom = true ∧
    (OneKeyboardKey.keyUp^[5] (OneKeyboardKey.keyDown^[5] k)).m_keyLevel = 0 ∧
    (OneKeyboardKey.keyUp^[5] (OneKeyboardKey.keyDown^[5] k)).isAtTop = true ∧
    OneKeyboardKey.keyUp^[5] (OneKeyboardKey.keyDown^[5] k) = k := by
  have hd : (OneKeyboardKey.keyDown^[5] k).m_keyLevel = -NUM_INTERVALS := by
    rw [keyDown_iterate_level, h]; rfl
  have hu : OneKeyboardKey.keyUp^[5] (OneKeyboardKey.keyDown^[5] k) = k :=
    keyUp_keyDown_iterate 5 k
  refine ⟨rfl, hd, ?_, ?_, ?_, hu⟩
  · simp only [OneKeyboardKey.isAtBottom, hd, decide_True]
  · rw [hu, h]
  · rw [hu]; simp [OneKeyboardKey.isAtTop, h]

/-- Witness of C12 on a new key. -/
theorem key_round_trip_witness :
    (OneKeyboardKey.keyDown^[5]
      (OneKeyboardKey.new .whiteR Transform.new "o" "p")).m_keyLevel = -NUM_INTERVALS ∧
    OneKeyboardKey.keyUp^[5] (OneKeyboardKey.keyDown^[5]
      (OneKeyboardKey.new .whiteR Transform.new "o" "p")) =
      OneKeyboardKey.new .whiteR Transform.new "o" "p" :=
  ⟨(key_round_trip (OneKeyboardKey.new .whiteR Transform.new "o" "p") rfl).2.1,
   (key_round_trip (OneKeyboardKey.new .whiteR Transform.new "o" "p") rfl).2.2.2.2.2⟩

/-- C13 (counterexample): at the lower endpoint of the travel `keyIsMoving` returns
`true`.  A new key pressed down five times is at level `−5 = −NUM_INTERVALS`, `isAtBottom`
holds for it and `pressDownKey` leaves it alone and cancels its timer, yet `keyIsMoving`
returns `true`.  At the upper endpoint, level `0`, `keyIsMoving` returns `false`. -/
theorem keyIsMoving_at_bottom :
    (OneKeyboardKey.keyDown^[5]
      (OneKeyboardKey.new .whiteR Transform.new "o" "p")).m_keyLevel = -NUM_INTERVALS ∧
    (OneKeyboardKey.keyDown^[5]
      (OneKeyboardKey.new .whiteR Transform.new "o" "p")).isAtBottom = true ∧
    (pressDownKey DELAY (OneKeyboardKey.keyDown^[5]
      (OneKeyboardKey.new .whiteR Transform.new "o" "p"))).1 = 0 ∧
    (OneKeyboardKey.keyDown^[5]
      (OneKeyboardKey.new .whiteR Transform.new "o" "p")).keyIsMoving = true ∧
    (OneKeyboardKey.new .whiteR Transform.new "o" "p").keyIsMoving = false := by
  have hd := keyDown_iterate_level 5 (OneKeyboardKey.new .whiteR Transform.new "o" "p")
  have hl : (OneKeyboardKey.keyDown^[5]
      (OneKeyboardKey.new .whiteR Transform.new "o" "p")).m_keyLevel = -5 := by
    rw [hd]; rfl
  have hb : (OneKeyboardKey.keyDown^[5]
      (OneKeyboardKey.new .whiteR Transform.new "o" "p")).isAtBottom = true := by
    simp only [OneKeyboardKey.isAtBottom, hl]; decide
  refine ⟨hl, hb, ?_, ?_, ?_⟩
  · simp only [pressDownKey, hb]; rfl
  · simp only [OneKeyboardKey.keyIsMoving, hl]; decide
  · simp [OneKeyboardKey.keyIsMoving, OneKeyboardKey.new]

/-- C14: for every level, `OneKeyboardKey::keyIsMoving` returns `false` when
`level ≥ 0` or `level < −N` and `true` otherwise; it is `true` exactly when
`−N ≤ level < 0`, with `N = 5`. -/
theorem keyIsMoving_iff (k : OneKeyboardKey) :
    NUM_INTERVALS = 5 ∧
    (k.m_keyLevel ≥ 0 ∨ k.m_keyLevel < -NUM_INTERVALS → k.keyIsMoving = false) ∧
    (¬ (k.m_keyLevel ≥ 0 ∨ k.m_keyLevel < -NUM_INTERVALS) → k.keyIsMoving = true) ∧
    (k.keyIsMoving = true ↔ -NUM_INTERVALS ≤ k.m_keyLevel ∧ k.m_keyLevel < 0) := by
  refine ⟨rfl, ?_, ?_, ?_⟩
  · intro h; simp [OneKeyboardKey.keyIsMoving, h]
  · intro h; simp [OneKeyboardKey.keyIsMoving, h]
  · unfold OneKeyboardKey.keyIsMoving NUM_INTERVALS
    split_ifs with h
    · constructor
      · intro hc; exact absurd hc (by decide)
      · intro hc; omega
    · constructor
      · intro _; omega
      · intro _; rfl

/-- Witness of C14 on a new key, of level `0`, and on the same key moved down five
times, of level `−5`. -/
theorem keyIsMoving_iff_witness :
    (OneKeyboardKey.new .whiteR Transform.new "o" "p").keyIsMoving = false ∧
    (OneKeyboardKey.keyDown^[5]
      (OneKeyboardKey.new .whiteR Transform.new "o" "p")).keyIsMoving = true :=
  ⟨(keyIsMoving_iff (OneKeyboardKey.new .whiteR Transform.new "o" "p")).2.1
      (Or.inl (by decide)),
   (keyIsMoving_iff (OneKeyboardKey.keyDown^[5]
      (OneKeyboardKey.new .whiteR Transform.new "o" "p"))).2.2.1 (by decide)⟩


/-- `KeyboardKeys::keyIsMoving` on a constructed controller whose current key is the id
of a key: the answer of that key. -/
theorem keyIsMoving_of_isKeyId (s : KeyboardKeys) (hwf : s.WellFormed)
    (hk : IsKeyId s.m_curKeyDown) :
    ∃ theKey, s.getKey (KeyRef.ofId s.m_curKeyDown) = some theKey ∧
      s.keyIsMoving = some theKey.keyIsMoving := by
  obtain ⟨theKey, _, hget, _, _⟩ := getKey_of_isKeyId s s.m_curKeyDown hwf hk
  refine ⟨theKey, hget, ?_⟩
  have h32 := hk.isInt32
  rcases hk with hk | hk
  · have h1 : isWhiteIndex s.m_curKeyDown := (isWhiteIndex_iff _ h32).mpr hk
    have hge : s.m_curKeyDown ≥ 0 := hk.1
    simp only [KeyRef.ofId, hge, if_true, KeyboardKeys.getKey] at hget
    simp only [KeyboardKeys.keyIsMoving, h1, if_true, hget, Option.map_some']
  · have h2 : isBlackIndex s.m_curKeyDown := (isBlackIndex_iff _ h32).mpr hk
    have h1 : ¬ isWhiteIndex s.m_curKeyDown := fun h => not_isBlackIndex_of_isWhiteIndex h h2
    have hneg : ¬ s.m_curKeyDown ≥ 0 := by omega
    simp only [KeyRef.ofId, hneg, if_false, KeyboardKeys.getKey] at hget
    simp only [KeyboardKeys.keyIsMoving, h1, h2, if_true, if_false, hget, Option.map_some']

/-- `KeyboardKeys::keyIsMoving` when the current key is no key id: `false`. -/
theorem keyIsMoving_of_not_isKeyId (s : KeyboardKeys) (h32 : IsInt32 s.m_curKeyDown)
    (hk : ¬ IsKeyId s.m_curKeyDown) : s.keyIsMoving = some false := by
  have h1 : ¬ isWhiteIndex s.m_curKeyDown := by
    rw [isWhiteIndex_iff _ h32]; exact fun h => hk (Or.inl h)
  have h2 : ¬ isBlackIndex s.m_curKeyDown := by
    rw [isBlackIndex_iff _ h32]; exact fun h => hk (Or.inr h)
  simp only [KeyboardKeys.keyIsMoving, h1, h2, if_false]

/-- C15: on a constructed controller `KeyboardKeys::keyIsMoving` returns `true` if and
only if the current key is the id of a key (white `0..51` or black `−37..−2`) and
`keyIsMoving` of that key is `true`; when no key is current (`m_curKeyDown = −1`) it
returns `false`, whatever the levels of the keys are. -/
theorem keyIsMoving_current (s : KeyboardKeys) (hwf : s.WellFormed) :
    (∃ b, s.keyIsMoving = some b ∧
      (b = true ↔ IsKeyId s.m_curKeyDown ∧
        ∃ theKey, s.getKey (KeyRef.ofId s.m_curKeyDown) = some theKey ∧
          theKey.keyIsMoving = true)) ∧
    (s.m_curKeyDown = -1 → s.keyIsMoving = some false) := by
  constructor
  · by_cases hk : IsKeyId s.m_curKeyDown
    · obtain ⟨theKey, hget, hm⟩ := keyIsMoving_of_isKeyId s hwf hk
      refine ⟨theKey.keyIsMoving, hm, ?_⟩
      constructor
      · intro hb; exact ⟨hk, theKey, hget, hb⟩
      · rintro ⟨_, k', hget', hb⟩
        rw [hget] at hget'
        rw [Option.some.inj hget']; exact hb
    · refine ⟨false, keyIsMoving_of_not_isKeyId s hwf.2.2.2.2.2 hk, ?_⟩
      constructor
      · intro hb; exact absurd hb (by decide)
      · rintro ⟨hk', _⟩; exact absurd hk' hk
  · intro hc
    apply keyIsMoving_of_not_isKeyId s hwf.2.2.2.2.2
    rw [hc]; decide

/-- Witness of C15 on the constructed controller, where no key is current, and on the
controller whose current key is the first white key, at level `0`. -/
theorem keyIsMoving_current_witness :
    constructed.WellFormed ∧ constructed.m_curKeyDown = -1 ∧
    constructed.keyIsMoving = some false ∧
    ∃ b, pressed.keyIsMoving = some b ∧
      (b = true ↔ IsKeyId pressed.m_curKeyDown ∧
        ∃ theKey, pressed.getKey (KeyRef.ofId pressed.m_curKeyDown) = some theKey ∧
          theKey.keyIsMoving = true) :=
  ⟨by decide, by decide, (keyIsMoving_current constructed (by decide)).2 (by decide),
   (keyIsMoving_current pressed (by decide)).1⟩

/-- The constructor leaves the organ selected and no key current, with no timer and no
audio call. -/
theorem new_fields (resourceFolder : String) (s : KeyboardKeys)
    (h : KeyboardKeys.new resourceFolder = some s) :
    s.m_soundToUse = 0 ∧ s.m_curKeyDown = -1 ∧ s.timers = [] ∧ s.audio = [] := by
  simp only [KeyboardKeys.new, Option.pure_def, Option.bind_eq_bind, Option.bind_eq_some] at h
  obtain ⟨_, _, _, _, _, _, hs⟩ := h
  rw [← Option.some.inj hs]
  exact ⟨rfl, rfl, rfl, rfl⟩

/-- C18: voice switching.  `nextSoundSetting` maps the voice `v` to `(v + 1) mod 2`, a
value that is `0` or `1`, so organ `0` goes to piano `1` and piano to organ, and from a
voice `0` or `1` two calls restore the setting; the constructor starts at the organ.
The call changes nothing but the voice: current key, keys with their levels and sound
channels, timers and audio log stay as they are.  A following `keyDown` on a key other
than the current one plays the chunk of the new voice. -/
theorem nextSoundSetting_spec (s : KeyboardKeys) :
    s.nextSoundSetting = { s with m_soundToUse := (s.m_soundToUse + 1) % 2 } ∧
    s.nextSoundSetting.m_soundToUse < NUM_SOUNDS ∧
    (s.m_soundToUse = ORGAN_SOUND → s.nextSoundSetting.m_soundToUse = PIANO_SOUND) ∧
    (s.m_soundToUse = PIANO_SOUND → s.nextSoundSetting.m_soundToUse = ORGAN_SOUND) ∧
    (s.m_soundToUse < NUM_SOUNDS → s.nextSoundSetting.nextSoundSetting = s) ∧
    (∀ resourceFolder, KeyboardKeys.new resourceFolder = some s →
      s.m_soundToUse = ORGAN_SOUND) ∧
    (∀ k mixResult, s.WellFormed → IsKeyId k → k ≠ s.m_curKeyDown →
      ∃ u theKey chunk,
        s.getKey (KeyRef.ofId k) = some theKey ∧
        theKey.m_soundEffect[(s.m_soundToUse + 1) % 2]? = some chunk ∧
        s.nextSoundSetting.keyDown k mixResult = some u ∧
        u.audio.getLast? = some (.playChannel chunk mixResult)) := by
  have hmod : ((s.m_soundToUse + 1) % 2 ^ 32) % NUM_SOUNDS = (s.m_soundToUse + 1) % 2 := by
    unfold NUM_SOUNDS
    exact Nat.mod_mod_of_dvd _ (by norm_num)
  have heq : s.nextSoundSetting = { s with m_soundToUse := (s.m_soundToUse + 1) % 2 } := by
    simp only [KeyboardKeys.nextSoundSetting, hmod]
  refine ⟨heq, ?_, ?_, ?_, ?_, ?_, ?_⟩
  · rw [heq]; exact Nat.mod_lt _ (by decide)
  · intro h; rw [heq]; simp only [h, ORGAN_SOUND, PIANO_SOUND]
  · intro h; rw [heq]; simp only [h, ORGAN_SOUND, PIANO_SOUND]
  · intro h
    unfold NUM_SOUNDS at h
    have h2 : ((s.m_soundToUse + 1) % 2 + 1) % 2 = s.m_soundToUse := by omega
    cases s
    simp only [KeyboardKeys.nextSoundSetting, NUM_SOUNDS] at *
    congr 1
    omega
  · intro r h
    exact (new_fields r s h).1
  · intro k mixResult hwf hk hne
    have hwf' : s.nextSoundSetting.WellFormed := by
      rw [heq]
      obtain ⟨a, b, c, d, _, f⟩ := hwf
      exact ⟨a, b, c, d, Nat.mod_lt _ (by decide), f⟩
    obtain ⟨t, theKey, chunk, _, hget, hchunk, hdown⟩ :=
      keyDown_of_isKeyId s.nextSoundSetting k mixResult hwf' hk (by rw [heq]; exact hne)
    refine ⟨_, theKey, chunk, ?_, ?_, hdown, ?_⟩
    · rw [heq] at hget
      cases hr : KeyRef.ofId k with
      | white i => rw [hr] at hget; exact hget
      | black i => rw [hr] at hget; exact hget
    · rw [heq] at hchunk; exact hchunk
    · simp

/-- Witness of C18 on the constructed controller: the organ is selected, one call selects
the piano, two calls restore the state, and `keyDown(0)` after one call plays the piano
chunk of the first white key. -/
theorem nextSoundSetting_spec_witness :
    constructed.m_soundToUse = ORGAN_SOUND ∧
    constructed.nextSoundSetting.m_soundToUse = PIANO_SOUND ∧
    constructed.nextSoundSetting.nextSoundSetting = constructed ∧
    ∃ u theKey chunk,
      constructed.getKey (KeyRef.ofId 0) = some theKey ∧
      theKey.m_soundEffect[(constructed.m_soundToUse + 1) % 2]? = some chunk ∧
      constructed.nextSoundSetting.keyDown 0 7 = some u ∧
      u.audio.getLast? = some (.playChannel chunk 7) :=
  ⟨by decide, (nextSoundSetting_spec constructed).2.2.1 (by decide),
   (nextSoundSetting_spec constructed).2.2.2.2.1 (by decide),
   (nextSoundSetting_spec constructed).2.2.2.2.2.2 0 7 (by decide) (by decide) (by decide)⟩

/-- C19: no dead zone inside the keyboard.  For every `x` with `0 ≤ x ≤ 52·Δx` the
selector returns the id of a key, never `−1`.  Whenever the table of the octave is
reached, that is for `0.75·Δx ≤ x ≤ (52 − 0.5)·Δx`, the branch of the right edge of Ab is
not taken in octave `0`, where it would give `−1`: every `x` below `0.75·Δx` has been
snapped to white key `0` before. -/
theorem getSelectedKey_no_dead_zone (p : Vec3) :
    (0 ≤ p.x → p.x ≤ (NUM_WHITE_KEYS : ℚ) * X_DIFF_BETWEEN_WHITE_KEYS →
      getSelectedKey p ≠ -1 ∧ IsKeyId (getSelectedKey p)) ∧
    (3 / 4 * X_DIFF_BETWEEN_WHITE_KEYS ≤ p.x →
      p.x ≤ (52 - 1 / 2) * X_DIFF_BETWEEN_WHITE_KEYS →
      ¬ (Int.floor (p.x / X_DIFF_BETWEEN_WHITE_KEYS / 7) = 0 ∧
          p.x / X_DIFF_BETWEEN_WHITE_KEYS
            - 7 * (Int.floor (p.x / X_DIFF_BETWEEN_WHITE_KEYS / 7) : ℚ) < 1 / 4)) ∧
    (0 ≤ p.x → p.x < 3 / 4 * X_DIFF_BETWEEN_WHITE_KEYS → getSelectedKey p = 0) := by
  refine ⟨?_, ?_, getSelectedKey_left_snap p⟩
  · intro h0 h52
    have hid : IsKeyId (getSelectedKey p) := by
      by_cases hx1 : p.x < 3 / 4 * X_DIFF_BETWEEN_WHITE_KEYS
      · rw [getSelectedKey_left_snap p h0 hx1]; decide
      by_cases hx3 : ((NUM_WHITE_KEYS : ℚ) - 1 / 2) * X_DIFF_BETWEEN_WHITE_KEYS < p.x
      · rw [getSelectedKey_right_snap p hx3 h52]; decide
      have h1 : 3 / 4 * X_DIFF_BETWEEN_WHITE_KEYS ≤ p.x := not_lt.mp hx1
      have h2 : p.x ≤ (52 - 1 / 2) * X_DIFF_BETWEEN_WHITE_KEYS := by
        have := not_lt.mp hx3
        simpa [NUM_WHITE_KEYS] using this
      rcases getSelectedKey_interior_cases p h1 h2 with h | h
      · exact Or.inl h
      · exact Or.inr ⟨h.1, h.2.1⟩
    refine ⟨?_, hid⟩
    intro hc
    rw [hc] at hid
    exact absurd hid (by decide)
  · intro h1 h2
    obtain ⟨hka, _, _, _, _, _⟩ := interior_bounds p.x h1 h2
    rintro ⟨ho, hl⟩
    rw [ho] at hl
    norm_num at hl
    linarith

/-- Witness of C19 at the left end `x = 0`, inside at `x = 0.1·Δx = 6/25` and at the
right end `x = 52·Δx = 624/5`. -/
theorem getSelectedKey_no_dead_zone_witness :
    getSelectedKey ⟨0, 0, 0⟩ ≠ -1 ∧ getSelectedKey ⟨6 / 25, 0, 0⟩ = 0 ∧
    getSelectedKey ⟨624 / 5, 0, 0⟩ ≠ -1 :=
  ⟨((getSelectedKey_no_dead_zone ⟨0, 0, 0⟩).1 (le_refl _)
      (by norm_num [NUM_WHITE_KEYS, X_DIFF_BETWEEN_WHITE_KEYS])).1,
   (getSelectedKey_no_dead_zone ⟨6 / 25, 0, 0⟩).2.2 (by norm_num)
      (by norm_num [X_DIFF_BETWEEN_WHITE_KEYS]),
   ((getSelectedKey_no_dead_zone ⟨624 / 5, 0, 0⟩).1 (by norm_num)
      (by norm_num [NUM_WHITE_KEYS, X_DIFF_BETWEEN_WHITE_KEYS])).1⟩


/-! ## Lemmas on the constructor -/

theorem isNew_new (shape : KeyShape) (transform : Transform) (o p : String) :
    (OneKeyboardKey.new shape transform o p).IsNew :=
  ⟨rfl, rfl, rfl⟩

theorem start_filled (resourceFolder : String) :
    (Construction.start resourceFolder).Filled 0 0 0 := by
  refine ⟨rfl, rfl, ?_, ?_, ?_, ?_, ?_, rfl, rfl⟩
  · simp [Construction.start]
  · simp [Construction.start]
  · simp [Construction.start, Transform.new]
  · intro i hi; omega
  · intro i hi; omega

/-- A statement creating the next white key, when the transform is `w` keys to the right
and the array has room. -/
theorem nextWhite_filled (c : Construction) (shape : KeyShape) (keyName : String)
    (w b : Nat) (h : c.Filled w b w) (hw : w < NUM_WHITE_KEYS) :
    ∃ d, c.nextWhite shape keyName = some d ∧ d.Filled (w + 1) b w ∧
      d.resFolder = c.resFolder := by
  obtain ⟨h1, h2, h3, h4, h5, h6, h7, h8, h9⟩ := h
  have hlt : c.whiteKeysFilled < c.whiteKeys.length := by rw [h1, h3]; exact hw
  have e : c.nextWhite shape keyName =
      some { c with
        whiteKeys := c.whiteKeys.set c.whiteKeysFilled
          (some (OneKeyboardKey.new shape c.transform
            (c.resFolder ++ ORGAN_FOLDER ++ keyName ++ SOUND_EXTENSION)
            (c.resFolder ++ PIANO_FOLDER ++ keyName ++ SOUND_EXTENSION)))
        stores := c.stores ++ [.white c.whiteKeysFilled]
        whiteKeysFilled := c.whiteKeysFilled + 1 } := by
    simp only [Construction.nextWhite, Construction.makeWhiteKey, hlt, if_true,
      Option.map_some']
  refine ⟨_, e, ?_, rfl⟩
  refine ⟨by simp only [h1], h2, by simp only [List.length_set, h3], h4, h5, ?_, h7, ?_, ?_⟩
  · intro i hi
    by_cases hiw : i = w
    · subst hiw
      refine ⟨OneKeyboardKey.new shape c.transform
          (c.resFolder ++ ORGAN_FOLDER ++ keyName ++ SOUND_EXTENSION)
          (c.resFolder ++ PIANO_FOLDER ++ keyName ++ SOUND_EXTENSION), ?_,
        isNew_new _ _ _ _, ?_⟩
      · simp only [h1]
        rw [List.getElem?_set_self (by rw [h3]; exact hw)]
      · simp only [OneKeyboardKey.new]; exact h5
    · obtain ⟨k, hk, hn, hx⟩ := h6 i (by omega)
      refine ⟨k, ?_, hn, hx⟩
      simp only [h1]
      rw [List.getElem?_set_ne (fun e => hiw e.symm)]
      exact hk
  · simp only [List.filterMap_append, h8, h1, List.filterMap_cons, KeyRef.whiteIndex?,
      List.filterMap_nil, List.range_succ]
  · simp only [List.filterMap_append, h9, List.filterMap_cons, KeyRef.blackIndex?,
      List.filterMap_nil, List.append_nil]

/-- A statement creating the next black key, when the array has room. -/
theorem nextBlack_filled (c : Construction) (keyName : String)
    (w b m : Nat) (h : c.Filled w b m) (hb : b < NUM_BLACK_KEYS) :
    ∃ d, c.nextBlack keyName = some d ∧ d.Filled w (b + 1) m ∧
      d.resFolder = c.resFolder := by
  obtain ⟨h1, h2, h3, h4, h5, h6, h7, h8, h9⟩ := h
  have hlt : c.blackKeysFilled < c.blackKeys.length := by rw [h2, h4]; exact hb
  have e : c.nextBlack keyName =
      some { c with
        blackKeys := c.blackKeys.set c.blackKeysFilled
          (some (OneKeyboardKey.new .black c.transform
            (c.resFolder ++ ORGAN_FOLDER ++ keyName ++ SOUND_EXTENSION)
            (c.resFolder ++ PIANO_FOLDER ++ keyName ++ SOUND_EXTENSION)))
        stores := c.stores ++ [.black c.blackKeysFilled]
        blackKeysFilled := c.blackKeysFilled + 1 } := by
    simp only [Construction.nextBlack, Construction.makeBlackKey, hlt, if_true,
      Option.map_some']
  refine ⟨_, e, ?_, rfl⟩
  refine ⟨h1, by simp only [h2], h3, by simp only [List.length_set, h4], h5, h6, ?_, ?_, ?_⟩
  · intro i hi
    by_cases hib : i = b
    · subst hib
      refine ⟨OneKeyboardKey.new .black c.transform
          (c.resFolder ++ ORGAN_FOLDER ++ keyName ++ SOUND_EXTENSION)
          (c.resFolder ++ PIANO_FOLDER ++ keyName ++ SOUND_EXTENSION), ?_,
        isNew_new _ _ _ _⟩
      simp only [h2]
      rw [List.getElem?_set_self (by rw [h4]; exact hb)]
    · obtain ⟨k, hk, hn⟩ := h7 i (by omega)
      refine ⟨k, ?_, hn⟩
      simp only [h2]
      rw [List.getElem?_set_ne (fun e => hib e.symm)]
      exact hk
  · simp only [List.filterMap_append, h8, List.filterMap_cons, KeyRef.whiteIndex?,
      List.filterMap_nil, List.append_nil]
  · simp only [List.filterMap_append, h9, h2, List.filterMap_cons, KeyRef.blackIndex?,
      List.filterMap_nil, List.range_succ]

/-- A statement `transform.moveRight(X_DIFF_BETWEEN_WHITE_KEYS)`. -/
theorem moveRight_filled (c : Construction) (w b m : Nat) (h : c.Filled w b m) :
    c.moveRight.Filled w b (m + 1) ∧ c.moveRight.resFolder = c.resFolder := by
  obtain ⟨h1, h2, h3, h4, h5, h6, h7, h8, h9⟩ := h
  refine ⟨⟨h1, h2, h3, h4, ?_, h6, h7, h8, h9⟩, rfl⟩
  simp only [Construction.moveRight, Transform.moveRight, h5]
  push_cast
  ring


/-- One pass of the loop over the octaves creates seven white and five black keys and
moves the transform seven keys to the right. -/
theorem octaveBody_filled (c : Construction) (octave w b : Nat)
    (h : c.Filled w b w) (hw : w + 7 ≤ NUM_WHITE_KEYS) (hb : b + 5 ≤ NUM_BLACK_KEYS) :
    ∃ d, c.octaveBody octave = some d ∧ d.Filled (w + 7) (b + 5) (w + 7) ∧
      d.resFolder = c.resFolder := by
  obtain ⟨c1, e1, f1, r1⟩ := nextWhite_filled c .whiteR (toString octave ++ "c") w b h
    (by omega)
  obtain ⟨c2, e2, f2, r2⟩ := nextBlack_filled c1 (toString octave ++ "db") _ _ _ f1
    (by omega)
  obtain ⟨f3, r3⟩ := moveRight_filled c2 _ _ _ f2
  obtain ⟨c4, e4, f4, r4⟩ := nextWhite_filled c2.moveRight .whiteLR (toString octave ++ "d")
    _ _ f3 (by omega)
  obtain ⟨c5, e5, f5, r5⟩ := nextBlack_filled c4 (toString octave ++ "eb") _ _ _ f4
    (by omega)
  obtain ⟨f6, r6⟩ := moveRight_filled c5 _ _ _ f5
  obtain ⟨c7, e7, f7, r7⟩ := nextWhite_filled c5.moveRight .whiteL (toString octave ++ "e")
    _ _ f6 (by omega)
  obtain ⟨f8, r8⟩ := moveRight_filled c7 _ _ _ f7
  obtain ⟨c9, e9, f9, r9⟩ := nextWhite_filled c7.moveRight .whiteR (toString octave ++ "f")
    _ _ f8 (by omega)
  obtain ⟨c10, e10, f10, r10⟩ := nextBlack_filled c9 (toString octave ++ "gb") _ _ _ f9
    (by omega)
  obtain ⟨f11, r11⟩ := moveRight_filled c10 _ _ _ f10
  obtain ⟨c12, e12, f12, r12⟩ := nextWhite_filled c10.moveRight .whiteLR
    (toString octave ++ "g") _ _ f11 (by omega)
  obtain ⟨c13, e13, f13, r13⟩ := nextBlack_filled c12 (toString octave ++ "ab") _ _ _ f12
    (by omega)
  obtain ⟨f14, r14⟩ := moveRight_filled c13 _ _ _ f13
  obtain ⟨c15, e15, f15, r15⟩ := nextWhite_filled c13.moveRight .whiteLR
    (toString octave ++ "a") _ _ f14 (by omega)
  obtain ⟨c16, e16, f16, r16⟩ := nextBlack_filled c15 (toString octave ++ "bb") _ _ _ f15
    (by omega)
  obtain ⟨f17, r17⟩ := moveRight_filled c16 _ _ _ f16
  obtain ⟨c18, e18, f18, r18⟩ := nextWhite_filled c16.moveRight .whiteL
    (toString octave ++ "b") _ _ f17 (by omega)
  obtain ⟨f19, r19⟩ := moveRight_filled c18 _ _ _ f18
  refine ⟨c18.moveRight, ?_, f19, ?_⟩
  · simp only [Construction.octaveBody, Option.pure_def, Option.bind_eq_bind, e1,
      Option.some_bind, e2, e4, e5, e7, e9, e10, e12, e13, e15, e16, e18]
  · rw [r19, r18, r17, r16, r15, r14, r13, r12, r11, r10, r9, r8, r7, r6, r5, r4, r3, r2, r1]

/-- The loop over the octaves, run `n` times. -/
theorem octaveLoop_filled (n : Nat) :
    ∀ (c : Construction) (first w b : Nat), c.Filled w b w →
      w + 7 * n ≤ NUM_WHITE_KEYS → b + 5 * n ≤ NUM_BLACK_KEYS →
      ∃ d, c.octaveLoop first n = some d ∧ d.Filled (w + 7 * n) (b + 5 * n) (w + 7 * n) ∧
        d.resFolder = c.resFolder := by
  induction n with
  | zero =>
    intro c first w b h _ _
    exact ⟨c, rfl, h, rfl⟩
  | succ n ih =>
    intro c first w b h hw hb
    obtain ⟨d, e, f, r⟩ := octaveBody_filled c first w b h (by omega) (by omega)
    obtain ⟨d', e', f', r'⟩ := ih d (first + 1) (w + 7) (b + 5) f (by omega) (by omega)
    refine ⟨d', ?_, ?_, by rw [r', r]⟩
    · simp only [Construction.octaveLoop, e, Option.some_bind, e']
    · have hw' : w + 7 + 7 * n = w + 7 * (n + 1) := by ring
      have hb' : b + 5 + 5 * n = b + 5 * (n + 1) := by ring
      rw [← hw', ← hb']
      exact f'

/-- The statements of the constructor that create keys run through: 52 white and 36
black keys are stored, and the transform ends 52 keys to the right. -/
theorem build_filled (resourceFolder : String) :
    ∃ c, KeyboardKeys.build resourceFolder = some c ∧ c.Filled 52 36 52 ∧
      c.resFolder = resourceFolder := by
  have f0 := start_filled resourceFolder
  obtain ⟨c1, e1, f1, r1⟩ := nextWhite_filled _ .whiteR "0a" 0 0 f0 (by decide)
  obtain ⟨c2, e2, f2, r2⟩ := nextBlack_filled c1 "0bb" _ _ _ f1 (by decide)
  obtain ⟨f3, r3⟩ := moveRight_filled c2 _ _ _ f2
  obtain ⟨c4, e4, f4, r4⟩ := nextWhite_filled c2.moveRight .whiteL "0b" _ _ f3 (by decide)
  obtain ⟨f5, r5⟩ := moveRight_filled c4 _ _ _ f4
  obtain ⟨c6, e6, f6, r6⟩ := octaveLoop_filled NUM_OCTAVES c4.moveRight 1 _ _ f5
    (by decide) (by decide)
  obtain ⟨c7, e7, f7, r7⟩ := nextWhite_filled c6 .white (toString (NUM_OCTAVES + 1) ++ "c")
    _ _ f6 (by decide)
  obtain ⟨f8, r8⟩ := moveRight_filled c7 _ _ _ f7
  refine ⟨c7.moveRight, ?_, f8, ?_⟩
  · simp only [KeyboardKeys.build, Option.pure_def, Option.bind_eq_bind, e1, Option.some_bind,
      e2, e4, e6, e7]
  · rw [r8, r7, r6, r5, r4, r3, r2, r1]; rfl


theorem allFilled_map_some {α : Type} (ks : List α) : allFilled (ks.map some) = some ks := by
  induction ks with
  | nil => rfl
  | cons a rest ih => simp [allFilled, ih]

theorem eq_map_some_of_filled {α : Type} (l : List (Option α))
    (h : ∀ i, i < l.length → ∃ k, l[i]? = some (some k)) : ∃ ks : List α, l = ks.map some := by
  induction l with
  | nil => exact ⟨[], rfl⟩
  | cons a rest ih =>
    obtain ⟨k, hk⟩ := h 0 (by simp)
    obtain ⟨ks, hks⟩ := ih (fun i hi => by
      obtain ⟨k', hk'⟩ := h (i + 1) (by simp; omega)
      exact ⟨k', by simpa using hk'⟩)
    refine ⟨k :: ks, ?_⟩
    simp only [List.getElem?_cons_zero, Option.some.injEq] at hk
    rw [hk, hks]
    rfl

/-- The constructor returns, for every resource folder: the controller holds the keys
that were stored, no key is current, the organ is selected, and no timer or audio call
has been made. -/
theorem new_spec (resourceFolder : String) :
    ∃ c s, KeyboardKeys.build resourceFolder = some c ∧ c.Filled 52 36 52 ∧
      KeyboardKeys.new resourceFolder = some s ∧
      c.whiteKeys = s.whiteKeys.map some ∧ c.blackKeys = s.blackKeys.map some ∧
      s.resFolder = resourceFolder ∧ s.m_curKeyDown = -1 ∧ s.m_soundToUse = 0 ∧
      s.timers = [] ∧ s.audio = [] := by
  obtain ⟨c, hc, hf, hr⟩ := build_filled resourceFolder
  have hf' := hf
  obtain ⟨_, _, h3, h4, _, h6, h7, _, _⟩ := hf'
  obtain ⟨ws, hws⟩ := eq_map_some_of_filled c.whiteKeys (fun i hi => by
    obtain ⟨k, hk, _⟩ := h6 i (by rw [h3] at hi; exact hi)
    exact ⟨k, hk⟩)
  obtain ⟨bs, hbs⟩ := eq_map_some_of_filled c.blackKeys (fun i hi => by
    obtain ⟨k, hk, _⟩ := h7 i (by rw [h4] at hi; exact hi)
    exact ⟨k, hk⟩)
  refine ⟨c, { resFolder := c.resFolder, whiteKeys := ws, blackKeys := bs,
               m_curKeyDown := -1, m_soundToUse := 0, timers := [], audio := [] },
    hc, hf, ?_, hws, hbs, hr, rfl, rfl, rfl, rfl⟩
  simp only [KeyboardKeys.new, hc, Option.pure_def, Option.bind_eq_bind, Option.some_bind,
    hws, hbs, allFilled_map_some]

/-- The keys of a constructed controller: every slot holds a new key, and white key `i`
has its transform at `i·Δx`. -/
theorem new_keys (resourceFolder : String) (s : KeyboardKeys)
    (h : KeyboardKeys.new resourceFolder = some s) :
    s.whiteKeys.length = 52 ∧ s.blackKeys.length = 36 ∧
    (∀ i : Nat, i < 52 → ∃ k, s.whiteKeys[i]? = some k ∧ k.IsNew ∧
      k.m_transform.m_pos.x = (i : ℚ) * X_DIFF_BETWEEN_WHITE_KEYS) ∧
    (∀ i : Nat, i < 36 → ∃ k, s.blackKeys[i]? = some k ∧ k.IsNew) := by
  obtain ⟨c, s', _, hf, hs', hw, hb, _⟩ := new_spec resourceFolder
  rw [h] at hs'
  have hss : s = s' := Option.some.inj hs'
  subst hss
  obtain ⟨_, _, h3, h4, _, h6, h7, _, _⟩ := hf
  refine ⟨?_, ?_, ?_, ?_⟩
  · rw [hw, List.length_map] at h3; exact h3
  · rw [hb, List.length_map] at h4; exact h4
  · intro i hi
    obtain ⟨k, hk, hn, hx⟩ := h6 i hi
    refine ⟨k, ?_, hn, hx⟩
    rw [hw, List.getElem?_map] at hk
    cases hg : s.whiteKeys[i]? with
    | none => rw [hg] at hk; simp at hk
    | some k' =>
      rw [hg] at hk
      simp only [Option.map_some', Option.some.injEq] at hk
      rw [hk]
  · intro i hi
    obtain ⟨k, hk, hn⟩ := h7 i hi
    refine ⟨k, ?_, hn⟩
    rw [hb, List.getElem?_map] at hk
    cases hg : s.blackKeys[i]? with
    | none => rw [hg] at hk; simp at hk
    | some k' =>
      rw [hg] at hk
      simp only [Option.map_some', Option.some.injEq] at hk
      rw [hk]

/-- Every key of a constructed controller is new. -/
theorem new_isNew (resourceFolder : String) (s : KeyboardKeys)
    (h : KeyboardKeys.new resourceFolder = some s) :
    (∀ k ∈ s.whiteKeys, k.IsNew) ∧ (∀ k ∈ s.blackKeys, k.IsNew) := by
  obtain ⟨hw, hb, hws, hbs⟩ := new_keys resourceFolder s h
  constructor
  · intro k hk
    obtain ⟨i, hi, hki⟩ := List.getElem_of_mem hk
    obtain ⟨k', hk', hn, _⟩ := hws i (by rw [← hw]; exact hi)
    rw [List.getElem?_eq_getElem hi, hki] at hk'
    rw [Option.some.inj hk']; exact hn
  · intro k hk
    obtain ⟨i, hi, hki⟩ := List.getElem_of_mem hk
    obtain ⟨k', hk', hn⟩ := hbs i (by rw [← hb]; exact hi)
    rw [List.getElem?_eq_getElem hi, hki] at hk'
    rw [Option.some.inj hk']; exact hn

/-- A constructed controller is well formed. -/
theorem new_wellFormed (resourceFolder : String) (s : KeyboardKeys)
    (h : KeyboardKeys.new resourceFolder = some s) : s.WellFormed := by
  obtain ⟨hw, hb, _, _⟩ := new_keys resourceFolder s h
  obtain ⟨hnw, hnb⟩ := new_isNew resourceFolder s h
  obtain ⟨hv, hc, _, _⟩ := new_fields resourceFolder s h
  refine ⟨hw, hb, fun k hk => (hnw k hk).2.1, fun k hk => (hnb k hk).2.1, ?_, ?_⟩
  · rw [hv]; decide
  · rw [hc]; decide

theorem new_res : KeyboardKeys.new "res" = some constructed := by
  unfold constructed
  exact (Option.some_get _).symm

/-! ## Claims on the constructor -/

/-- C16: key registry size.  With `NUM_OCTAVES = 7` the constructor, for every resource
folder, stores white keys in the slots `0, 1, …, 51` in that order and black keys in the
slots `0, 1, …, 35` in that order, each slot once: 88 stores, none outside the allocated
arrays.  The white sequence has length `7·O + 3 = 52 = NUM_WHITE_KEYS`, the black one
`5·O + 1 = 36 = NUM_BLACK_KEYS`. -/
theorem constructor_registry (resourceFolder : String) :
    ∃ c s, KeyboardKeys.build resourceFolder = some c ∧
      KeyboardKeys.new resourceFolder = some s ∧
      c.stores.filterMap KeyRef.whiteIndex? = List.range 52 ∧
      c.stores.filterMap KeyRef.blackIndex? = List.range 36 ∧
      c.stores.length = 88 ∧
      (∀ i, KeyRef.white i ∈ c.stores → i < NUM_WHITE_KEYS) ∧
      (∀ i, KeyRef.black i ∈ c.stores → i < NUM_BLACK_KEYS) ∧
      c.whiteKeysFilled = 52 ∧ c.blackKeysFilled = 36 ∧
      c.whiteKeys.length = NUM_WHITE_KEYS ∧ c.blackKeys.length = NUM_BLACK_KEYS ∧
      s.whiteKeys.length = 7 * NUM_OCTAVES + 3 ∧ 7 * NUM_OCTAVES + 3 = 52 ∧
      NUM_WHITE_KEYS = 52 ∧
      s.blackKeys.length = 5 * NUM_OCTAVES + 1 ∧ 5 * NUM_OCTAVES + 1 = 36 ∧
      NUM_BLACK_KEYS = 36 := by
  obtain ⟨c, s, hc, hf, hs, _⟩ := new_spec resourceFolder
  obtain ⟨hw, hb, _, _⟩ := new_keys resourceFolder s hs
  obtain ⟨h1, h2, h3, h4, _, _, _, h8, h9⟩ := hf
  have hmemw : ∀ i, KeyRef.white i ∈ c.stores → i < NUM_WHITE_KEYS := by
    intro i hi
    have : i ∈ c.stores.filterMap KeyRef.whiteIndex? :=
      List.mem_filterMap.mpr ⟨_, hi, rfl⟩
    rw [h8] at this
    exact List.mem_range.mp this
  have hmemb : ∀ i, KeyRef.black i ∈ c.stores → i < NUM_BLACK_KEYS := by
    intro i hi
    have : i ∈ c.stores.filterMap KeyRef.blackIndex? :=
      List.mem_filterMap.mpr ⟨_, hi, rfl⟩
    rw [h9] at this
    exact List.mem_range.mp this
  have hlen : c.stores.length = 88 := by
    have hsum : ∀ l : List KeyRef, l.length =
        (l.filterMap KeyRef.whiteIndex?).length + (l.filterMap KeyRef.blackIndex?).length := by
      intro l
      induction l with
      | nil => rfl
      | cons a rest ih =>
        cases a with
        | white i =>
          simp only [List.length_cons, List.filterMap_cons, KeyRef.whiteIndex?,
            KeyRef.blackIndex?, ih]
          omega
        | black i =>
          simp only [List.length_cons, List.filterMap_cons, KeyRef.whiteIndex?,
            KeyRef.blackIndex?, ih]
          omega
    rw [hsum, h8, h9, List.length_range, List.length_range]
  exact ⟨c, s, hc, hs, h8, h9, hlen, hmemw, hmemb, h1, h2, h3, h4, hw, rfl, rfl, hb, rfl, rfl⟩

/-- C17: white key positions.  For every resource folder the constructor returns, and
for every `i` in `0..51` the transform with which it built `whiteKeys[i]` has
x-position `i·Δx`, with `Δx = 2.4` in exact arithmetic; the transform itself ends at
`52·Δx`, one `moveRight(Δx)` for each white key. -/
theorem constructor_white_positions (resourceFolder : String) :
    X_DIFF_BETWEEN_WHITE_KEYS = 24 / 10 ∧
    ∃ c s, KeyboardKeys.build resourceFolder = some c ∧
      KeyboardKeys.new resourceFolder = some s ∧
      c.transform.m_pos.x = 52 * X_DIFF_BETWEEN_WHITE_KEYS ∧
      ∀ i : Nat, i < 52 → ∃ k, s.whiteKeys[i]? = some k ∧
        k.m_transform.m_pos.x = (i : ℚ) * X_DIFF_BETWEEN_WHITE_KEYS := by
  refine ⟨by norm_num [X_DIFF_BETWEEN_WHITE_KEYS], ?_⟩
  obtain ⟨c, s, hc, hf, hs, _⟩ := new_spec resourceFolder
  obtain ⟨_, _, hws, _⟩ := new_keys resourceFolder s hs
  refine ⟨c, s, hc, hs, ?_, ?_⟩
  · rw [hf.2.2.2.2.1]; norm_num
  · intro i hi
    obtain ⟨k, hk, _, hx⟩ := hws i hi
    exact ⟨k, hk, hx⟩

/-- Witness of C17 on the controller constructed for the folder `res`: the last white
key, of index `51`, has its transform at `51·Δx`. -/
theorem constructor_white_positions_witness :
    ∃ k, constructed.whiteKeys[51]? = some k ∧
      k.m_transform.m_pos.x = ((51 : Nat) : ℚ) * X_DIFF_BETWEEN_WHITE_KEYS :=
  match (constructor_white_positions "res").2 with
  | ⟨_, s, _, hs, _, hall⟩ => by
    have hc : s = constructed := Option.some.inj (hs.symm.trans new_res)
    rw [← hc]
    exact hall 51 (by decide)


/-! ## The level invariant -/

theorem pressDownKey_levelInRange (interval : Nat) (k : OneKeyboardKey)
    (h : k.LevelInRange) :
    (pressDownKey interval k).2.LevelInRange ∧
    (pressDownKey interval k).2.m_soundEffect = k.m_soundEffect := by
  unfold OneKeyboardKey.LevelInRange NUM_INTERVALS at *
  by_cases hb : k.m_keyLevel = -5
  · have e : pressDownKey interval k = (0, k) := by
      simp [pressDownKey, OneKeyboardKey.isAtBottom, NUM_INTERVALS, hb]
    rw [e]; exact ⟨h, rfl⟩
  · have e : pressDownKey interval k = (interval, k.keyDown) := by
      simp [pressDownKey, OneKeyboardKey.isAtBottom, NUM_INTERVALS, hb]
    rw [e]
    refine ⟨⟨?_, ?_⟩, rfl⟩
    · show -5 ≤ k.m_keyLevel - 1
      omega
    · show k.m_keyLevel - 1 ≤ 0
      omega

theorem liftUpKey_levelInRange (interval : Nat) (k : OneKeyboardKey)
    (h : k.LevelInRange) :
    (liftUpKey interval k).2.LevelInRange ∧
    (liftUpKey interval k).2.m_soundEffect = k.m_soundEffect := by
  unfold OneKeyboardKey.LevelInRange NUM_INTERVALS at *
  by_cases hb : k.m_keyLevel ≥ 0
  · have e : liftUpKey interval k = (0, k) := by
      simp [liftUpKey, OneKeyboardKey.isAtTop, hb]
    rw [e]; exact ⟨h, rfl⟩
  · have e : liftUpKey interval k = (interval, k.keyUp) := by
      simp [liftUpKey, OneKeyboardKey.isAtTop, hb]
    rw [e]
    refine ⟨⟨?_, ?_⟩, rfl⟩
    · show -5 ≤ k.m_keyLevel + 1
      omega
    · show k.m_keyLevel + 1 ≤ 0
      omega

/-- Replacing one element of a list by one with the property keeps the property of all
elements. -/
theorem forall_mem_set {α : Type} (P : α → Prop) (l : List α) (i : Nat) (a : α)
    (h : ∀ k ∈ l, P k) (ha : P a) : ∀ k ∈ l.set i a, P k := by
  intro k hk
  rcases List.mem_or_eq_of_mem_set hk with h' | h'
  · exact h k h'
  · rw [h']; exact ha

/-- The expiry of a timer keeps the controller well formed and the levels in range. -/
theorem fireTimer_inv (s t : KeyboardKeys) (n : Nat) (h : s.fireTimer n = some t)
    (hwf : s.WellFormed) (hl : s.LevelsInRange) : t.WellFormed ∧ t.LevelsInRange := by
  obtain ⟨hw, hb, hws, hbs, hs, hc⟩ := hwf
  obtain ⟨hlw, hlb⟩ := hl
  simp only [KeyboardKeys.fireTimer, Option.pure_def, Option.bind_eq_bind,
    Option.bind_eq_some] at h
  obtain ⟨tm, _, h⟩ := h
  cases hp : tm.param with
  | white i =>
    rw [hp] at h
    simp only [Option.bind_eq_some] at h
    obtain ⟨theKey, hget, ht⟩ := h
    have hmem : theKey ∈ s.whiteKeys := List.getElem?_mem hget
    have hres : (match tm.callback with
        | .pressDownKey => pressDownKey tm.interval theKey
        | .liftUpKey => liftUpKey tm.interval theKey).2.LevelInRange ∧
        (match tm.callback with
        | .pressDownKey => pressDownKey tm.interval theKey
        | .liftUpKey => liftUpKey tm.interval theKey).2.m_soundEffect
          = theKey.m_soundEffect := by
      cases tm.callback with
      | pressDownKey => exact pressDownKey_levelInRange _ _ (hlw _ hmem)
      | liftUpKey => exact liftUpKey_levelInRange _ _ (hlw _ hmem)
    rw [← Option.some.inj ht]
    refine ⟨⟨by simp only [List.length_set]; exact hw, hb, ?_, hbs, hs, hc⟩, ?_, hlb⟩
    · have hlen := hws _ hmem
      rw [← hres.2] at hlen
      exact forall_mem_set _ _ _ _ hws hlen
    · exact forall_mem_set _ _ _ _ hlw hres.1
  | black i =>
    rw [hp] at h
    simp only [Option.bind_eq_some] at h
    obtain ⟨theKey, hget, ht⟩ := h
    have hmem : theKey ∈ s.blackKeys := List.getElem?_mem hget
    have hres : (match tm.callback with
        | .pressDownKey => pressDownKey tm.interval theKey
        | .liftUpKey => liftUpKey tm.interval theKey).2.LevelInRange ∧
        (match tm.callback with
        | .pressDownKey => pressDownKey tm.interval theKey
        | .liftUpKey => liftUpKey tm.interval theKey).2.m_soundEffect
          = theKey.m_soundEffect := by
      cases tm.callback with
      | pressDownKey => exact pressDownKey_levelInRange _ _ (hlb _ hmem)
      | liftUpKey => exact liftUpKey_levelInRange _ _ (hlb _ hmem)
    rw [← Option.some.inj ht]
    refine ⟨⟨hw, by simp only [List.length_set]; exact hb, hws, ?_, hs, hc⟩, hlw, ?_⟩
    · have hlen := hbs _ hmem
      rw [← hres.2] at hlen
      exact forall_mem_set _ _ _ _ hbs hlen
    · exact forall_mem_set _ _ _ _ hlb hres.1

/-- A call of `keyUp` with an `int` keeps the controller well formed and the levels in
range. -/
theorem keyUp_inv (s t : KeyboardKeys) (key : Int) (h32 : IsInt32 key)
    (h : s.keyUp key = some t) (hwf : s.WellFormed) (hl : s.LevelsInRange) :
    t.WellFormed ∧ t.LevelsInRange := by
  obtain ⟨t', ht', htw, htb, htc, hts, _, _⟩ := keyUp_frame s key hwf h32
  rw [h] at ht'
  have htt : t = t' := Option.some.inj ht'
  subst htt
  obtain ⟨hw, hb, hws, hbs, hs, hc⟩ := hwf
  refine ⟨⟨by rw [htw]; exact hw, by rw [htb]; exact hb, by rw [htw]; exact hws,
    by rw [htb]; exact hbs, by rw [hts]; exact hs, by rw [htc]; exact hc⟩, ?_, ?_⟩
  · rw [htw]; exact hl.1
  · rw [htb]; exact hl.2

/-- A call of `keyDown` with an `int` keeps the controller well formed and the levels in
range. -/
theorem keyDown_inv (s u : KeyboardKeys) (key mixResult : Int) (h32 : IsInt32 key)
    (h : s.keyDown key mixResult = some u) (hwf : s.WellFormed) (hl : s.LevelsInRange) :
    u.WellFormed ∧ u.LevelsInRange := by
  obtain ⟨u', hu', hwfu, _, hsame⟩ := keyDown_total s key mixResult hwf h32
  rw [h] at hu'
  have huu : u = u' := Option.some.inj hu'
  subst huu
  refine ⟨hwfu, ?_⟩
  by_cases hcur : s.m_curKeyDown = key
  · rw [keyDown_current s key mixResult hcur] at h
    rw [← Option.some.inj h]; exact hl
  by_cases hk : IsKeyId key
  · obtain ⟨t, theKey, chunk, hup, hget, _, hdown⟩ :=
      keyDown_of_isKeyId s key mixResult hwf hk (Ne.symm hcur)
    obtain ⟨_, hlt⟩ := keyUp_inv s t s.m_curKeyDown hwf.2.2.2.2.2 hup hwf hl
    obtain ⟨t', ht', htw, htb, _⟩ := keyUp_frame s s.m_curKeyDown hwf hwf.2.2.2.2.2
    rw [hup] at ht'
    have htt : t = t' := Option.some.inj ht'
    subst htt
    rw [h] at hdown
    rw [Option.some.inj hdown]
    cases hr : KeyRef.ofId key with
    | white i =>
      rw [hr] at hget
      simp only [KeyboardKeys.getKey] at hget
      have hmem : theKey ∈ s.whiteKeys := List.getElem?_mem hget
      have hnew : ({ theKey with m_soundChannel := some mixResult } :
          OneKeyboardKey).LevelInRange := hl.1 theKey hmem
      exact ⟨forall_mem_set _ _ _ _ hlt.1 hnew, hlt.2⟩
    | black i =>
      rw [hr] at hget
      simp only [KeyboardKeys.getKey] at hget
      have hmem : theKey ∈ s.blackKeys := List.getElem?_mem hget
      have hnew : ({ theKey with m_soundChannel := some mixResult } :
          OneKeyboardKey).LevelInRange := hl.2 theKey hmem
      exact ⟨hlt.1, forall_mem_set _ _ _ _ hlt.2 hnew⟩
  · rw [hsame hk]; exact hl

/-- Every reachable state is well formed and has the levels of all keys in range. -/
theorem reachable_inv (s : KeyboardKeys) (h : Reachable s) :
    s.WellFormed ∧ s.LevelsInRange := by
  induction h with
  | init r s hs =>
    obtain ⟨hnw, hnb⟩ := new_isNew r s hs
    refine ⟨new_wellFormed r s hs, ?_, ?_⟩
    · intro k hk
      have := (hnw k hk).1
      unfold OneKeyboardKey.LevelInRange NUM_INTERVALS
      omega
    · intro k hk
      have := (hnb k hk).1
      unfold OneKeyboardKey.LevelInRange NUM_INTERVALS
      omega
  | step s t _ hst ih =>
    cases hst with
    | keyDown key mixResult h32 h => exact keyDown_inv s t key mixResult h32 h ih.1 ih.2
    | keyUp key h32 h => exact keyUp_inv s t key h32 h ih.1 ih.2
    | timer n h => exact fireTimer_inv s t n h ih.1 ih.2

/-- C20: level bound invariant.  In every state reachable from the constructed
controller by calls of `KeyboardKeys::keyDown` and `keyUp` with arbitrary `int` arguments
and by expiries of timers running `pressDownKey` or `liftUpKey`, in any order, every key
has `−N ≤ level ≤ 0` with `N = NUM_INTERVALS = 5`; in such a state `keyDown` and `keyUp`
return for every `int`. -/
theorem level_bound (s : KeyboardKeys) (h : Reachable s) :
    NUM_INTERVALS = 5 ∧
    (∀ k, k ∈ s.whiteKeys ∨ k ∈ s.blackKeys →
      -NUM_INTERVALS ≤ k.m_keyLevel ∧ k.m_keyLevel ≤ 0) ∧
    (∀ key mixResult, IsInt32 key →
      (∃ u, s.keyDown key mixResult = some u) ∧ ∃ t, s.keyUp key = some t) := by
  obtain ⟨hwf, hlw, hlb⟩ := reachable_inv s h
  refine ⟨rfl, ?_, ?_⟩
  · rintro k (hk | hk)
    · exact hlw k hk
    · exact hlb k hk
  · intro key mixResult h32
    obtain ⟨u, hu, _⟩ := keyDown_total s key mixResult hwf h32
    obtain ⟨t, ht, _⟩ := keyUp_frame s key hwf h32
    exact ⟨⟨u, hu⟩, ⟨t, ht⟩⟩

/-- Witness of C20 on the state reached by constructing the controller for the folder
`res`, calling `keyDown(0)` and letting the press-down timer expire once: the first
white key is at level `−1`, and every key is within the bounds. -/
theorem level_bound_witness :
    Reachable ticked ∧
    ticked.whiteKeys[0]?.map OneKeyboardKey.m_keyLevel = some (-1) ∧
    ∀ k, k ∈ ticked.whiteKeys ∨ k ∈ ticked.blackKeys →
      -NUM_INTERVALS ≤ k.m_keyLevel ∧ k.m_keyLevel ≤ 0 :=
  have hr : Reachable ticked :=
    Reachable.step pressed ticked
      (Reachable.step constructed pressed (Reachable.init "res" constructed new_res)
        (Step.keyDown constructed pressed 0 0 (by decide) (Option.some_get _).symm))
      (Step.timer pressed ticked 0 (Option.some_get _).symm)
  ⟨hr, by decide, (level_bound ticked hr).2.1⟩


/-! ## Claims on the range tests, on index safety and on the current key -/

/-- C30: the range tests on a 32-bit `int`.  In `key < -1 && key > -(NUM_BLACK_KEYS + 2)`
the constant is the unsigned value `2^32 − 38` and `key` is converted to unsigned, that is
taken modulo `2^32`; the test holds exactly when `−37 ≤ key ≤ −2`.  The test
`key >= 0 && key < NUM_WHITE_KEYS` holds exactly when `0 ≤ key ≤ 51`. -/
theorem range_tests (key : Int) (h : IsInt32 key) :
    toUnsigned (-((NUM_BLACK_KEYS : Int) + 2)) = 2 ^ 32 - 38 ∧
    toUnsigned key = key % 2 ^ 32 ∧
    (isBlackIndex key ↔ -37 ≤ key ∧ key ≤ -2) ∧
    (isWhiteIndex key ↔ 0 ≤ key ∧ key ≤ 51) :=
  ⟨by decide, rfl, isBlackIndex_iff key h, isWhiteIndex_iff key h⟩

/-- Witness of C30 at the ends of the black range and just outside of it, and at the
smallest `int`. -/
theorem range_tests_witness :
    (isBlackIndex (-37) ∧ isBlackIndex (-2) ∧ ¬ isBlackIndex (-38) ∧ ¬ isBlackIndex (-1)) ∧
    (isWhiteIndex 51 ∧ ¬ isWhiteIndex 52) ∧ ¬ isBlackIndex (-(2 ^ 31)) :=
  ⟨⟨(range_tests (-37) (by decide)).2.2.1.mpr (by decide),
    (range_tests (-2) (by decide)).2.2.1.mpr (by decide),
    fun hc => absurd ((range_tests (-38) (by decide)).2.2.1.mp hc) (by decide),
    fun hc => absurd ((range_tests (-1) (by decide)).2.2.1.mp hc) (by decide)⟩,
   ⟨(range_tests 51 (by decide)).2.2.2.mpr (by decide),
    fun hc => absurd ((range_tests 52 (by decide)).2.2.2.mp hc) (by decide)⟩,
   fun hc => absurd ((range_tests (-(2 ^ 31)) (by decide)).2.2.1.mp hc) (by decide)⟩

theorem keyDown_constructed : constructed.keyDown 0 0 = some pressed := by
  unfold pressed
  exact (Option.some_get _).symm

theorem fireTimer_pressed : pressed.fireTimer 0 = some ticked := by
  unfold ticked
  exact (Option.some_get _).symm

theorem reachable_pressed : Reachable pressed :=
  Reachable.step constructed pressed (Reachable.init "res" constructed new_res)
    (Step.keyDown constructed pressed 0 0 (by decide) keyDown_constructed)

theorem reachable_ticked : Reachable ticked :=
  Reachable.step pressed ticked reachable_pressed (Step.timer pressed ticked 0 fireTimer_pressed)

/-- `KeyboardKeys::keyIsMoving` returns on a constructed controller. -/
theorem keyIsMoving_total (s : KeyboardKeys) (hwf : s.WellFormed) :
    ∃ b, s.keyIsMoving = some b := by
  by_cases hk : IsKeyId s.m_curKeyDown
  · obtain ⟨theKey, _, hm⟩ := keyIsMoving_of_isKeyId s hwf hk
    exact ⟨_, hm⟩
  · exact ⟨false, keyIsMoving_of_not_isKeyId s hwf.2.2.2.2.2 hk⟩

/-- C28: array-index safety of the controller.  In every reachable state and for every
`int` `key`, `keyDown(key)`, `keyUp(key)` and `keyIsMoving()` return, no access leaving
its array.  An index passes the white test only if `0 ≤ key < 52`, the size of
`whiteKeys`, and the black test only if `j = −(key + 2)` has `0 ≤ j < 36`, the size of
`blackKeys`; this holds for the current key too, which is an `int`.  No `key` passes
both tests, so at most one of the two branches runs. -/
theorem index_safety (s : KeyboardKeys) (h : Reachable s) (key mixResult : Int)
    (h32 : IsInt32 key) :
    (∃ u, s.keyDown key mixResult = some u) ∧ (∃ t, s.keyUp key = some t) ∧
    (∃ b, s.keyIsMoving = some b) ∧
    s.whiteKeys.length = 52 ∧ s.blackKeys.length = 36 ∧ IsInt32 s.m_curKeyDown ∧
    (∀ k, IsInt32 k → isWhiteIndex k → 0 ≤ k ∧ k.toNat < s.whiteKeys.length) ∧
    (∀ k, IsInt32 k → isBlackIndex k →
      0 ≤ -(k + 2) ∧ (-(k + 2)).toNat < s.blackKeys.length) ∧
    ¬ (isWhiteIndex key ∧ isBlackIndex key) := by
  obtain ⟨hwf, _⟩ := reachable_inv s h
  obtain ⟨u, hu, _⟩ := keyDown_total s key mixResult hwf h32
  obtain ⟨t, ht, _⟩ := keyUp_frame s key hwf h32
  obtain ⟨hw, hb, _, _, _, hc⟩ := hwf
  refine ⟨⟨u, hu⟩, ⟨t, ht⟩, keyIsMoving_total s ⟨hw, hb, ‹_›, ‹_›, ‹_›, hc⟩, hw, hb, hc,
    ?_, ?_, ?_⟩
  · intro k hk hwk
    have := (isWhiteIndex_iff k hk).mp hwk
    unfold NUM_WHITE_KEYS at hw
    omega
  · intro k hk hbk
    have := (isBlackIndex_iff k hk).mp hbk
    unfold NUM_BLACK_KEYS at hb
    omega
  · rintro ⟨h1, h2⟩
    exact not_isBlackIndex_of_isWhiteIndex h1 h2

/-- Witness of C28 on the state reached by `keyDown(0)` and one expiry of the press-down
timer, at the largest white id. -/
theorem index_safety_witness :
    Reachable ticked ∧ (∃ u, ticked.keyDown 51 3 = some u) ∧
    ∃ t, ticked.keyUp 51 = some t :=
  ⟨reachable_ticked, (index_safety ticked reachable_ticked 51 3 (by decide)).1,
   (index_safety ticked reachable_ticked 51 3 (by decide)).2.1⟩

/-- `keyUp` does not assign `m_curKeyDown`, nor the keys or the voice. -/
theorem keyUp_cur (s t : KeyboardKeys) (key : Int) (h : s.keyUp key = some t) :
    t.m_curKeyDown = s.m_curKeyDown ∧ t.whiteKeys = s.whiteKeys ∧
    t.blackKeys = s.blackKeys ∧ t.m_soundToUse = s.m_soundToUse := by
  unfold KeyboardKeys.keyUp at h
  by_cases hw : isWhiteIndex key
  · have hb := not_isBlackIndex_of_isWhiteIndex hw
    simp only [hw, hb, if_true, if_false, Option.pure_def, Option.bind_eq_bind,
      Option.bind_some, Option.bind_eq_some] at h
    obtain ⟨a, _, h1⟩ := h
    rw [← Option.some.inj h1]
    exact ⟨rfl, rfl, rfl, rfl⟩
  · by_cases hb : isBlackIndex key
    · simp only [hw, hb, if_true, if_false, Option.pure_def, Option.bind_eq_bind,
        Option.bind_some, Option.bind_eq_some] at h
      obtain ⟨w, hsw, a, _, h1⟩ := h
      rw [← Option.some.inj h1, ← Option.some.inj hsw]
      exact ⟨rfl, rfl, rfl, rfl⟩
    · simp only [hw, hb, if_false, Option.pure_def, Option.bind_eq_bind,
        Option.bind_some] at h
      rw [← Option.some.inj h]
      exact ⟨rfl, rfl, rfl, rfl⟩

/-- The expiry of a timer does not assign `m_curKeyDown`. -/
theorem fireTimer_cur (s t : KeyboardKeys) (n : Nat) (h : s.fireTimer n = some t) :
    t.m_curKeyDown = s.m_curKeyDown := by
  simp only [KeyboardKeys.fireTimer, Option.pure_def, Option.bind_eq_bind,
    Option.bind_eq_some] at h
  obtain ⟨tm, _, h⟩ := h
  cases hp : tm.param with
  | white i =>
    rw [hp] at h
    simp only [Option.bind_eq_some] at h
    obtain ⟨_, _, ht⟩ := h
    rw [← Option.some.inj ht]
  | black i =>
    rw [hp] at h
    simp only [Option.bind_eq_some] at h
    obtain ⟨_, _, ht⟩ := h
    rw [← Option.some.inj ht]

/-- A step from a well-formed state whose current key is `−1` or a key id leads to such a
state, and a current key that is a key id is followed by one. -/
theorem step_cur (s t : KeyboardKeys) (hwf : s.WellFormed) (h : Step s t) :
    (s.m_curKeyDown = -1 ∨ IsKeyId s.m_curKeyDown →
      t.m_curKeyDown = -1 ∨ IsKeyId t.m_curKeyDown) ∧
    (IsKeyId s.m_curKeyDown → IsKeyId t.m_curKeyDown) := by
  cases h with
  | keyDown key mixResult h32 hd =>
    obtain ⟨u, hu, _, hcur, hsame⟩ := keyDown_total s key mixResult hwf h32
    rw [hd] at hu
    have htu : t = u := Option.some.inj hu
    subst htu
    by_cases hk : IsKeyId key
    · rw [hcur hk]
      exact ⟨fun _ => Or.inr hk, fun _ => hk⟩
    · rw [hsame hk]
      exact ⟨id, id⟩
  | keyUp key _ hu =>
    rw [(keyUp_cur s t key hu).1]
    exact ⟨id, id⟩
  | timer n hf =>
    rw [fireTimer_cur s t n hf]
    exact ⟨id, id⟩

/-- In every reachable state the current key is `−1` or the id of a key. -/
theorem reachable_cur (s : KeyboardKeys) (h : Reachable s) :
    s.m_curKeyDown = -1 ∨ IsKeyId s.m_curKeyDown := by
  induction h with
  | init r s hs => exact Or.inl (new_fields r s hs).2.1
  | step s t hs hst ih => exact (step_cur s t (reachable_inv s hs).1 hst).1 ih

/-- Steps lead from reachable states to reachable states and keep a key current. -/
theorem steps_cur (s u : KeyboardKeys) (h : Relation.ReflTransGen Step s u) :
    Reachable s → IsKeyId s.m_curKeyDown → Reachable u ∧ IsKeyId u.m_curKeyDown := by
  induction h with
  | refl => exact fun hr hk => ⟨hr, hk⟩
  | tail _ hst ih =>
    intro hr hk
    obtain ⟨hr', hk'⟩ := ih hr hk
    exact ⟨Reachable.step _ _ hr' hst, (step_cur _ _ (reachable_inv _ hr').1 hst).2 hk'⟩

/-- C29: the current key is never released to none.  In every state reachable from the
constructed controller by `keyDown` and `keyUp` calls with arbitrary `int`s and by timer
expiries, `m_curKeyDown` is `−1` or the id of a key (`0..51` or `−37..−2`).  After a
`keyDown` with the id of a key that id is current, and in every state reached from there
the current key is the id of a key, so it is `−1` only while no such `keyDown` has
occurred.  `keyUp` does not assign `m_curKeyDown`, and `keyDown(−1)` leaves the whole
state as it is: the selected key stays current and no `keyUp` is issued for it. -/
theorem current_key_kept (s : KeyboardKeys) (h : Reachable s) :
    (s.m_curKeyDown = -1 ∨ IsKeyId s.m_curKeyDown) ∧
    (∀ key mixResult t u, IsKeyId key → s.keyDown key mixResult = some t →
      Relation.ReflTransGen Step t u →
      t.m_curKeyDown = key ∧ IsKeyId u.m_curKeyDown ∧ u.m_curKeyDown ≠ -1) ∧
    (∀ key t, s.keyUp key = some t → t.m_curKeyDown = s.m_curKeyDown) ∧
    (∀ mixResult, s.keyDown (-1) mixResult = some s) := by
  refine ⟨reachable_cur s h, ?_, fun key t ht => (keyUp_cur s t key ht).1,
    fun m => keyDown_other s (-1) m (by decide) (by decide)⟩
  intro key mixResult t u hk hd hsteps
  obtain ⟨t', ht', _, hcur, _⟩ := keyDown_total s key mixResult (reachable_inv s h).1 hk.isInt32
  rw [hd] at ht'
  have htt : t = t' := Option.some.inj ht'
  subst htt
  have hrt : Reachable t := Reachable.step s t h (Step.keyDown s t key mixResult hk.isInt32 hd)
  obtain ⟨_, hku⟩ := steps_cur t u hsteps hrt (by rw [hcur hk]; exact hk)
  refine ⟨hcur hk, hku, ?_⟩
  intro hc
  rw [hc] at hku
  exact absurd hku (by decide)

/-- Witness of C29 on the constructed controller: after `keyDown(0)` and one timer expiry
the current key is the id of a key, and `keyDown(−1)` changes nothing there. -/
theorem current_key_kept_witness :
    Reachable constructed ∧ constructed.m_curKeyDown = -1 ∧
    (pressed.m_curKeyDown = 0 ∧ IsKeyId ticked.m_curKeyDown ∧ ticked.m_curKeyDown ≠ -1) ∧
    ticked.keyDown (-1) 4 = some ticked :=
  ⟨Reachable.init "res" constructed new_res, by decide,
   (current_key_kept constructed (Reachable.init "res" constructed new_res)).2.1
     0 0 pressed ticked (by decide) keyDown_constructed
     (Relation.ReflTransGen.single (Step.timer pressed ticked 0 fireTimer_pressed)),
   (current_key_kept ticked reachable_ticked).2.2.2 4⟩


/-! ## Timer callbacks run to completion -/

theorem pressDownKey_above (interval : Nat) (k : OneKeyboardKey)
    (h : k.m_keyLevel ≠ -NUM_INTERVALS) : pressDownKey interval k = (interval, k.keyDown) := by
  simp [pressDownKey, OneKeyboardKey.isAtBottom, h]

theorem pressDownKey_bottom (interval : Nat) (k : OneKeyboardKey)
    (h : k.m_keyLevel = -NUM_INTERVALS) : pressDownKey interval k = (0, k) := by
  simp [pressDownKey, OneKeyboardKey.isAtBottom, h]

theorem liftUpKey_below (interval : Nat) (k : OneKeyboardKey)
    (h : k.m_keyLevel < 0) : liftUpKey interval k = (interval, k.keyUp) := by
  have h' : ¬ k.m_keyLevel ≥ 0 := by omega
  simp [liftUpKey, OneKeyboardKey.isAtTop, h']

theorem liftUpKey_top (interval : Nat) (k : OneKeyboardKey)
    (h : k.m_keyLevel ≥ 0) : liftUpKey interval k = (0, k) := by
  simp [liftUpKey, OneKeyboardKey.isAtTop, h]

theorem pressTicks_succ (interval n : Nat) (k : OneKeyboardKey) :
    pressTicks interval (n + 1) k = (pressDownKey interval (pressTicks interval n k)).2 := by
  unfold pressTicks
  rw [Function.iterate_succ_apply']

theorem liftTicks_succ (interval n : Nat) (k : OneKeyboardKey) :
    liftTicks interval (n + 1) k = (liftUpKey interval (liftTicks interval n k)).2 := by
  unfold liftTicks
  rw [Function.iterate_succ_apply']

/-- The level during the run of a press-down timer: one lower per expiry. -/
theorem pressTicks_level (interval : Nat) (k : OneKeyboardKey) (n : Nat)
    (h : (n : Int) ≤ k.m_keyLevel + NUM_INTERVALS) :
    (pressTicks interval n k).m_keyLevel = k.m_keyLevel - n := by
  induction n with
  | zero => simp [pressTicks]
  | succ n ih =>
    have hn : (n : Int) ≤ k.m_keyLevel + NUM_INTERVALS := by push_cast at h; omega
    have hl := ih hn
    have hne : (pressTicks interval n k).m_keyLevel ≠ -NUM_INTERVALS := by
      rw [hl]; push_cast at h; omega
    rw [pressTicks_succ, pressDownKey_above _ _ hne]
    show (pressTicks interval n k).m_keyLevel - 1 = k.m_keyLevel - ((n + 1 : Nat) : Int)
    rw [hl]; push_cast; ring

/-- The level during the run of a lift timer: one higher per expiry. -/
theorem liftTicks_level (interval : Nat) (k : OneKeyboardKey) (n : Nat)
    (h : (n : Int) ≤ -k.m_keyLevel) :
    (liftTicks interval n k).m_keyLevel = k.m_keyLevel + n := by
  induction n with
  | zero => simp [liftTicks]
  | succ n ih =>
    have hn : (n : Int) ≤ -k.m_keyLevel := by push_cast at h; omega
    have hl := ih hn
    have hlt : (liftTicks interval n k).m_keyLevel < 0 := by
      rw [hl]; push_cast at h; omega
    rw [liftTicks_succ, liftUpKey_below _ _ hlt]
    show (liftTicks interval n k).m_keyLevel + 1 = k.m_keyLevel + ((n + 1 : Nat) : Int)
    rw [hl]; push_cast; ring

/-- C21: timer self-cancellation.  For a key at level `L` with `−N ≤ L ≤ 0` that nothing
else touches, each of the first `L + N` expiries of its press-down timer returns the
interval, so the timer is rescheduled, and lowers the level by one; the key is then at
level `−N`, and the next expiry returns `0`, cancelling the timer, and leaves the key
as it is.  In the same way each of the first `−L` expiries of its lift timer returns the
interval and raises the level by one; the key is then at level `0`, and the next expiry
returns `0` and leaves the key as it is. -/
theorem timer_self_cancel (interval : Nat) (k : OneKeyboardKey) (h : k.LevelInRange) :
    (∀ j : Nat, (j : Int) < k.m_keyLevel + NUM_INTERVALS →
      (pressDownKey interval (pressTicks interval j k)).1 = interval ∧
      (pressTicks interval (j + 1) k).m_keyLevel
        = (pressTicks interval j k).m_keyLevel - 1) ∧
    (pressTicks interval (k.m_keyLevel + NUM_INTERVALS).toNat k).m_keyLevel
      = -NUM_INTERVALS ∧
    pressDownKey interval (pressTicks interval (k.m_keyLevel + NUM_INTERVALS).toNat k)
      = (0, pressTicks interval (k.m_keyLevel + NUM_INTERVALS).toNat k) ∧
    (∀ j : Nat, (j : Int) < -k.m_keyLevel →
      (liftUpKey interval (liftTicks interval j k)).1 = interval ∧
      (liftTicks interval (j + 1) k).m_keyLevel
        = (liftTicks interval j k).m_keyLevel + 1) ∧
    (liftTicks interval (-k.m_keyLevel).toNat k).m_keyLevel = 0 ∧
    liftUpKey interval (liftTicks interval (-k.m_keyLevel).toNat k)
      = (0, liftTicks interval (-k.m_keyLevel).toNat k) := by
  obtain ⟨hlo, hhi⟩ := h
  have hpress : (pressTicks interval (k.m_keyLevel + NUM_INTERVALS).toNat k).m_keyLevel
      = -NUM_INTERVALS := by
    rw [pressTicks_level _ _ _ (by rw [Int.toNat_of_nonneg (by omega)]),
      Int.toNat_of_nonneg (by omega)]
    ring
  have hlift : (liftTicks interval (-k.m_keyLevel).toNat k).m_keyLevel = 0 := by
    rw [liftTicks_level _ _ _ (by rw [Int.toNat_of_nonneg (by omega)]),
      Int.toNat_of_nonneg (by omega)]
    ring
  refine ⟨?_, hpress, pressDownKey_bottom _ _ hpress, ?_, hlift,
    liftUpKey_top _ _ (by rw [hlift])⟩
  · intro j hj
    have hl := pressTicks_level interval k j (by omega)
    have hne : (pressTicks interval j k).m_keyLevel ≠ -NUM_INTERVALS := by
      rw [hl]; omega
    rw [pressTicks_succ, pressDownKey_above _ _ hne]
    exact ⟨rfl, rfl⟩
  · intro j hj
    have hl := liftTicks_level interval k j (by omega)
    have hlt : (liftTicks interval j k).m_keyLevel < 0 := by
      rw [hl]; omega
    rw [liftTicks_succ, liftUpKey_below _ _ hlt]
    exact ⟨rfl, rfl⟩

/-- Witness of C21 on a new key, at level `0`, with the interval `DELAY = 10`: five
expiries of the press-down timer bring it to level `−5`, and the sixth cancels. -/
theorem timer_self_cancel_witness :
    (OneKeyboardKey.new .whiteR Transform.new "o" "p").LevelInRange ∧
    (pressTicks DELAY 5 (OneKeyboardKey.new .whiteR Transform.new "o" "p")).m_keyLevel = -5 ∧
    (pressDownKey DELAY
      (pressTicks DELAY 5 (OneKeyboardKey.new .whiteR Transform.new "o" "p"))).1 = 0 :=
  ⟨⟨by decide, by decide⟩,
   (timer_self_cancel DELAY (OneKeyboardKey.new .whiteR Transform.new "o" "p")
     ⟨by decide, by decide⟩).2.1,
   congrArg Prod.fst (timer_self_cancel DELAY
     (OneKeyboardKey.new .whiteR Transform.new "o" "p") ⟨by decide, by decide⟩).2.2.1⟩


/-! ## The selector and the positions of the keys -/

/-- In the interior a white result is the integer part of `x / Δx`. -/
theorem getSelectedKey_interior_floor (p : Vec3)
    (h1 : 3 / 4 * X_DIFF_BETWEEN_WHITE_KEYS ≤ p.x)
    (h2 : p.x ≤ (52 - 1 / 2) * X_DIFF_BETWEEN_WHITE_KEYS)
    (hw : 0 ≤ getSelectedKey p) :
    getSelectedKey p = Int.floor (p.x / X_DIFF_BETWEEN_WHITE_KEYS) := by
  obtain ⟨hka, hkb, ho0, ho7, hl0, hl7⟩ := interior_bounds p.x h1 h2
  rw [getSelectedKey_interior p h1 h2] at hw ⊢
  generalize Int.floor (p.x / X_DIFF_BETWEEN_WHITE_KEYS / 7) = o at *
  generalize p.x / X_DIFF_BETWEEN_WHITE_KEYS = k at *
  obtain ⟨l, hl⟩ : ∃ l : ℚ, l = k - 7 * (o : ℚ) := ⟨_, rfl⟩
  rw [← hl] at hw hl0 hl7 ⊢
  have hfl : ∀ j : Int, (j : ℚ) ≤ l → l < (j : ℚ) + 1 → Int.floor k = o * 7 + j := by
    intro j ha hb
    rw [Int.floor_eq_iff]
    push_cast
    constructor <;> linarith
  unfold octaveTable at hw ⊢
  by_cases c1 : l < 1 / 4
  · rw [if_pos c1] at hw; omega
  rw [if_neg c1] at hw ⊢
  by_cases c2 : l < 3 / 4
  · rw [if_pos c2]
    have := hfl 0 (by push_cast; linarith) (by push_cast; linarith)
    omega
  rw [if_neg c2] at hw ⊢
  by_cases c3 : l < 5 / 4
  · rw [if_pos c3] at hw; omega
  rw [if_neg c3] at hw ⊢
  by_cases c4 : l < 2
  · rw [if_pos c4]
    exact (hfl 1 (by push_cast; linarith) (by push_cast; linarith)).symm
  rw [if_neg c4] at hw ⊢
  by_cases c5 : l < 11 / 4
  · rw [if_pos c5]
    exact (hfl 2 (by push_cast; linarith) (by push_cast; linarith)).symm
  rw [if_neg c5] at hw ⊢
  by_cases c6 : l < 13 / 4
  · rw [if_pos c6] at hw; omega
  rw [if_neg c6] at hw ⊢
  by_cases c7 : l < 15 / 4
  · rw [if_pos c7]
    exact (hfl 3 (by push_cast; linarith) (by push_cast; linarith)).symm
  rw [if_neg c7] at hw ⊢
  by_cases c8 : l < 17 / 4
  · rw [if_pos c8] at hw; omega
  rw [if_neg c8] at hw ⊢
  by_cases c9 : l < 5
  · rw [if_pos c9]
    exact (hfl 4 (by push_cast; linarith) (by push_cast; linarith)).symm
  rw [if_neg c9] at hw ⊢
  by_cases c10 : l < 23 / 4
  · rw [if_pos c10]
    exact (hfl 5 (by push_cast; linarith) (by push_cast; linarith)).symm
  rw [if_neg c10] at hw ⊢
  by_cases c11 : l < 25 / 4
  · rw [if_pos c11] at hw; omega
  rw [if_neg c11] at hw ⊢
  by_cases c12 : l < 27 / 4
  · rw [if_pos c12]
    exact (hfl 6 (by push_cast; linarith) (by push_cast; linarith)).symm
  rw [if_neg c12] at hw
  omega

/-- On the keyboard a white result is the integer part of `x / Δx`. -/
theorem getSelectedKey_floor (p : Vec3) (h0 : 0 ≤ p.x)
    (h52 : p.x < (NUM_WHITE_KEYS : ℚ) * X_DIFF_BETWEEN_WHITE_KEYS)
    (hw : 0 ≤ getSelectedKey p) :
    getSelectedKey p = Int.floor (p.x / X_DIFF_BETWEEN_WHITE_KEYS) := by
  have hd : (0 : ℚ) < X_DIFF_BETWEEN_WHITE_KEYS := by norm_num [X_DIFF_BETWEEN_WHITE_KEYS]
  by_cases hx1 : p.x < 3 / 4 * X_DIFF_BETWEEN_WHITE_KEYS
  · rw [getSelectedKey_left_snap p h0 hx1]
    symm
    rw [Int.floor_eq_iff]
    constructor
    · push_cast; exact div_nonneg h0 hd.le
    · rw [div_lt_iff₀ hd]; push_cast; linarith
  by_cases hx3 : ((NUM_WHITE_KEYS : ℚ) - 1 / 2) * X_DIFF_BETWEEN_WHITE_KEYS < p.x
  · rw [getSelectedKey_right_snap p hx3 h52.le]
    symm
    rw [Int.floor_eq_iff]
    unfold NUM_WHITE_KEYS at hx3 h52
    push_cast at hx3 h52 ⊢
    constructor
    · rw [le_div_iff₀ hd]; linarith
    · rw [div_lt_iff₀ hd]; linarith
  · have h1 : 3 / 4 * X_DIFF_BETWEEN_WHITE_KEYS ≤ p.x := not_lt.mp hx1
    have h2 : p.x ≤ (52 - 1 / 2) * X_DIFF_BETWEEN_WHITE_KEYS := by
      have := not_lt.mp hx3
      simpa [NUM_WHITE_KEYS] using this
    exact getSelectedKey_interior_floor p h1 h2 hw


/-! ## The layout built by the constructor -/

theorem whiteKeyName_octave (w octave j : Nat) (hw : w + 5 = 7 * octave) (hj : j < 7) :
    whiteKeyName (w + j) = toString octave ++ whiteNote j := by
  have h0 : ¬ w + j = 0 := by omega
  have h1 : ¬ w + j = 1 := by omega
  have e1 : (w + j - 2) / 7 + 1 = octave := by omega
  have e2 : (w + j - 2) % 7 = j := by omega
  simp only [whiteKeyName, h0, h1, if_false, e1, e2]

theorem blackKeyName_octave (b octave j : Nat) (hb : b + 4 = 5 * octave) (hj : j < 5) :
    blackKeyName (b + j) = toString octave ++ blackNote j := by
  have h0 : ¬ b + j = 0 := by omega
  have e1 : (b + j - 1) / 5 + 1 = octave := by omega
  have e2 : (b + j - 1) % 5 = j := by omega
  simp only [blackKeyName, h0, if_false, e1, e2]

theorem blackKeyWhite_octave (b w octave j : Nat) (hb : b + 4 = 5 * octave)
    (hw : w + 5 = 7 * octave) (hj : j < 5) :
    blackKeyWhite (b + j) = w + blackOffset j := by
  have h0 : ¬ b + j = 0 := by omega
  have e1 : (b + j - 1) / 5 = octave - 1 := by omega
  have e2 : (b + j - 1) % 5 = j := by omega
  simp only [blackKeyWhite, h0, if_false, e1, e2]
  omega

theorem start_layout (resourceFolder : String) :
    (Construction.start resourceFolder).Layout 0 0 0 := by
  refine ⟨?_, fun i hi => by omega, fun j hj => by omega⟩
  simp [Construction.start, Transform.new, restTransform]

/-- A statement creating the next white key stores the key of the layout, when it is
given the name of the layout. -/
theorem nextWhite_layout (c d : Construction) (shape : KeyShape) (keyName : String)
    (w b : Nat) (hf : c.Filled w b w) (hl : c.Layout w b w)
    (hn : keyName = whiteKeyName w) (e : c.nextWhite shape keyName = some d) :
    d.Layout (w + 1) b w := by
  obtain ⟨h1, _, h3, _⟩ := hf
  obtain ⟨ht, hws, hbs⟩ := hl
  have hlt : c.whiteKeysFilled < c.whiteKeys.length := by
    by_contra hc
    simp [Construction.nextWhite, Construction.makeWhiteKey, hc] at e
  simp only [Construction.nextWhite, Construction.makeWhiteKey, hlt, if_true,
    Option.map_some', Option.some.injEq] at e
  subst e
  refine ⟨ht, ?_, hbs⟩
  intro i hi
  by_cases hiw : i = w
  · subst hiw
    refine ⟨shape, ?_⟩
    simp only [h1]
    rw [List.getElem?_set_self (by rw [h1] at hlt; exact hlt)]
    simp only [layoutWhiteKey, ht, hn]
  · obtain ⟨sh, hk⟩ := hws i (by omega)
    refine ⟨sh, ?_⟩
    simp only [h1]
    rw [List.getElem?_set_ne (fun e => hiw e.symm)]
    exact hk

/-- A statement creating the next black key stores the key of the layout, when it is
given the name of the layout and the transform is at the white key of the layout. -/
theorem nextBlack_layout (c d : Construction) (keyName : String)
    (w b m : Nat) (hf : c.Filled w b m) (hl : c.Layout w b m)
    (hn : keyName = blackKeyName b) (hm : m = blackKeyWhite b)
    (e : c.nextBlack keyName = some d) :
    d.Layout w (b + 1) m := by
  obtain ⟨_, h2, _, h4, _⟩ := hf
  obtain ⟨ht, hws, hbs⟩ := hl
  have hlt : c.blackKeysFilled < c.blackKeys.length := by
    by_contra hc
    simp [Construction.nextBlack, Construction.makeBlackKey, hc] at e
  simp only [Construction.nextBlack, Construction.makeBlackKey, hlt, if_true,
    Option.map_some', Option.some.injEq] at e
  subst e
  refine ⟨ht, hws, ?_⟩
  intro j hj
  by_cases hjb : j = b
  · subst hjb
    simp only [h2]
    rw [List.getElem?_set_self (by rw [h2] at hlt; exact hlt)]
    simp only [layoutBlackKey, ht, hn, hm]
  · have hk := hbs j (by omega)
    simp only [h2]
    rw [List.getElem?_set_ne (fun e => hjb e.symm)]
    exact hk

/-- A statement `transform.moveRight(X_DIFF_BETWEEN_WHITE_KEYS)` moves the transform to
the next rest position. -/
theorem moveRight_layout (c : Construction) (w b m : Nat) (hl : c.Layout w b m) :
    c.moveRight.Layout w b (m + 1) := by
  obtain ⟨ht, hws, hbs⟩ := hl
  refine ⟨?_, hws, hbs⟩
  simp only [Construction.moveRight, Transform.moveRight, ht, restTransform]
  congr 2
  push_cast
  ring


/-- One pass of the loop over the octaves stores the seven white and five black keys of
octave `octave` of the layout. -/
theorem octaveBody_layout (c : Construction) (octave w b : Nat)
    (hf : c.Filled w b w) (hl : c.Layout w b w)
    (hw : w + 5 = 7 * octave) (hb : b + 4 = 5 * octave)
    (hwn : w + 7 ≤ NUM_WHITE_KEYS) (hbn : b + 5 ≤ NUM_BLACK_KEYS) :
    ∃ d, c.octaveBody octave = some d ∧ d.Filled (w + 7) (b + 5) (w + 7) ∧
      d.Layout (w + 7) (b + 5) (w + 7) ∧ d.resFolder = c.resFolder := by
  obtain ⟨c1, e1, f1, r1⟩ := nextWhite_filled (c) .whiteR
    (toString octave ++ "c") _ _ hf (by omega)
  have l1 := nextWhite_layout (c) c1 .whiteR _ _ _ hf hl
    (whiteKeyName_octave w octave 0 hw (by omega)).symm e1
  obtain ⟨c2, e2, f2, r2⟩ := nextBlack_filled (c1)
    (toString octave ++ "db") _ _ _ f1 (by omega)
  have l2 := nextBlack_layout (c1) c2 _ _ _ _ f1 l1
    (blackKeyName_octave b octave 0 hb (by omega)).symm
    (blackKeyWhite_octave b w octave 0 hb hw (by omega)).symm e2
  obtain ⟨f3, r3⟩ := moveRight_filled (c2) _ _ _ f2
  have l3 := moveRight_layout (c2) _ _ _ l2
  obtain ⟨c4, e4, f4, r4⟩ := nextWhite_filled (c2.moveRight) .whiteLR
    (toString octave ++ "d") _ _ f3 (by omega)
  have l4 := nextWhite_layout (c2.moveRight) c4 .whiteLR _ _ _ f3 l3
    (whiteKeyName_octave w octave 1 hw (by omega)).symm e4
  obtain ⟨c5, e5, f5, r5⟩ := nextBlack_filled (c4)
    (toString octave ++ "eb") _ _ _ f4 (by omega)
  have l5 := nextBlack_layout (c4) c5 _ _ _ _ f4 l4
    (blackKeyName_octave b octave 1 hb (by omega)).symm
    (blackKeyWhite_octave b w octave 1 hb hw (by omega)).symm e5
  obtain ⟨f6, r6⟩ := moveRight_filled (c5) _ _ _ f5
  have l6 := moveRight_layout (c5) _ _ _ l5
  obtain ⟨c7, e7, f7, r7⟩ := nextWhite_filled (c5.moveRight) .whiteL
    (toString octave ++ "e") _ _ f6 (by omega)
  have l7 := nextWhite_layout (c5.moveRight) c7 .whiteL _ _ _ f6 l6
    (whiteKeyName_octave w octave 2 hw (by omega)).symm e7
  obtain ⟨f8, r8⟩ := moveRight_filled (c7) _ _ _ f7
  have l8 := moveRight_layout (c7) _ _ _ l7
  obtain ⟨c9, e9, f9, r9⟩ := nextWhite_filled (c7.moveRight) .whiteR
    (toString octave ++ "f") _ _ f8 (by omega)
  have l9 := nextWhite_layout (c7.moveRight) c9 .whiteR _ _ _ f8 l8
    (whiteKeyName_octave w octave 3 hw (by omega)).symm e9
  obtain ⟨c10, e10, f10, r10⟩ := nextBlack_filled (c9)
    (toString octave ++ "gb") _ _ _ f9 (by omega)
  have l10 := nextBlack_layout (c9) c10 _ _ _ _ f9 l9
    (blackKeyName_octave b octave 2 hb (by omega)).symm
    (blackKeyWhite_octave b w octave 2 hb hw (by omega)).symm e10
  obtain ⟨f11, r11⟩ := moveRight_filled (c10) _ _ _ f10
  have l11 := moveRight_layout (c10) _ _ _ l10
  obtain ⟨c12, e12, f12, r12⟩ := nextWhite_filled (c10.moveRight) .whiteLR
    (toString octave ++ "g") _ _ f11 (by omega)
  have l12 := nextWhite_layout (c10.moveRight) c12 .whiteLR _ _ _ f11 l11
    (whiteKeyName_octave w octave 4 hw (by omega)).symm e12
  obtain ⟨c13, e13, f13, r13⟩ := nextBlack_filled (c12)
    (toString octave ++ "ab") _ _ _ f12 (by omega)
  have l13 := nextBlack_layout (c12) c13 _ _ _ _ f12 l12
    (blackKeyName_octave b octave 3 hb (by omega)).symm
    (blackKeyWhite_octave b w octave 3 hb hw (by omega)).symm e13
  obtain ⟨f14, r14⟩ := moveRight_filled (c13) _ _ _ f13
  have l14 := moveRight_layout (c13) _ _ _ l13
  obtain ⟨c15, e15, f15, r15⟩ := nextWhite_filled (c13.moveRight) .whiteLR
    (toString octave ++ "a") _ _ f14 (by omega)
  have l15 := nextWhite_layout (c13.moveRight) c15 .whiteLR _ _ _ f14 l14
    (whiteKeyName_octave w octave 5 hw (by omega)).symm e15
  obtain ⟨c16, e16, f16, r16⟩ := nextBlack_filled (c15)
    (toString octave ++ "bb") _ _ _ f15 (by omega)
  have l16 := nextBlack_layout (c15) c16 _ _ _ _ f15 l15
    (blackKeyName_octave b octave 4 hb (by omega)).symm
    (blackKeyWhite_octave b w octave 4 hb hw (by omega)).symm e16
  obtain ⟨f17, r17⟩ := moveRight_filled (c16) _ _ _ f16
  have l17 := moveRight_layout (c16) _ _ _ l16
  obtain ⟨c18, e18, f18, r18⟩ := nextWhite_filled (c16.moveRight) .whiteL
    (toString octave ++ "b") _ _ f17 (by omega)
  have l18 := nextWhite_layout (c16.moveRight) c18 .whiteL _ _ _ f17 l17
    (whiteKeyName_octave w octave 6 hw (by omega)).symm e18
  obtain ⟨f19, r19⟩ := moveRight_filled (c18) _ _ _ f18
  have l19 := moveRight_layout (c18) _ _ _ l18
  refine ⟨c18.moveRight, ?_, f19, l19, ?_⟩
  · simp only [Construction.octaveBody, Option.pure_def, Option.bind_eq_bind,
      Option.some_bind, e1, e2, e4, e5, e7, e9, e10, e12, e13, e15, e16, e18]
  · rw [r19, r18, r17, r16, r15, r14, r13, r12, r11, r10, r9, r8, r7, r6, r5, r4, r3, r2, r1]


/-- The loop over the octaves, run `n` times from octave `first`, stores the keys of these
octaves of the layout. -/
theorem octaveLoop_layout (n : Nat) :
    ∀ (c : Construction) (first w b : Nat), c.Filled w b w → c.Layout w b w →
      w + 5 = 7 * first → b + 4 = 5 * first →
      w + 7 * n ≤ NUM_WHITE_KEYS → b + 5 * n ≤ NUM_BLACK_KEYS →
      ∃ d, c.octaveLoop first n = some d ∧ d.Filled (w + 7 * n) (b + 5 * n) (w + 7 * n) ∧
        d.Layout (w + 7 * n) (b + 5 * n) (w + 7 * n) ∧ d.resFolder = c.resFolder := by
  induction n with
  | zero =>
    intro c first w b hf hl _ _ _ _
    exact ⟨c, rfl, hf, hl, rfl⟩
  | succ n ih =>
    intro c first w b hf hl hw hb hwn hbn
    obtain ⟨d, e, f, l, r⟩ := octaveBody_layout c first w b hf hl hw hb (by omega) (by omega)
    obtain ⟨d', e', f', l', r'⟩ := ih d (first + 1) (w + 7) (b + 5) f l (by omega) (by omega)
      (by omega) (by omega)
    have hw' : w + 7 + 7 * n = w + 7 * (n + 1) := by ring
    have hb' : b + 5 + 5 * n = b + 5 * (n + 1) := by ring
    rw [hw', hb'] at f' l'
    refine ⟨d', ?_, f', l', by rw [r', r]⟩
    simp only [Construction.octaveLoop, e, Option.some_bind, e']

/-- The statements of the constructor that create keys store the 52 white and 36 black
keys of the layout. -/
theorem build_layout (resourceFolder : String) :
    ∃ c, KeyboardKeys.build resourceFolder = some c ∧ c.Filled 52 36 52 ∧
      c.Layout 52 36 52 ∧ c.resFolder = resourceFolder := by
  have f0 := start_filled resourceFolder
  have l0 := start_layout resourceFolder
  obtain ⟨c1, e1, f1, r1⟩ := nextWhite_filled _ .whiteR "0a" 0 0 f0 (by decide)
  have l1 := nextWhite_layout _ c1 .whiteR _ _ _ f0 l0 (by decide) e1
  obtain ⟨c2, e2, f2, r2⟩ := nextBlack_filled c1 "0bb" _ _ _ f1 (by decide)
  have l2 := nextBlack_layout c1 c2 _ _ _ _ f1 l1 (by decide) (by decide) e2
  obtain ⟨f3, r3⟩ := moveRight_filled c2 _ _ _ f2
  have l3 := moveRight_layout c2 _ _ _ l2
  obtain ⟨c4, e4, f4, r4⟩ := nextWhite_filled c2.moveRight .whiteL "0b" _ _ f3 (by decide)
  have l4 := nextWhite_layout c2.moveRight c4 .whiteL _ _ _ f3 l3 (by decide) e4
  obtain ⟨f5, r5⟩ := moveRight_filled c4 _ _ _ f4
  have l5 := moveRight_layout c4 _ _ _ l4
  obtain ⟨c6, e6, f6, l6, r6⟩ := octaveLoop_layout NUM_OCTAVES c4.moveRight 1 _ _ f5 l5
    (by decide) (by decide) (by decide) (by decide)
  obtain ⟨c7, e7, f7, r7⟩ := nextWhite_filled c6 .white (toString (NUM_OCTAVES + 1) ++ "c")
    _ _ f6 (by decide)
  have l7 := nextWhite_layout c6 c7 .white _ _ _ f6 l6 (by decide) e7
  obtain ⟨f8, r8⟩ := moveRight_filled c7 _ _ _ f7
  have l8 := moveRight_layout c7 _ _ _ l7
  refine ⟨c7.moveRight, ?_, f8, l8, ?_⟩
  · simp only [KeyboardKeys.build, Option.pure_def, Option.bind_eq_bind, e1, Option.some_bind,
      e2, e4, e6, e7]
  · rw [r8, r7, r6, r5, r4, r3, r2, r1]; rfl

/-- The keys of a constructed controller are the keys of the layout. -/
theorem new_layout (resourceFolder : String) (s : KeyboardKeys)
    (h : KeyboardKeys.new resourceFolder = some s) :
    s.resFolder = resourceFolder ∧
    (∀ i : Nat, i < 52 → ∃ shape,
      s.whiteKeys[i]? = some (layoutWhiteKey resourceFolder shape i)) ∧
    (∀ j : Nat, j < 36 → s.blackKeys[j]? = some (layoutBlackKey resourceFolder j)) := by
  obtain ⟨c, hc, hf, hl, hr⟩ := build_layout resourceFolder
  obtain ⟨c', s', hc', _, hs', hw, hb, hres, _⟩ := new_spec resourceFolder
  rw [h] at hs'
  have hss : s = s' := Option.some.inj hs'
  subst hss
  rw [hc] at hc'
  have hcc : c = c' := Option.some.inj hc'
  subst hcc
  obtain ⟨_, hws, hbs⟩ := hl
  rw [hr] at hws hbs
  refine ⟨hres, ?_, ?_⟩
  · intro i hi
    obtain ⟨shape, hk⟩ := hws i hi
    refine ⟨shape, ?_⟩
    rw [hw, List.getElem?_map] at hk
    cases hg : s.whiteKeys[i]? with
    | none => rw [hg] at hk; simp at hk
    | some k' =>
      rw [hg] at hk
      simp only [Option.map_some', Option.some.injEq] at hk
      rw [hk]
  · intro j hj
    have hk := hbs j hj
    rw [hb, List.getElem?_map] at hk
    cases hg : s.blackKeys[j]? with
    | none => rw [hg] at hk; simp at hk
    | some k' =>
      rw [hg] at hk
      simp only [Option.map_some', Option.some.injEq] at hk
      rw [hk]


/-! ## Claims on the layout -/

/-- C25: sound-asset naming of the layout.  For every resource folder the constructor
returns a controller in which white key `i` and black key `b` have the two sound paths
`resFolder + "/organ_sounds/" + name + ".aiff"` and
`resFolder + "/piano_sounds/" + name + ".aiff"`, where the name of white keys `0` and `1`
is `0a` and `0b`, that of a white key `i` in `2..51` is the number `(i − 2) div 7 + 1`
followed by the `(i − 2) mod 7`-th of c, d, e, f, g, a, b (`8c` for key `51`), that of
black key `0` is `0bb` and that of a black key `b` in `1..35` is the number
`(b − 1) div 5 + 1` followed by the `(b − 1) mod 5`-th of db, eb, gb, ab, bb.  The 88 names
are pairwise distinct. -/
theorem constructor_names (resourceFolder : String) :
    (∃ s, KeyboardKeys.new resourceFolder = some s ∧
      (∀ i : Nat, i < 52 → ∃ k, s.whiteKeys[i]? = some k ∧
        k.m_soundEffect =
          [resourceFolder ++ "/organ_sounds/" ++ whiteKeyName i ++ ".aiff",
           resourceFolder ++ "/piano_sounds/" ++ whiteKeyName i ++ ".aiff"]) ∧
      (∀ b : Nat, b < 36 → ∃ k, s.blackKeys[b]? = some k ∧
        k.m_soundEffect =
          [resourceFolder ++ "/organ_sounds/" ++ blackKeyName b ++ ".aiff",
           resourceFolder ++ "/piano_sounds/" ++ blackKeyName b ++ ".aiff"])) ∧
    whiteKeyName 0 = "0a" ∧ whiteKeyName 1 = "0b" ∧ whiteKeyName 51 = "8c" ∧
    blackKeyName 0 = "0bb" ∧
    (∀ i : Nat, 2 ≤ i → i ≤ 51 →
      whiteKeyName i = toString ((i - 2) / 7 + 1) ++ whiteNote ((i - 2) % 7)) ∧
    (∀ b : Nat, 1 ≤ b → b ≤ 35 →
      blackKeyName b = toString ((b - 1) / 5 + 1) ++ blackNote ((b - 1) % 5)) ∧
    (List.range 7).map whiteNote = ["c", "d", "e", "f", "g", "a", "b"] ∧
    (List.range 5).map blackNote = ["db", "eb", "gb", "ab", "bb"] ∧
    ((List.range 52).map whiteKeyName ++ (List.range 36).map blackKeyName).Nodup := by
  refine ⟨?_, by decide, by decide, by decide, by decide, ?_, ?_, by decide, by decide,
    by decide⟩
  · obtain ⟨_, s, _, _, hs, _⟩ := new_spec resourceFolder
    obtain ⟨_, hws, hbs⟩ := new_layout resourceFolder s hs
    refine ⟨s, hs, ?_, ?_⟩
    · intro i hi
      obtain ⟨shape, hk⟩ := hws i hi
      exact ⟨_, hk, rfl⟩
    · intro b hb
      exact ⟨_, hbs b hb, rfl⟩
  · intro i h2 _
    have h0 : ¬ i = 0 := by omega
    have h1 : ¬ i = 1 := by omega
    simp only [whiteKeyName, h0, h1, if_false]
  · intro b h1 _
    have h0 : ¬ b = 0 := by omega
    simp only [blackKeyName, h0, if_false]

/-- Witness of C25 on the controller constructed for the folder `res`: the paths of the
last white key. -/
theorem constructor_names_witness :
    ∃ k, constructed.whiteKeys[51]? = some k ∧
      k.m_soundEffect = ["res/organ_sounds/8c.aiff", "res/piano_sounds/8c.aiff"] :=
  match (constructor_names "res").1 with
  | ⟨s, hs, hw, _⟩ => by
    have hc : s = constructed := Option.some.inj (hs.symm.trans new_res)
    rw [← hc]
    obtain ⟨k, hk, he⟩ := hw 51 (by decide)
    exact ⟨k, hk, by rw [he]; decide⟩

/-- C26 (amended): a selected white key is the one under the position.  For
`0 ≤ x < 52·Δx`, when `getSelectedKey` returns a white index `w ≥ 0` then `w = ⌊x/Δx⌋`,
that is `w·Δx ≤ x < (w + 1)·Δx`, and in exact arithmetic, each `moveRight` adding `Δx`
without rounding, `w·Δx` is the position at which the constructor, for every resource
folder, has placed `whiteKeys[w]`. -/
theorem white_key_under (resourceFolder : String) (p : Vec3) (h0 : 0 ≤ p.x)
    (h52 : p.x < (NUM_WHITE_KEYS : ℚ) * X_DIFF_BETWEEN_WHITE_KEYS)
    (hw : 0 ≤ getSelectedKey p) :
    getSelectedKey p = Int.floor (p.x / X_DIFF_BETWEEN_WHITE_KEYS) ∧
    (getSelectedKey p : ℚ) * X_DIFF_BETWEEN_WHITE_KEYS ≤ p.x ∧
    p.x < ((getSelectedKey p : ℚ) + 1) * X_DIFF_BETWEEN_WHITE_KEYS ∧
    ∃ s k, KeyboardKeys.new resourceFolder = some s ∧
      s.whiteKeys[(getSelectedKey p).toNat]? = some k ∧
      k.m_transform.m_pos.x = (getSelectedKey p : ℚ) * X_DIFF_BETWEEN_WHITE_KEYS := by
  have hd : (0 : ℚ) < X_DIFF_BETWEEN_WHITE_KEYS := by norm_num [X_DIFF_BETWEEN_WHITE_KEYS]
  have hfl := getSelectedKey_floor p h0 h52 hw
  have hle : getSelectedKey p ≤ 51 := by
    rcases getSelectedKey_cases p with h | h | h
    · omega
    · exact h.2
    · omega
  refine ⟨hfl, ?_, ?_, ?_⟩
  · rw [hfl, ← le_div_iff₀ hd]
    exact Int.floor_le _
  · rw [hfl, ← div_lt_iff₀ hd]
    exact Int.lt_floor_add_one _
  · obtain ⟨_, s, _, _, hs, _⟩ := new_spec resourceFolder
    obtain ⟨_, _, hws, _⟩ := new_keys resourceFolder s hs
    obtain ⟨k, hk, _, hx⟩ := hws (getSelectedKey p).toNat (by omega)
    refine ⟨s, k, hs, hk, ?_⟩
    have hg : (((getSelectedKey p).toNat : Int) : ℚ) = (getSelectedKey p : ℚ) := by
      rw [Int.toNat_of_nonneg hw]
    rw [hx, ← hg, Int.cast_natCast]

/-- Witness of C26 at `x = 4.5·Δx = 54/5`, over the E key of index `4`. -/
theorem white_key_under_witness :
    getSelectedKey ⟨54 / 5, 0, 0⟩ = Int.floor ((54 / 5 : ℚ) / X_DIFF_BETWEEN_WHITE_KEYS) ∧
    (getSelectedKey ⟨54 / 5, 0, 0⟩ : ℚ) * X_DIFF_BETWEEN_WHITE_KEYS ≤ 54 / 5 :=
  have h4 : getSelectedKey ⟨54 / 5, 0, 0⟩ = 4 := by
    rw [getSelectedKey_at ⟨54 / 5, 0, 0⟩ 0 (9 / 2)
      (by norm_num [X_DIFF_BETWEEN_WHITE_KEYS]) (by norm_num [X_DIFF_BETWEEN_WHITE_KEYS])
      (by norm_num [X_DIFF_BETWEEN_WHITE_KEYS]) (by norm_num) (by norm_num)]
    norm_num [octaveTable]
  ⟨(white_key_under "res" ⟨54 / 5, 0, 0⟩ (by norm_num)
      (by norm_num [NUM_WHITE_KEYS, X_DIFF_BETWEEN_WHITE_KEYS]) (by rw [h4]; decide)).1,
   (white_key_under "res" ⟨54 / 5, 0, 0⟩ (by norm_num)
      (by norm_num [NUM_WHITE_KEYS, X_DIFF_BETWEEN_WHITE_KEYS]) (by rw [h4]; decide)).2.1⟩


/-! ## The selector on the black keys -/

/-- The key behind a pointer depends on the two arrays only. -/
theorem getKey_congr (s t : KeyboardKeys) (hw : t.whiteKeys = s.whiteKeys)
    (hb : t.blackKeys = s.blackKeys) (r : KeyRef) : t.getKey r = s.getKey r := by
  cases r <;> simp [KeyboardKeys.getKey, hw, hb]

/-- After a key object is replaced, a pointer finds the replacement or what it found
before. -/
theorem getKey_setKey (s : KeyboardKeys) (r q : KeyRef) (a k : OneKeyboardKey)
    (h : (s.setKey r a).getKey q = some k) :
    (q = r ∧ k = a) ∨ s.getKey q = some k := by
  cases r with
  | white i =>
    cases q with
    | white j =>
      simp only [KeyboardKeys.setKey, KeyboardKeys.getKey] at h ⊢
      rw [List.getElem?_set] at h
      by_cases hij : i = j
      · rw [if_pos hij] at h
        by_cases hl : i < s.whiteKeys.length
        · rw [if_pos hl] at h
          exact Or.inl ⟨by rw [hij], (Option.some.inj h).symm⟩
        · rw [if_neg hl] at h
          exact absurd h (by simp)
      · rw [if_neg hij] at h
        exact Or.inr h
    | black j => exact Or.inr h
  | black i =>
    cases q with
    | white j => exact Or.inr h
    | black j =>
      simp only [KeyboardKeys.setKey, KeyboardKeys.getKey] at h ⊢
      rw [List.getElem?_set] at h
      by_cases hij : i = j
      · rw [if_pos hij] at h
        by_cases hl : i < s.blackKeys.length
        · rw [if_pos hl] at h
          exact Or.inl ⟨by rw [hij], (Option.some.inj h).symm⟩
        · rw [if_neg hl] at h
          exact absurd h (by simp)
      · rw [if_neg hij] at h
        exact Or.inr h

/-- The expiry of a timer: its callback runs on the key it was given; the timer is removed
when the callback returns `0` and rescheduled otherwise. -/
theorem fireTimer_spec (s t : KeyboardKeys) (n : Nat) (h : s.fireTimer n = some t) :
    ∃ tm theKey, s.timers[n]? = some tm ∧ s.getKey tm.param = some theKey ∧
      t = { s.setKey tm.param (runCallback tm.callback tm.interval theKey).2 with
            timers := if (runCallback tm.callback tm.interval theKey).1 = 0
                      then s.timers.eraseIdx n
                      else s.timers.set n
                        { tm with interval := (runCallback tm.callback tm.interval theKey).1 } } := by
  simp only [KeyboardKeys.fireTimer, Option.pure_def, Option.bind_eq_bind,
    Option.bind_eq_some] at h
  obtain ⟨tm, htm, h⟩ := h
  rcases tm with ⟨iv, cb, pr⟩
  cases pr with
  | white i =>
    simp only [Option.bind_eq_some] at h
    obtain ⟨theKey, hget, ht⟩ := h
    refine ⟨_, theKey, htm, hget, ?_⟩
    rw [← Option.some.inj ht]
    cases cb <;> rfl
  | black i =>
    simp only [Option.bind_eq_some] at h
    obtain ⟨theKey, hget, ht⟩ := h
    refine ⟨_, theKey, htm, hget, ?_⟩
    rw [← Option.some.inj ht]
    cases cb <;> rfl

/-- The expiry of a timer registers no timer: every timer left was there before, with the
same callback on the same key. -/
theorem fireTimer_timers (s t : KeyboardKeys) (n : Nat) (h : s.fireTimer n = some t) :
    ∀ tm ∈ t.timers, ∃ old ∈ s.timers, old.callback = tm.callback ∧ old.param = tm.param := by
  obtain ⟨tm0, theKey, htm, _, ht⟩ := fireTimer_spec s t n h
  intro tm hmem
  rw [ht] at hmem
  have hmem' : tm ∈ (if (runCallback tm0.callback tm0.interval theKey).1 = 0
      then s.timers.eraseIdx n
      else s.timers.set n
        { tm0 with interval := (runCallback tm0.callback tm0.interval theKey).1 }) := by
    cases hp : tm0.param <;> rw [hp] at hmem <;> exact hmem
  by_cases h0 : (runCallback tm0.callback tm0.interval theKey).1 = 0
  · rw [if_pos h0] at hmem'
    exact ⟨tm, List.mem_of_mem_eraseIdx hmem', rfl, rfl⟩
  · rw [if_neg h0] at hmem'
    rcases List.mem_or_eq_of_mem_set hmem' with h' | h'
    · exact ⟨tm, h', rfl, rfl⟩
    · exact ⟨tm0, List.getElem?_mem htm, by rw [h'], by rw [h']⟩

/-- A call of `keyUp` with an `int` on a constructed controller: it changes nothing when
the id is not that of a key, and registers one lift timer on the key otherwise. -/
theorem keyUp_timers (s t : KeyboardKeys) (key : Int) (hwf : s.WellFormed) (h32 : IsInt32 key)
    (h : s.keyUp key = some t) :
    t.timers = s.timers ++
      (if IsKeyId key then [⟨DELAY, .liftUpKey, KeyRef.ofId key⟩] else []) := by
  by_cases hk : IsKeyId key
  · obtain ⟨old, _, hup⟩ := keyUp_of_isKeyId s key hwf hk
    rw [h] at hup
    rw [if_pos hk, Option.some.inj hup]
  · obtain ⟨t', ht', _, _, _, _, _, hsame⟩ := keyUp_frame s key hwf h32
    rw [h] at ht'
    rw [if_neg hk, Option.some.inj ht', hsame hk, List.append_nil]

/-- A call of `keyDown` with an `int` on a constructed controller: it changes nothing when
the id is the current one or not that of a key; otherwise the key becomes the current one,
its channel is assigned, a lift timer is registered on the former current key, if there
is one, and a press-down timer on the key. -/
theorem keyDown_spec (s u : KeyboardKeys) (key mixResult : Int) (hwf : s.WellFormed)
    (h32 : IsInt32 key) (h : s.keyDown key mixResult = some u) :
    ((key = s.m_curKeyDown ∨ ¬ IsKeyId key) ∧ u = s) ∨
    (IsKeyId key ∧ key ≠ s.m_curKeyDown ∧ u.m_curKeyDown = key ∧
      u.timers = s.timers ++
        (if IsKeyId s.m_curKeyDown then [⟨DELAY, .liftUpKey, KeyRef.ofId s.m_curKeyDown⟩]
          else []) ++ [⟨DELAY, .pressDownKey, KeyRef.ofId key⟩] ∧
      ∃ theKey, s.getKey (KeyRef.ofId key) = some theKey ∧
        ∀ r, u.getKey r = (s.setKey (KeyRef.ofId key)
          { theKey with m_soundChannel := some mixResult }).getKey r) := by
  by_cases hcur : s.m_curKeyDown = key
  · rw [keyDown_current s key mixResult hcur] at h
    exact Or.inl ⟨Or.inl hcur.symm, (Option.some.inj h).symm⟩
  by_cases hk : IsKeyId key
  · right
    obtain ⟨t, theKey, chunk, hup, hget, _, hdown⟩ :=
      keyDown_of_isKeyId s key mixResult hwf hk (Ne.symm hcur)
    have htm := keyUp_timers s t s.m_curKeyDown hwf hwf.2.2.2.2.2 hup
    obtain ⟨_, htw, htb, _⟩ := keyUp_cur s t s.m_curKeyDown hup
    rw [h] at hdown
    have hu := Option.some.inj hdown
    refine ⟨hk, Ne.symm hcur, by rw [hu], by rw [hu, ← htm], theKey, hget, ?_⟩
    intro r
    rw [hu]
    apply getKey_congr
    · cases KeyRef.ofId key <;> simp [KeyboardKeys.setKey, htw]
    · cases KeyRef.ofId key <;> simp [KeyboardKeys.setKey, htb]
  · obtain ⟨u', hu', _, _, hsame⟩ := keyDown_total s key mixResult hwf h32
    rw [h] at hu'
    exact Or.inl ⟨Or.inr hk, by rw [Option.some.inj hu', hsame hk]⟩

/-- What a step does to a key: nothing, the assignment of its channel, or one run of a
timer callback. -/
theorem step_getKey (s t : KeyboardKeys) (hwf : s.WellFormed) (hst : Step s t)
    (r : KeyRef) (k : OneKeyboardKey) (h : t.getKey r = some k) :
    s.getKey r = some k ∨
    ∃ old, s.getKey r = some old ∧
      ((∃ c, k = { old with m_soundChannel := some c }) ∨
       ∃ cb i, k = (runCallback cb i old).2) := by
  cases hst with
  | keyDown key mixResult h32 hd =>
    rcases keyDown_spec s t key mixResult hwf h32 hd with ⟨_, hts⟩ | ⟨_, _, _, _, theKey, hget, hall⟩
    · rw [hts] at h; exact Or.inl h
    · rw [hall r] at h
      rcases getKey_setKey _ _ _ _ _ h with ⟨hr, hk⟩ | h'
      · exact Or.inr ⟨theKey, by rw [hr]; exact hget, Or.inl ⟨mixResult, hk⟩⟩
      · exact Or.inl h'
  | keyUp key h32 hu =>
    obtain ⟨_, htw, htb, _⟩ := keyUp_cur s t key hu
    rw [getKey_congr s t htw htb r] at h
    exact Or.inl h
  | timer n hf =>
    obtain ⟨tm, theKey, _, hget, ht⟩ := fireTimer_spec s t n hf
    have hall : t.getKey r =
        (s.setKey tm.param (runCallback tm.callback tm.interval theKey).2).getKey r := by
      rw [ht]
      exact getKey_congr _ _ rfl rfl r
    rw [hall] at h
    rcases getKey_setKey _ _ _ _ _ h with ⟨hr, hk⟩ | h'
    · exact Or.inr ⟨theKey, by rw [hr]; exact hget, Or.inr ⟨_, _, hk⟩⟩
    · exact Or.inl h'

/-- A property of the keys that the constructor establishes and that the assignment of a
channel and the two timer callbacks keep holds of every key in every reachable state. -/
theorem reachable_getKey (P : KeyRef → OneKeyboardKey → Prop)
    (hinit : ∀ res s, KeyboardKeys.new res = some s → ∀ r k, s.getKey r = some k → P r k)
    (hchan : ∀ r k c, P r k → P r { k with m_soundChannel := some c })
    (hrun : ∀ r k cb i, P r k → P r (runCallback cb i k).2)
    (s : KeyboardKeys) (h : Reachable s) : ∀ r k, s.getKey r = some k → P r k := by
  induction h with
  | init res s hs => exact hinit res s hs
  | step s t hs hst ih =>
    intro r k hk
    rcases step_getKey s t (reachable_inv s hs).1 hst r k hk with h' | ⟨old, hold, h' | h'⟩
    · exact ih r k h'
    · obtain ⟨c, hc⟩ := h'
      rw [hc]; exact hchan r old c (ih r old hold)
    · obtain ⟨cb, i, hc⟩ := h'
      rw [hc]; exact hrun r old cb i (ih r old hold)


/-! ## The depth of a key -/

theorem moveUp_moveDown (t : Transform) (l : Int) (d : ℚ) :
    (t.moveUp ((l : ℚ) * d)).moveDown d = t.moveUp (((l - 1 : Int) : ℚ) * d) := by
  simp only [Transform.moveUp, Transform.moveDown]
  congr 2
  push_cast; ring

theorem moveUp_moveUp (t : Transform) (l : Int) (d : ℚ) :
    (t.moveUp ((l : ℚ) * d)).moveUp d = t.moveUp (((l + 1 : Int) : ℚ) * d) := by
  simp only [Transform.moveUp]
  congr 2
  push_cast; ring

/-- A run of a timer callback keeps the transform of a key at the depth of its level. -/
theorem runCallback_atDepth (r : KeyRef) (k : OneKeyboardKey) (cb : TimerCallback) (i : Nat)
    (h : k.AtDepth r) : (runCallback cb i k).2.AtDepth r := by
  unfold OneKeyboardKey.AtDepth at h ⊢
  cases cb with
  | pressDownKey =>
    simp only [runCallback, pressDownKey]
    by_cases hb : (!k.isAtBottom) = true
    · rw [if_pos hb]
      simp only [OneKeyboardKey.keyDown]
      rw [h, moveUp_moveDown]
    · rw [if_neg hb]; exact h
  | liftUpKey =>
    simp only [runCallback, liftUpKey]
    by_cases hb : (!k.isAtTop) = true
    · rw [if_pos hb]
      simp only [OneKeyboardKey.keyUp]
      rw [h, moveUp_moveUp]
    · rw [if_neg hb]; exact h

/-- The constructor builds every key at the depth of its level, `0`. -/
theorem new_atDepth (res : String) (s : KeyboardKeys) (hs : KeyboardKeys.new res = some s)
    (r : KeyRef) (k : OneKeyboardKey) (hk : s.getKey r = some k) : k.AtDepth r := by
  obtain ⟨_, hws, hbs⟩ := new_layout res s hs
  obtain ⟨hlw, hlb, _⟩ := new_wellFormed res s hs
  cases r with
  | white i =>
    simp only [KeyboardKeys.getKey] at hk
    have hi : i < 52 := by
      obtain ⟨hlt, _⟩ := List.getElem?_eq_some.mp hk
      rw [hlw] at hlt; exact hlt
    obtain ⟨shape, hw⟩ := hws i hi
    rw [hk] at hw
    rw [Option.some.inj hw]
    simp [OneKeyboardKey.AtDepth, layoutWhiteKey, OneKeyboardKey.new, KeyRef.rest,
      Transform.moveUp, restTransform]
  | black j =>
    simp only [KeyboardKeys.getKey] at hk
    have hj : j < 36 := by
      obtain ⟨hlt, _⟩ := List.getElem?_eq_some.mp hk
      rw [hlb] at hlt; exact hlt
    have hb := hbs j hj
    rw [hk] at hb
    rw [Option.some.inj hb]
    simp [OneKeyboardKey.AtDepth, layoutBlackKey, OneKeyboardKey.new, KeyRef.rest,
      Transform.moveUp, restTransform]

/-- In every reachable state every key is at the depth of its level. -/
theorem reachable_atDepth (s : KeyboardKeys) (h : Reachable s) (r : KeyRef)
    (k : OneKeyboardKey) (hk : s.getKey r = some k) : k.AtDepth r :=
  reachable_getKey (fun r k => k.AtDepth r) new_atDepth (fun _ _ _ h => h)
    runCallback_atDepth s h r k hk

/-- C24: visual displacement tracks the level.  `OneKeyboardKey::keyDown` lowers the level
by one and the `y` of the transform by `INCREMENTAL_DEPTH = KEYPRESS_DEPTH/NUM_INTERVALS
= 1/5`, `OneKeyboardKey::keyUp` raises both by the same amounts, and neither changes
another component of the transform; so in exact arithmetic, in every reachable state the
transform of every key is its rest transform with `y` offset `level·(1/5)`: offset `0` at
level `0` and `−KEYPRESS_DEPTH = −1` at level `−NUM_INTERVALS`. -/
theorem depth_tracks_level (s : KeyboardKeys) (h : Reachable s) :
    INCREMENTAL_DEPTH = (KEYPRESS_DEPTH : ℚ) / (NUM_INTERVALS : ℚ) ∧
    INCREMENTAL_DEPTH = 1 / 5 ∧
    (∀ k : OneKeyboardKey,
      k.keyDown.m_keyLevel = k.m_keyLevel - 1 ∧
      k.keyDown.m_transform.m_pos.y = k.m_transform.m_pos.y - 1 / 5 ∧
      k.keyDown.m_transform.m_pos.x = k.m_transform.m_pos.x ∧
      k.keyDown.m_transform.m_pos.z = k.m_transform.m_pos.z ∧
      k.keyDown.m_transform.m_rot = k.m_transform.m_rot ∧
      k.keyDown.m_transform.m_scale = k.m_transform.m_scale ∧
      k.keyUp.m_keyLevel = k.m_keyLevel + 1 ∧
      k.keyUp.m_transform.m_pos.y = k.m_transform.m_pos.y + 1 / 5 ∧
      k.keyUp.m_transform.m_pos.x = k.m_transform.m_pos.x ∧
      k.keyUp.m_transform.m_pos.z = k.m_transform.m_pos.z ∧
      k.keyUp.m_transform.m_rot = k.m_transform.m_rot ∧
      k.keyUp.m_transform.m_scale = k.m_transform.m_scale) ∧
    (∀ (r : KeyRef) (k : OneKeyboardKey), s.getKey r = some k →
      k.m_transform.m_pos.y - r.rest.m_pos.y = (k.m_keyLevel : ℚ) * (1 / 5) ∧
      r.rest.m_pos.y = 0 ∧
      k.m_transform.m_pos.x = r.rest.m_pos.x ∧
      k.m_transform.m_pos.z = r.rest.m_pos.z ∧
      k.m_transform.m_rot = r.rest.m_rot ∧
      k.m_transform.m_scale = r.rest.m_scale ∧
      (k.m_keyLevel = 0 → k.m_transform.m_pos.y = 0) ∧
      (k.m_keyLevel = -NUM_INTERVALS → k.m_transform.m_pos.y = -(KEYPRESS_DEPTH : ℚ))) := by
  have hinc : INCREMENTAL_DEPTH = 1 / 5 := by
    norm_num [INCREMENTAL_DEPTH, KEYPRESS_DEPTH, NUM_INTERVALS]
  refine ⟨rfl, hinc, ?_, ?_⟩
  · intro k
    refine ⟨rfl, ?_, rfl, rfl, rfl, rfl, rfl, ?_, rfl, rfl, rfl, rfl⟩
    · show k.m_transform.m_pos.y - INCREMENTAL_DEPTH = _
      rw [hinc]
    · show k.m_transform.m_pos.y + INCREMENTAL_DEPTH = _
      rw [hinc]
  · intro r k hk
    have hd := reachable_atDepth s h r k hk
    unfold OneKeyboardKey.AtDepth at hd
    have h0 : r.rest.m_pos.y = 0 := by cases r <;> rfl
    have hy : k.m_transform.m_pos.y = (k.m_keyLevel : ℚ) * (1 / 5) := by
      rw [hd]
      simp only [Transform.moveUp, h0, hinc, zero_add]
    refine ⟨by rw [hy, h0, sub_zero], h0, by rw [hd]; rfl, by rw [hd]; rfl, by rw [hd]; rfl,
      by rw [hd]; rfl, ?_, ?_⟩
    · intro hl
      rw [hy, hl]; norm_num
    · intro hl
      rw [hy, hl]; norm_num [NUM_INTERVALS, KEYPRESS_DEPTH]

/-- Witness of C24 in the state `ticked`: the first white key is one level down and its
transform `1/5` below its rest position. -/
theorem depth_tracks_level_witness :
    Reachable ticked ∧
    ((ticked.getKey (.white 0)).get (by decide)).m_keyLevel = -1 ∧
    ((ticked.getKey (.white 0)).get (by decide)).m_transform.m_pos.y
        - (KeyRef.white 0).rest.m_pos.y = ((-1 : Int) : ℚ) * (1 / 5) :=
  ⟨reachable_ticked, by decide,
   ((depth_tracks_level ticked reachable_ticked).2.2.2 (.white 0)
      ((ticked.getKey (.white 0)).get (by decide)) (Option.some_get _).symm).1⟩


/-! ## The timers registered on a key -/

/-- A state reachable under guards is reachable. -/
theorem reachableBy_reachable (D U : KeyboardKeys → Int → Prop) (s : KeyboardKeys)
    (h : ReachableBy D U s) : Reachable s := by
  induction h with
  | init res s hs => exact Reachable.init res s hs
  | keyDown s t key mixResult _ h32 _ hd ih =>
    exact Reachable.step s t ih (Step.keyDown s t key mixResult h32 hd)
  | keyUp s t key _ h32 _ hu ih => exact Reachable.step s t ih (Step.keyUp s t key h32 hu)
  | timer s t n _ hf ih => exact Reachable.step s t ih (Step.timer s t n hf)

/-- Expiries of timers lead from a state reachable under guards to one. -/
theorem reachableBy_fireTimers (D U : KeyboardKeys → Int → Prop) (l : List Nat) :
    ∀ s t : KeyboardKeys, ReachableBy D U s → s.fireTimers l = some t → ReachableBy D U t := by
  induction l with
  | nil =>
    intro s t hs h
    simp only [KeyboardKeys.fireTimers] at h
    rw [← Option.some.inj h]; exact hs
  | cons n rest ih =>
    intro s t hs h
    simp only [KeyboardKeys.fireTimers, Option.bind_eq_some] at h
    obtain ⟨m, hm, hrest⟩ := h
    exact ih m t (ReachableBy.timer s m n hs hm) hrest

/-- Different key ids denote different key objects. -/
theorem ofId_injective (a b : Int) (ha : IsKeyId a) (hb : IsKeyId b)
    (h : KeyRef.ofId a = KeyRef.ofId b) : a = b := by
  unfold IsKeyId at ha hb
  unfold KeyRef.ofId at h
  by_cases h1 : a ≥ 0 <;> by_cases h2 : b ≥ 0
  · rw [if_pos h1, if_pos h2] at h
    have := KeyRef.white.inj h
    omega
  · rw [if_pos h1, if_neg h2] at h
    exact absurd h (by simp)
  · rw [if_neg h1, if_pos h2] at h
    exact absurd h (by simp)
  · rw [if_neg h1, if_neg h2] at h
    have := KeyRef.black.inj h
    omega

/-- The expiry of a timer registers no timer on any key. -/
theorem fireTimer_hasTimer (s t : KeyboardKeys) (n : Nat) (h : s.fireTimer n = some t)
    (cb : TimerCallback) (r : KeyRef) (ht : t.hasTimer cb r) : s.hasTimer cb r := by
  obtain ⟨tm, hmem, hcb, hp⟩ := ht
  obtain ⟨old, hold, hocb, hop⟩ := fireTimer_timers s t n h tm hmem
  exact ⟨old, hold, by rw [hocb, hcb], by rw [hop, hp]⟩

/-- No key has a press-down timer and a lift timer at the same time. -/
theorem exclusive_of_selectedAfterEasing (s : KeyboardKeys)
    (h : ReachableBy SelectedAfterEasing NoCall s) (r : KeyRef) :
    ¬ (s.hasTimer .pressDownKey r ∧ s.hasTimer .liftUpKey r) := by
  induction h with
  | init res s hs =>
    obtain ⟨_, s', _, _, hs', _, _, _, _, _, htm, _⟩ := new_spec res
    rw [hs] at hs'
    rw [← Option.some.inj hs'] at htm
    rintro ⟨⟨tm, hmem, _⟩, _⟩
    rw [htm] at hmem
    exact absurd hmem (List.not_mem_nil _)
  | keyDown s t key mixResult hs h32 hg hd ih =>
    have hwf := (reachable_inv s (reachableBy_reachable _ _ s hs)).1
    rcases keyDown_spec s t key mixResult hwf h32 hd with ⟨_, hts⟩ | ⟨hk, hne, _, htm, _⟩
    · rw [hts]; exact ih
    · rcases hg.2 with hc | hc | ⟨hg1, hg2⟩
      · exact absurd hc hne
      · exact absurd hk hc
      · rintro ⟨⟨p, hp, hpc, hpr⟩, ⟨l, hl, hlc, hlr⟩⟩
        rw [htm] at hp hl
        simp only [List.mem_append, List.mem_singleton] at hp hl
        -- the press-down timer on `r` is an old one or the one on `key`
        have hpress : s.hasTimer .pressDownKey r ∨ r = KeyRef.ofId key := by
          rcases hp with (hp | hp) | hp
          · exact Or.inl ⟨p, hp, hpc, hpr⟩
          · by_cases hcur : IsKeyId s.m_curKeyDown
            · rw [if_pos hcur, List.mem_singleton] at hp
              rw [hp] at hpc
              exact absurd hpc (by simp)
            · rw [if_neg hcur] at hp
              exact absurd hp (List.not_mem_nil _)
          · rw [hp] at hpr
            exact Or.inr hpr.symm
        -- the lift timer on `r` is an old one or the one on the former current key
        have hlift : s.hasTimer .liftUpKey r ∨
            (IsKeyId s.m_curKeyDown ∧ r = KeyRef.ofId s.m_curKeyDown) := by
          rcases hl with (hl | hl) | hl
          · exact Or.inl ⟨l, hl, hlc, hlr⟩
          · by_cases hcur : IsKeyId s.m_curKeyDown
            · rw [if_pos hcur, List.mem_singleton] at hl
              rw [hl] at hlr
              exact Or.inr ⟨hcur, hlr.symm⟩
            · rw [if_neg hcur] at hl
              exact absurd hl (List.not_mem_nil _)
          · rw [hl] at hlc
            exact absurd hlc (by simp)
        rcases hpress with h1 | h1 <;> rcases hlift with h2 | ⟨hcur, h2⟩
        · exact ih ⟨h1, h2⟩
        · rw [h2] at h1
          exact hg1 hcur h1
        · rw [h1] at h2
          exact hg2 h2
        · rw [h1] at h2
          exact hne (ofId_injective key s.m_curKeyDown hk hcur h2)
  | keyUp s t key _ _ hg _ _ => exact absurd hg (by simp [NoCall])
  | timer s t n _ hf ih =>
    rintro ⟨h1, h2⟩
    exact ih ⟨fireTimer_hasTimer s t n hf _ _ h1, fireTimer_hasTimer s t n hf _ _ h2⟩

/-- Every press-down timer is on the current key. -/
theorem press_on_current (s : KeyboardKeys) (h : ReachableBy AfterPress AnyCall s) :
    ∀ tm ∈ s.timers, tm.callback = .pressDownKey →
      IsKeyId s.m_curKeyDown ∧ tm.param = KeyRef.ofId s.m_curKeyDown := by
  induction h with
  | init res s hs =>
    obtain ⟨_, s', _, _, hs', _, _, _, _, _, htm, _⟩ := new_spec res
    rw [hs] at hs'
    rw [← Option.some.inj hs'] at htm
    intro tm hmem
    rw [htm] at hmem
    exact absurd hmem (List.not_mem_nil _)
  | keyDown s t key mixResult hs h32 hg hd ih =>
    have hwf := (reachable_inv s (reachableBy_reachable _ _ s hs)).1
    rcases keyDown_spec s t key mixResult hwf h32 hd with ⟨_, hts⟩ | ⟨hk, hne, hcur, htm, _⟩
    · rw [hts]; exact ih
    · rcases hg with hc | hc | hg
      · exact absurd hc hne
      · exact absurd hk hc
      · intro tm hmem hcb
        rw [htm] at hmem
        simp only [List.mem_append, List.mem_singleton] at hmem
        rcases hmem with (hm | hm) | hm
        · exact absurd hcb (hg tm hm)
        · by_cases hc : IsKeyId s.m_curKeyDown
          · rw [if_pos hc, List.mem_singleton] at hm
            rw [hm] at hcb
            exact absurd hcb (by simp)
          · rw [if_neg hc] at hm
            exact absurd hm (List.not_mem_nil _)
        · rw [hcur, hm]
          exact ⟨hk, rfl⟩
  | keyUp s t key hs h32 _ hu ih =>
    have hwf := (reachable_inv s (reachableBy_reachable _ _ s hs)).1
    have htm := keyUp_timers s t key hwf h32 hu
    obtain ⟨hcur, _⟩ := keyUp_cur s t key hu
    intro tm hmem hcb
    rw [htm] at hmem
    rw [hcur]
    rcases List.mem_append.mp hmem with hm | hm
    · exact ih tm hm hcb
    · by_cases hc : IsKeyId key
      · rw [if_pos hc, List.mem_singleton] at hm
        rw [hm] at hcb
        exact absurd hcb (by simp)
      · rw [if_neg hc] at hm
        exact absurd hm (List.not_mem_nil _)
  | timer s t n _ hf ih =>
    intro tm hmem hcb
    obtain ⟨old, hold, hocb, hop⟩ := fireTimer_timers s t n hf tm hmem
    rw [fireTimer_cur s t n hf, ← hop]
    exact ih old hold (by rw [hocb, hcb])

/-! ## Runs of the example controller -/

theorem keyDown_pressed : pressed.keyDown (-2) 1 = some released := by
  unfold released
  exact (Option.some_get _).symm

theorem fireTimers_pressed : pressed.fireTimers [0, 0, 0, 0, 0, 0] = some settled := by
  unfold settled
  exact (Option.some_get _).symm

theorem keyDown_settled : settled.keyDown (-2) 1 = some handed := by
  unfold handed
  exact (Option.some_get _).symm

theorem fireTimers_handed : handed.fireTimers [1, 1, 1, 1, 1, 1] = some resettled := by
  unfold resettled
  exact (Option.some_get _).symm

theorem keyDown_resettled : resettled.keyDown 1 2 = some relayed := by
  unfold relayed
  exact (Option.some_get _).symm

/-- The position `x = 1` selects the first white key. -/
theorem getSelectedKey_one : (0 : Int) = getSelectedKey ⟨1, 0, 0⟩ :=
  (getSelectedKey_left_snap ⟨1, 0, 0⟩ (by norm_num)
    (by norm_num [X_DIFF_BETWEEN_WHITE_KEYS])).symm

/-- The position `x = 2` selects the first black key. -/
theorem getSelectedKey_two : (-2 : Int) = getSelectedKey ⟨2, 0, 0⟩ := by
  rw [getSelectedKey_at ⟨2, 0, 0⟩ 0 (5 / 6)
    (by norm_num [X_DIFF_BETWEEN_WHITE_KEYS]) (by norm_num [X_DIFF_BETWEEN_WHITE_KEYS])
    (by norm_num [X_DIFF_BETWEEN_WHITE_KEYS]) (by norm_num) (by norm_num)]
  norm_num [octaveTable]

/-- The run to `released`: `keyDown(0)` and `keyDown(-2)`, each with a result of the
selector, no timer expiring. -/
theorem reachableBy_released : ReachableBy FromSelector NoCall released :=
  ReachableBy.keyDown pressed released (-2) 1
    (ReachableBy.keyDown constructed pressed 0 0
      (ReachableBy.init "res" constructed new_res) (by decide) ⟨⟨1, 0, 0⟩, getSelectedKey_one⟩
      keyDown_constructed)
    (by decide) ⟨⟨2, 0, 0⟩, getSelectedKey_two⟩ keyDown_pressed

/-- The run to `handed`: `keyDown(0)`, the six expiries of its press-down timer, and
`keyDown(-2)`, each call with a result of the selector and after easing. -/
theorem reachableBy_handed : ReachableBy SelectedAfterEasing NoCall handed :=
  ReachableBy.keyDown settled handed (-2) 1
    (reachableBy_fireTimers _ _ _ pressed settled
      (ReachableBy.keyDown constructed pressed 0 0
        (ReachableBy.init "res" constructed new_res) (by decide)
        ⟨⟨⟨1, 0, 0⟩, getSelectedKey_one⟩, Or.inr (Or.inr (by decide))⟩
        keyDown_constructed)
      fireTimers_pressed)
    (by decide) ⟨⟨⟨2, 0, 0⟩, getSelectedKey_two⟩, Or.inr (Or.inr (by decide))⟩ keyDown_settled

/-- The run to `relayed`, every hand-over made when no press-down timer is registered. -/
theorem reachableBy_relayed : ReachableBy AfterPress AnyCall relayed :=
  ReachableBy.keyDown resettled relayed 1 2
    (reachableBy_fireTimers _ _ _ handed resettled
      (ReachableBy.keyDown settled handed (-2) 1
        (reachableBy_fireTimers _ _ _ pressed settled
          (ReachableBy.keyDown constructed pressed 0 0
            (ReachableBy.init "res" constructed new_res) (by decide)
            (Or.inr (Or.inr (by decide))) keyDown_constructed)
          fireTimers_pressed)
        (by decide) (Or.inr (Or.inr (by decide))) keyDown_settled)
      fireTimers_handed)
    (by decide) (Or.inr (Or.inr (by decide))) keyDown_resettled


/-! ## Claims on the timers -/

/-- C22 (counterexample): after `keyDown(0)` and `keyDown(-2)`, both with results of
`getSelectedKey` (at `x = 1` and `x = 2`) and with no timer expiring in between, the
registered timers are the press-down timer of white key `0`, its lift timer and the
press-down timer of black key `0`: white key `0` has a press-down timer and a lift timer
at the same time. -/
theorem timers_exclusive_counterexample :
    ReachableBy FromSelector NoCall released ∧
    released.timers = [⟨DELAY, .pressDownKey, .white 0⟩, ⟨DELAY, .liftUpKey, .white 0⟩,
      ⟨DELAY, .pressDownKey, .black 0⟩] ∧
    released.hasTimer .pressDownKey (.white 0) ∧ released.hasTimer .liftUpKey (.white 0) :=
  ⟨reachableBy_released, by decide, by decide, by decide⟩

/-- C22 (amended): no call of `keyDown` removes a timer, a timer goes only when its own
callback returns `0`.  In every state reachable by timer expiries and calls of `keyDown`
with results of `getSelectedKey`, where each call that changes the current key is made
only after the press-down timer of the current key has removed itself and when no lift
timer is left on the new key, no key has a lift timer and a press-down timer at the same
time. -/
theorem timers_exclusive (s : KeyboardKeys)
    (h : ReachableBy SelectedAfterEasing NoCall s) :
    (∀ r : KeyRef, ¬ (s.hasTimer .pressDownKey r ∧ s.hasTimer .liftUpKey r)) ∧
    (∀ (key mixResult : Int) (u : KeyboardKeys), IsInt32 key →
      s.keyDown key mixResult = some u → ∃ added, u.timers = s.timers ++ added) := by
  refine ⟨exclusive_of_selectedAfterEasing s h, ?_⟩
  intro key mixResult u h32 hd
  have hwf := (reachable_inv s (reachableBy_reachable _ _ s h)).1
  rcases keyDown_spec s u key mixResult hwf h32 hd with ⟨_, hus⟩ | ⟨_, _, _, htm, _⟩
  · exact ⟨[], by rw [hus, List.append_nil]⟩
  · exact ⟨_, by rw [htm, List.append_assoc]⟩

/-- Witness of C22 in the state `handed`, reached by `keyDown(0)`, the six expiries of its
press-down timer and `keyDown(-2)`: white key `0` has its lift timer only. -/
theorem timers_exclusive_witness :
    ReachableBy SelectedAfterEasing NoCall handed ∧
    handed.hasTimer .liftUpKey (.white 0) ∧
    ¬ (handed.hasTimer .pressDownKey (.white 0) ∧ handed.hasTimer .liftUpKey (.white 0)) :=
  ⟨reachableBy_handed, by decide, (timers_exclusive handed reachableBy_handed).1 (.white 0)⟩

/-- C23 (counterexample): after `keyDown(0)` and `keyDown(-2)` with no timer expiring in
between, the current key is black key `0`, `−2`, and both white key `0` and black key `0`
have a press-down timer: two keys are easing down, one of them not the current key. -/
theorem one_key_easing_down_counterexample :
    Reachable released ∧ released.m_curKeyDown = -2 ∧
    released.hasTimer .pressDownKey (.white 0) ∧
    released.hasTimer .pressDownKey (.black 0) ∧
    KeyRef.white 0 ≠ KeyRef.ofId released.m_curKeyDown :=
  ⟨reachableBy_reachable _ _ released reachableBy_released, by decide, by decide, by decide,
    by decide⟩

/-- C23 (amended): in every state reachable by timer expiries, calls of `keyUp` and calls
of `keyDown`, where each call of `keyDown` that changes the current key is made only when
no press-down timer is registered, every press-down timer is on the current key, which
then is the id of a key; so at most one key has a press-down timer.  Lift timers are not
restricted. -/
theorem one_key_easing_down (s : KeyboardKeys) (h : ReachableBy AfterPress AnyCall s) :
    (∀ tm ∈ s.timers, tm.callback = .pressDownKey →
      IsKeyId s.m_curKeyDown ∧ tm.param = KeyRef.ofId s.m_curKeyDown) ∧
    (∀ r : KeyRef, s.hasTimer .pressDownKey r →
      IsKeyId s.m_curKeyDown ∧ r = KeyRef.ofId s.m_curKeyDown) ∧
    (∀ r q : KeyRef, s.hasTimer .pressDownKey r → s.hasTimer .pressDownKey q → r = q) := by
  have hp := press_on_current s h
  have hr : ∀ r : KeyRef, s.hasTimer .pressDownKey r →
      IsKeyId s.m_curKeyDown ∧ r = KeyRef.ofId s.m_curKeyDown := by
    rintro r ⟨tm, hmem, hcb, hpr⟩
    obtain ⟨h1, h2⟩ := hp tm hmem hcb
    exact ⟨h1, by rw [← hpr, h2]⟩
  refine ⟨hp, hr, ?_⟩
  intro r q h1 h2
  rw [(hr r h1).2, (hr q h2).2]

/-- Witness of C23 in the state `relayed`, reached by `keyDown(0)`, `keyDown(-2)` and
`keyDown(1)`, each after the press-down timer before it has removed itself: white key `0`
and black key `0` both have a lift timer, and the one press-down timer is on the current
key, white key `1`. -/
theorem one_key_easing_down_witness :
    ReachableBy AfterPress AnyCall relayed ∧
    relayed.hasTimer .liftUpKey (.white 0) ∧ relayed.hasTimer .liftUpKey (.black 0) ∧
    relayed.hasTimer .pressDownKey (.white 1) ∧ relayed.m_curKeyDown = 1 ∧
    (∀ r : KeyRef, relayed.hasTimer .pressDownKey r →
      r = KeyRef.ofId relayed.m_curKeyDown) :=
  ⟨reachableBy_relayed, by decide, by decide, by decide, by decide,
   fun r hr => ((one_key_easing_down relayed reachableBy_relayed).2.1 r hr).2⟩


/-! ## The endpoints of the travel of a key -/

/-- C13 (amended): `OneKeyboardKey::keyIsMoving` is `false` at the upper endpoint of the
travel, level `0`, and `true` at every intermediate level `−N < level < 0` and also at the
lower endpoint, level `−N = −5`; it is `false` again for every level below `−N`, the
position that the comment of the function calls below level `−5`. -/
theorem keyIsMoving_endpoints (k : OneKeyboardKey) :
    (k.m_keyLevel = 0 → k.keyIsMoving = false) ∧
    (-NUM_INTERVALS < k.m_keyLevel ∧ k.m_keyLevel < 0 → k.keyIsMoving = true) ∧
    (k.m_keyLevel = -NUM_INTERVALS → k.keyIsMoving = true) ∧
    (k.m_keyLevel < -NUM_INTERVALS → k.keyIsMoving = false) := by
  unfold OneKeyboardKey.keyIsMoving NUM_INTERVALS
  refine ⟨fun h => ?_, fun h => ?_, fun h => ?_, fun h => ?_⟩
  · rw [if_pos (Or.inl (by omega))]
  · rw [if_neg (by omega)]
  · rw [if_neg (by omega)]
  · rw [if_pos (Or.inr h)]

/-- Witness of C13 on a new key pressed down three times, at level `−3`, and on a new key,
at level `0`. -/
theorem keyIsMoving_endpoints_witness :
    (OneKeyboardKey.keyDown^[3]
      (OneKeyboardKey.new .whiteR Transform.new "o" "p")).m_keyLevel = -3 ∧
    (OneKeyboardKey.keyDown^[3]
      (OneKeyboardKey.new .whiteR Transform.new "o" "p")).keyIsMoving = true ∧
    (OneKeyboardKey.new .whiteR Transform.new "o" "p").keyIsMoving = false :=
  have hl : (OneKeyboardKey.keyDown^[3]
      (OneKeyboardKey.new .whiteR Transform.new "o" "p")).m_keyLevel = -3 := by
    rw [keyDown_iterate_level]; rfl
  ⟨hl,
   (keyIsMoving_endpoints (OneKeyboardKey.keyDown^[3]
      (OneKeyboardKey.new .whiteR Transform.new "o" "p"))).2.1
      ⟨by rw [hl]; decide, by rw [hl]; decide⟩,
   (keyIsMoving_endpoints (OneKeyboardKey.new .whiteR Transform.new "o" "p")).1 rfl⟩

/-! ## The positions of the white keys in the arithmetic of the source -/

/-- C26 (counterexample): with the moves of the constructor made in the arithmetic of the
source, where `m_pos.x` is a `float` and each `moveRight` rounds, white key `23` is built
at `x = 904397/16384 = 55.20001220703125`, not at `23·Δx = 55.2`.  At the `float` nearest to
`55.2`, `x = 14470349/262144 = 55.200000762939453125`, which lies in `[0, 52·Δx)`,
`getSelectedKey` returns the white index `23`, yet the position of `whiteKeys[23]` is
greater than `x`: `w·Δx ≤ x` holds, but `w·Δx` is not where the key has been placed. -/
theorem white_key_under_counterexample :
    toFloat (276 / 5) = 14470349 / 262144 ∧
    (0 : ℚ) ≤ 14470349 / 262144 ∧
    (14470349 / 262144 : ℚ) < (NUM_WHITE_KEYS : ℚ) * X_DIFF_BETWEEN_WHITE_KEYS ∧
    getSelectedKey ⟨14470349 / 262144, 0, 0⟩ = 23 ∧
    (KeyboardKeys.newFloat "res").bind (fun s => s.whiteX 23) = some (904397 / 16384) ∧
    (14470349 / 262144 : ℚ) < 904397 / 16384 ∧
    (904397 / 16384 : ℚ) ≠ 23 * X_DIFF_BETWEEN_WHITE_KEYS ∧
    (KeyboardKeys.new "res").bind (fun s => s.whiteX 23)
      = some (23 * X_DIFF_BETWEEN_WHITE_KEYS) := by
  refine ⟨by decide!, by norm_num, by norm_num [NUM_WHITE_KEYS, X_DIFF_BETWEEN_WHITE_KEYS],
    ?_, by decide!, by norm_num, by norm_num [X_DIFF_BETWEEN_WHITE_KEYS], by decide!⟩
  rw [getSelectedKey_at ⟨14470349 / 262144, 0, 0⟩ 3 (14470349 / 262144 / (12 / 5) - 21)
    (by norm_num [X_DIFF_BETWEEN_WHITE_KEYS]) (by norm_num [X_DIFF_BETWEEN_WHITE_KEYS])
    (by norm_num [X_DIFF_BETWEEN_WHITE_KEYS]) (by norm_num) (by norm_num)]
  norm_num [octaveTable]

end VirtualKeyboard
